import Mathlib

/-!
# Verification of the anchor-based EPUB/DOCX translation pipeline

Shallow embedding of the core of the `AI-EPUB-Translator` repository:

* `src/core/epub_anchor_processor.py` — anchor extraction / restoration for
  HTML, block creation, request formatting, response validation and parsing;
* `src/core/docx_anchor_processor.py` — the WordprocessingML variant;
* `src/core/processor.py` — chunk grouping, cache loading / re-validation,
  the per-chunk pipeline step and the mirror-update guard.

Python strings are modelled as `List Char`; Python functions become Lean
functions on these lists, with explicit fuel where the Python loop is not
structurally recursive (the fuel supplied by the wrappers is always
sufficient, equal to the length of the scanned string).
-/

namespace AET

/-- Characters treated as whitespace by Python's `str.strip`, `str.isspace`
and the regex class `\s` (unicode mode): ASCII control whitespace,
the information separators, space, NEL, NBSP and the unicode space ranges. -/
def isPySpace (c : Char) : Bool :=
  c = ' ' ∨ c = '\t' ∨ c = '\n' ∨ c = '\x0b' ∨ c = '\x0c' ∨ c = '\r' ∨
  c = '\x1c' ∨ c = '\x1d' ∨ c = '\x1e' ∨ c = '\x1f' ∨
  c = '\x85' ∨ c = '\xa0' ∨ c = ' ' ∨
  (0x2000 ≤ c.toNat ∧ c.toNat ≤ 0x200a) ∨
  c = ' ' ∨ c = ' ' ∨ c = ' ' ∨ c = ' ' ∨ c = '　'

/-- Remove trailing Python-whitespace characters. -/
def dropTrailingSpace (s : List Char) : List Char :=
  (s.reverse.dropWhile isPySpace).reverse

/-- Python `str.strip()`: remove leading and trailing whitespace. -/
def pyStrip (s : List Char) : List Char :=
  dropTrailingSpace (s.dropWhile isPySpace)

/-- Python `str.split('\n')`: split at every newline, keeping empty fields. -/
def splitNl : List Char → List (List Char)
  | [] => [[]]
  | c :: rest =>
    if c = '\n' then [] :: splitNl rest
    else
      match splitNl rest with
      | l :: ls => (c :: l) :: ls
      | [] => [[c]]

/-- The decimal digit character for `d < 10`. -/
def digitChar (d : Nat) : Char := Char.ofNat (48 + d)

/-- Fueled decimal-representation loop (most significant digit first). -/
def natCharsGo : Nat → Nat → List Char → List Char
  | 0, n, acc => digitChar (n % 10) :: acc
  | fuel + 1, n, acc =>
    if n < 10 then digitChar n :: acc
    else natCharsGo fuel (n / 10) (digitChar (n % 10) :: acc)

/-- Python `str(n)` for a natural number. -/
def natChars (n : Nat) : List Char := natCharsGo n n []

/-- `get_block_delimiters(index)` (both processors): the 1-based block
delimiter `[[index+1]]`; opening and closing delimiter are the same tag. -/
def blockDelimiter (index : Nat) : List Char :=
  '[' :: '[' :: (natChars (index + 1) ++ [']', ']'])

/-- The loop body of `get_inner_delimiters`: repeatedly emit
`chr(65 + temp % 26)` and update `temp := temp // 26 - 1` while `temp ≥ 0`.
Python floor division agrees with Lean integer division on the nonnegative
operands used here. -/
def innerCodeGo : Nat → Int → List Char → List Char
  | 0, _, res => res
  | fuel + 1, temp, res =>
    if temp ≥ 0 then
      innerCodeGo fuel (temp / 26 - 1) (Char.ofNat (65 + (temp % 26).toNat) :: res)
    else res

/-- `get_inner_delimiters(index)` (both processors): the base-26 letter code
wrapped in double parentheses, `((A))`, `((B))`, …, `((AA))`, …. -/
def innerDelimiter (index : Nat) : List Char :=
  '(' :: '(' :: (innerCodeGo (index + 1) (Int.ofNat index) [] ++ [')', ')'])

/-- Character class `[A-Z0-9]` of the internal-anchor regex. -/
def isUpperDigit (c : Char) : Bool :=
  ('A' ≤ c ∧ c ≤ 'Z') ∨ ('0' ≤ c ∧ c ≤ '9')

/-- Attempt to match the regex `\(\([A-Z0-9]+\)\)` at the head of `s`;
on success return the matched text and the remainder after the match.
Because `)` is not in `[A-Z0-9]`, the greedy `+` never needs backtracking:
taking the maximal run of `[A-Z0-9]` and then requiring `))` is exact. -/
def matchAnchorAt (s : List Char) : Option (List Char × List Char) :=
  match s with
  | c1 :: c2 :: rest =>
    if c1 = '(' ∧ c2 = '(' then
      if (rest.takeWhile isUpperDigit).isEmpty then none
      else if (rest.dropWhile isUpperDigit).take 2 = [')', ')'] then
        some ('(' :: '(' :: (rest.takeWhile isUpperDigit ++ [')', ')']),
          (rest.dropWhile isUpperDigit).drop 2)
      else none
    else none
  | _ => none

/-- Fueled scan for `re.findall(r'\(\([A-Z0-9]+\)\)', s)`: leftmost,
non-overlapping matches. -/
def findAnchorsGo : Nat → List Char → List (List Char)
  | 0, _ => []
  | fuel + 1, s =>
    match s with
    | [] => []
    | _ :: tail =>
      match matchAnchorAt s with
      | some (m, rest) => m :: findAnchorsGo fuel rest
      | none => findAnchorsGo fuel tail

/-- `re.findall(r'\(\([A-Z0-9]+\)\)', s)`. -/
def findAnchors (s : List Char) : List (List Char) := findAnchorsGo s.length s

/-- Fueled scan for Python `s.count(p)` (`p` nonempty): the number of
non-overlapping occurrences of `p`, scanning left to right. -/
def pyCountGo (p : List Char) : Nat → List Char → Nat
  | 0, _ => 0
  | _ + 1, [] => 0
  | fuel + 1, c :: tail =>
    if p.isPrefixOf (c :: tail) then 1 + pyCountGo p fuel ((c :: tail).drop p.length)
    else pyCountGo p fuel tail

/-- Python `s.count(p)` for a nonempty pattern `p`. -/
def pyCount (p s : List Char) : Nat := pyCountGo p s.length s

/-- Deduplicate keeping first occurrences (used to model iteration over
Python's `set(...)`; the set order is unspecified in Python, so this is a
deterministic refinement — first-occurrence order). -/
def dedupFirstGo {α : Type} [DecidableEq α] : List α → List α → List α
  | _, [] => []
  | seen, a :: l =>
    if a ∈ seen then dedupFirstGo seen l
    else a :: dedupFirstGo (a :: seen) l

/-- First-occurrence deduplication. -/
def dedupFirst {α : Type} [DecidableEq α] (l : List α) : List α :=
  dedupFirstGo [] l

/-- Shorthand for string literals as character lists. -/
def str (s : String) : List Char := s.data

/-- The per-line body of `check_anchor_format` for position `i`:
strip the line, require it to start and end with the block delimiter
`[[i+1]]`, then require every internal anchor appearing in the line to
occur an even number of times.  Returns `some errorMessage` or `none`. -/
def checkLine (i : Nat) (line0 : List Char) : Option (List Char) :=
  let line := pyStrip line0
  let ds := blockDelimiter i
  if ¬((ds.isPrefixOf line) ∧ (ds.isSuffixOf line)) then
    some (str "delimiter_mismatch")
  else
    match (dedupFirst (findAnchors line)).find? (fun a => pyCount a line % 2 ≠ 0) with
    | some a => some (str "unbalanced_internal_" ++ a)
    | none => none

/-- Iterate `checkLine` over the surviving lines, with 0-based positions. -/
def checkLinesGo : Nat → List (List Char) → List Char
  | _, [] => str "ok"
  | i, l :: ls =>
    match checkLine i l with
    | some err => err
    | none => checkLinesGo (i + 1) ls

/-- `check_anchor_format(text, expected_count)` — identical in
`EPubAnchorProcessor` and `DocxAnchorProcessor`: strip the text, split on
newlines, discard blank lines, compare the surviving line count with
`expected_count`, then run the per-line delimiter and anchor-balance checks. -/
def checkAnchorFormat (text : List Char) (expectedCount : Nat) : List Char :=
  let lines := splitNl (pyStrip text)
  let validLines := lines.filter (fun l => ¬(pyStrip l).isEmpty)
  if validLines.length ≠ expectedCount then str "line_count_mismatch"
  else checkLinesGo 0 validLines

/-- Any error produced by the per-line check is either a delimiter mismatch
or an unbalanced-internal-anchor message. -/
lemma checkLine_shape (i : Nat) (l : List Char) (e : List Char)
    (h : checkLine i l = some e) :
    e = str "delimiter_mismatch" ∨ ∃ a, e = str "unbalanced_internal_" ++ a := by
  simp only [checkLine] at h
  split at h
  · exact Or.inl (Option.some.inj h).symm
  · split at h
    next a _ => exact Or.inr ⟨a, (Option.some.inj h).symm⟩
    next => exact absurd h (by simp)

/-- The per-line phase never reports a line-count mismatch. -/
lemma checkLinesGo_ne_lcm (ls : List (List Char)) :
    ∀ i, checkLinesGo i ls ≠ str "line_count_mismatch" := by
  induction ls with
  | nil =>
    intro i h
    simp only [checkLinesGo] at h
    exact absurd h (by decide)
  | cons l ls ih =>
    intro i h
    cases hc : checkLine i l with
    | none =>
      simp only [checkLinesGo, hc] at h
      exact ih (i + 1) h
    | some e =>
      simp only [checkLinesGo, hc] at h
      rcases checkLine_shape i l e hc with he | ⟨a, he⟩
      · rw [he] at h; exact absurd h (by decide)
      · rw [he] at h
        have h2 : ('u' :: (str "nbalanced_internal_" ++ a) : List Char) =
            str "line_count_mismatch" := h
        exact absurd (List.cons.inj h2).1 (by decide)

/-- `check_anchor_format` reports `line_count_mismatch` exactly when the
number of nonblank lines of the stripped input differs from the expected
block count. -/
lemma checkAnchorFormat_lcm_iff (text : List Char) (n : Nat) :
    checkAnchorFormat text n = str "line_count_mismatch" ↔
      ((splitNl (pyStrip text)).filter
        (fun l => ¬(pyStrip l).isEmpty)).length ≠ n := by
  simp only [checkAnchorFormat]
  split
  next hne => exact iff_of_true rfl hne
  next heq => exact iff_of_false (checkLinesGo_ne_lcm _ 0) heq

/-- C3 (counterexample): the claim asserts that `check_anchor_format` on the
input `"[[1]]Hi((A))there[[1]]"` (one expected block, a single `((A))`)
returns `unbalanced_internal_(A)`.  The code builds the message from the
full regex match including both parenthesis pairs, so it actually returns
`unbalanced_internal_((A))`, a different string. -/
theorem C3_unbalanced_message_counterexample :
    checkAnchorFormat (str "[[1]]Hi((A))there[[1]]") 1 =
        str "unbalanced_internal_((A))" ∧
      checkAnchorFormat (str "[[1]]Hi((A))there[[1]]") 1 ≠
        str "unbalanced_internal_(A)" := by
  constructor
  · decide
  · decide

/-- C3 (amended): `check_anchor_format` splits on newlines, discards blank
lines, and returns `line_count_mismatch` exactly when the surviving line
count differs from the expected count; otherwise each position-`i` line must
start and end with `[[i+1]]` (else `delimiter_mismatch`), and every internal
anchor must occur an even number of times in its line — an anchor `((A))`
occurring an odd number of times is reported as `unbalanced_internal_((A))`,
the full matched anchor including its double parentheses.  For two expected
blocks, `"[[1]]Hello[[1]]\n[[2]]World[[2]]"` yields `ok` and a one-line
input yields `line_count_mismatch`; a line with swapped delimiters yields
`delimiter_mismatch`. -/
theorem C3_check_anchor_format :
    checkAnchorFormat (str "[[1]]Hello[[1]]\n[[2]]World[[2]]") 2 = str "ok"
    ∧ checkAnchorFormat (str "[[1]]Hello[[1]]") 2 = str "line_count_mismatch"
    ∧ checkAnchorFormat (str "[[2]]Hi[[2]]") 1 = str "delimiter_mismatch"
    ∧ checkAnchorFormat (str "[[1]]Hi((A))there[[1]]") 1 =
        str "unbalanced_internal_((A))"
    ∧ ∀ text n, (checkAnchorFormat text n = str "line_count_mismatch" ↔
        ((splitNl (pyStrip text)).filter
          (fun l => ¬(pyStrip l).isEmpty)).length ≠ n) := by
  refine ⟨by decide, by decide, by decide, by decide, ?_⟩
  exact checkAnchorFormat_lcm_iff

/-! ## Chunk records and cache loading (`processor.py`) -/

/-- A chunk record: request text (`orig`), response text (`trans`), the
global indices of its blocks, the validity flag and the recorded error kind
(`error_type` is absent until a validation has run). -/
structure Chunk where
  orig : List Char
  trans : List Char
  blockIndices : List Nat
  isError : Bool
  errorType : Option (List Char)
deriving Repr, DecidableEq

/-- The replacement used by `load_cache` when a per-chunk record is missing:
`{"orig": "", "trans": "", "block_indices": [], "is_error": False}`. -/
def defaultChunk : Chunk :=
  { orig := [], trans := [], blockIndices := [], isError := false,
    errorType := none }

/-- The aggregation loop of `load_cache`: read each chunk record by index
from the per-chunk store, substituting `defaultChunk` when the record is
missing (or empty, which is falsy in Python). -/
def aggregateChunks (total : Nat) (store : Nat → Option Chunk) : List Chunk :=
  (List.range total).map (fun i => (store i).getD defaultChunk)

/-- The body of `validate_all_chunks` for one chunk: an untranslated chunk
is marked not-in-error; otherwise the translated text is re-checked with
`check_anchor_format` (the shared body behind `check_chunk_format`, which
dispatches to the identical EPUB/DOCX implementations) and `is_error` is set
exactly when the check is not `"ok"`. -/
def validateChunk (c : Chunk) : Chunk :=
  if c.trans.isEmpty then { c with isError := false }
  else
    let errorType := checkAnchorFormat c.trans c.blockIndices.length
    { c with isError := decide (errorType ≠ str "ok"), errorType := some errorType }

/-- `validate_all_chunks` over the single chunk-managing file entry. -/
def validateAllChunks (chunks : List Chunk) : List Chunk :=
  chunks.map validateChunk

/-- `load_cache`: aggregate the per-chunk records (with defaults for missing
ones) and then re-validate every chunk. -/
def loadCache (total : Nat) (store : Nat → Option Chunk) : List Chunk :=
  validateAllChunks (aggregateChunks total store)

/-- C7: loading substitutes an empty, untranslated, not-in-error chunk for a
missing record, and after loading every chunk with non-empty translated text
carries `is_error = (check ≠ ok)` for the same format check used on service
responses, while chunks with empty translated text are marked not-in-error. -/
theorem C7_load_cache_defaults_and_revalidation (total : Nat)
    (store : Nat → Option Chunk) :
    (loadCache total store).length = total
    ∧ (∀ i, ∀ h : i < (loadCache total store).length, store i = none →
        (loadCache total store).get ⟨i, h⟩ = defaultChunk)
    ∧ (∀ i, ∀ h : i < (loadCache total store).length,
        let c := (loadCache total store).get ⟨i, h⟩
        (c.trans = [] → c.isError = false)
        ∧ (c.trans ≠ [] →
            (c.isError = true ↔
              checkAnchorFormat c.trans c.blockIndices.length ≠ str "ok")
            ∧ c.errorType =
              some (checkAnchorFormat c.trans c.blockIndices.length))) := by
  have hlen : (loadCache total store).length = total := by
    simp [loadCache, validateAllChunks, aggregateChunks]
  refine ⟨hlen, ?_, ?_⟩
  · intro i h hmiss
    have hi : i < total := hlen ▸ h
    simp [loadCache, validateAllChunks, aggregateChunks, List.getElem_map,
      hmiss, validateChunk, defaultChunk]
  · intro i h
    set c := (loadCache total store).get ⟨i, h⟩ with hc
    have hshape : ∃ c0, c = validateChunk c0 := by
      refine ⟨(aggregateChunks total store).get
        ⟨i, by simpa [loadCache, validateAllChunks] using h⟩, ?_⟩
      simp [hc, loadCache, validateAllChunks, List.getElem_map]
    obtain ⟨c0, hc0⟩ := hshape
    constructor
    · intro htr
      rw [hc0]
      unfold validateChunk
      split
      · rfl
      · next hne =>
        exfalso
        have : c.trans = (validateChunk c0).trans := by rw [hc0]
        unfold validateChunk at this
        rw [if_neg hne] at this
        simp only [htr] at this
        simp only [List.isEmpty_iff] at hne
        exact hne this.symm
    · intro htr
      rw [hc0] at htr ⊢
      unfold validateChunk at htr ⊢
      split at htr
      · next hem =>
        exfalso
        simp only [List.isEmpty_iff] at hem
        simp [hem] at htr
      · next hne =>
        simp only [List.isEmpty_iff] at hne
        constructor
        · simp [hne]
        · simp [hne]

/-! ## Chunk grouping (`process_epub_anchor_init` / `process_docx_anchor_init`) -/

/-- The greedy grouping loop shared by both init functions: blocks are
`(global index, char size)` pairs; the running chunk is flushed exactly when
adding the next block would exceed the budget and the chunk is non-empty. -/
def greedyGo (maxChars : Nat) : List (Nat × Nat) → List Nat → Nat → List (List Nat)
  | [], cur, _ => if cur.isEmpty then [] else [cur]
  | (i, sz) :: rest, cur, curSize =>
    if curSize + sz > maxChars ∧ ¬cur.isEmpty then
      cur :: greedyGo maxChars rest [i] sz
    else
      greedyGo maxChars rest (cur ++ [i]) (curSize + sz)

/-- `process_docx_anchor_init` grouping: a single greedy pass over the whole
flattened block list (`for i, block in enumerate(all_blocks)`), ignoring
document-part boundaries. -/
def docxGroups (maxChars : Nat) (sizes : List Nat) : List (List Nat) :=
  greedyGo maxChars sizes.enum [] 0

/-- `process_epub_anchor_init` grouping: one greedy pass per file, over that
file's block range, restarting the running chunk at each file boundary. -/
def epubGroupsGo (maxChars : Nat) : Nat → List (List Nat) → List (List Nat)
  | _, [] => []
  | start, p :: rest =>
    greedyGo maxChars (p.enumFrom start) [] 0 ++
      epubGroupsGo maxChars (start + p.length) rest

/-- `process_epub_anchor_init` grouping over the per-part size lists. -/
def epubGroups (maxChars : Nat) (parts : List (List Nat)) : List (List Nat) :=
  epubGroupsGo maxChars 0 parts

/-- The 0-based index of the document part containing global block index
`i`, for parts given by their per-part size lists. -/
def partOf (parts : List (List Nat)) (i : Nat) : Nat :=
  match parts with
  | [] => 0
  | p :: rest => if i < p.length then 0 else partOf rest (i - p.length) + 1

lemma enumFrom_append_eq (l₁ l₂ : List Nat) :
    ∀ n, (l₁ ++ l₂).enumFrom n = l₁.enumFrom n ++ l₂.enumFrom (n + l₁.length) := by
  induction l₁ with
  | nil => intro n; simp [List.enumFrom]
  | cons a l ih =>
    intro n
    show (n, a) :: ((l ++ l₂).enumFrom (n + 1)) =
      (n, a) :: (l.enumFrom (n + 1) ++ l₂.enumFrom (n + (l.length + 1)))
    rw [ih (n + 1), show n + 1 + l.length = n + (l.length + 1) by omega]

lemma enumFrom_map_fst_eq (l : List Nat) :
    ∀ n, (l.enumFrom n).map Prod.fst = List.range' n l.length := by
  induction l with
  | nil => intro n; simp [List.enumFrom]
  | cons a l ih => intro n; simp [List.enumFrom, List.range', ih (n + 1)]

lemma enumFrom_getD (l : List Nat) :
    ∀ (n : Nat) (p : Nat × Nat), p ∈ l.enumFrom n →
      n ≤ p.1 ∧ l.getD (p.1 - n) 0 = p.2 := by
  induction l with
  | nil => intro n p hp; simp [List.enumFrom] at hp
  | cons a l ih =>
    intro n p hp
    simp only [List.enumFrom, List.mem_cons] at hp
    rcases hp with rfl | hp
    · simp
    · obtain ⟨h1, h2⟩ := ih (n + 1) p hp
      refine ⟨by omega, ?_⟩
      have : p.1 - n = (p.1 - (n + 1)) + 1 := by omega
      simpa [this] using h2

/-- The concatenation of the groups produced by the greedy loop is the
running chunk followed by the indices of the remaining blocks, in order. -/
lemma greedyGo_flatten (maxChars : Nat) :
    ∀ (bs : List (Nat × Nat)) (cur : List Nat) (curSize : Nat),
      (greedyGo maxChars bs cur curSize).flatten = cur ++ bs.map Prod.fst := by
  intro bs
  induction bs with
  | nil =>
    intro cur curSize
    by_cases h : cur.isEmpty
    · simp_all [greedyGo, List.isEmpty_iff]
    · simp_all [greedyGo]
  | cons p rest ih =>
    intro cur curSize
    obtain ⟨i, sz⟩ := p
    unfold greedyGo
    split
    · simp [ih]
    · simp [ih]

/-- Budget invariant of the greedy loop: every emitted group has total size
at most the budget, or is a single block. -/
lemma greedyGo_budget (maxChars : Nat) (f : Nat → Nat) :
    ∀ (bs : List (Nat × Nat)) (cur : List Nat) (curSize : Nat),
      (∀ p ∈ bs, f p.1 = p.2) →
      curSize = (cur.map f).sum →
      (curSize ≤ maxChars ∨ cur.length = 1) →
      ∀ g ∈ greedyGo maxChars bs cur curSize,
        (g.map f).sum ≤ maxChars ∨ g.length = 1 := by
  intro bs
  induction bs with
  | nil =>
    intro cur curSize _ hsum hinv g hg
    unfold greedyGo at hg
    split at hg
    · simp at hg
    · simp only [List.mem_singleton] at hg
      subst hg
      rcases hinv with h | h
      · exact Or.inl (hsum ▸ h)
      · exact Or.inr h
  | cons p rest ih =>
    intro cur curSize hf hsum hinv g hg
    obtain ⟨i, sz⟩ := p
    have hfi : f i = sz := hf (i, sz) (List.mem_cons_self _ _)
    have hf2 : ∀ q ∈ rest, f q.1 = q.2 := fun q hq => hf q (List.mem_cons_of_mem _ hq)
    unfold greedyGo at hg
    split at hg
    · rcases List.mem_cons.1 hg with rfl | hg2
      · rcases hinv with h | h
        · exact Or.inl (hsum ▸ h)
        · exact Or.inr h
      · exact ih [i] sz hf2 (by simp [hfi]) (Or.inr rfl) g hg2
    · next hcond =>
      rcases Decidable.not_and_iff_or_not.1 hcond with h | h
      · exact ih (cur ++ [i]) (curSize + sz) hf2
          (by simp [hsum, hfi]) (Or.inl (by omega)) g hg
      · have hcur : cur = [] := by
          simpa [List.isEmpty_iff] using Decidable.not_not.1 h
        subst hcur
        have hsz : curSize = 0 := by simpa using hsum
        exact ih ([] ++ [i]) (curSize + sz) hf2 (by simp [hsz, hfi])
          (Or.inr (by simp)) g hg

/-- The flattening of the epub grouping is the ascending index range. -/
lemma epubGroupsGo_flatten (maxChars : Nat) :
    ∀ (ps : List (List Nat)) (start : Nat),
      (epubGroupsGo maxChars start ps).flatten =
        List.range' start ps.flatten.length := by
  intro ps
  induction ps with
  | nil => intro start; simp [epubGroupsGo]
  | cons p rest ih =>
    intro start
    show (greedyGo maxChars (p.enumFrom start) [] 0 ++
        epubGroupsGo maxChars (start + p.length) rest).flatten = _
    rw [List.flatten_append, greedyGo_flatten, ih (start + p.length),
      enumFrom_map_fst_eq]
    simp only [List.nil_append, List.flatten_cons, List.length_append]
    rw [Nat.add_comm p.length rest.flatten.length, ← List.range'_append_1]

/-- Every index in a greedy group comes from the running chunk or from the
remaining block list. -/
lemma greedyGo_mem (maxChars : Nat) (bs : List (Nat × Nat)) (cur : List Nat)
    (curSize : Nat) (g : List Nat) (hg : g ∈ greedyGo maxChars bs cur curSize)
    (i : Nat) (hi : i ∈ g) : i ∈ cur ++ bs.map Prod.fst := by
  rw [← greedyGo_flatten maxChars bs cur curSize]
  exact List.mem_flatten.2 ⟨g, hg, hi⟩

/-- Every index in an epub group lies in the processed index range. -/
lemma epubGroupsGo_mem (maxChars : Nat) (ps : List (List Nat)) (start : Nat)
    (g : List Nat) (hg : g ∈ epubGroupsGo maxChars start ps)
    (i : Nat) (hi : i ∈ g) : i ∈ List.range' start ps.flatten.length := by
  rw [← epubGroupsGo_flatten maxChars ps start]
  exact List.mem_flatten.2 ⟨g, hg, hi⟩

/-- All indices of one epub chunk belong to the same document part. -/
lemma epubGroupsGo_same_part (maxChars : Nat) :
    ∀ (ps : List (List Nat)) (start : Nat) (g : List Nat),
      g ∈ epubGroupsGo maxChars start ps →
      ∀ i ∈ g, ∀ j ∈ g, partOf ps (i - start) = partOf ps (j - start) := by
  intro ps
  induction ps with
  | nil => intro start g hg; simp [epubGroupsGo] at hg
  | cons p rest ih =>
    intro start g hg i hi j hj
    have hsplit : g ∈ greedyGo maxChars (p.enumFrom start) [] 0 ∨
        g ∈ epubGroupsGo maxChars (start + p.length) rest := by
      simpa [epubGroupsGo] using hg
    have hzero : ∀ k, k ∈ g → g ∈ greedyGo maxChars (p.enumFrom start) [] 0 →
        partOf (p :: rest) (k - start) = 0 := by
      intro k hk hg2
      have hmem : k ∈ ([] : List Nat) ++ (p.enumFrom start).map Prod.fst :=
        greedyGo_mem maxChars _ _ _ g hg2 k hk
      rw [List.nil_append, enumFrom_map_fst_eq] at hmem
      have hb := List.mem_range'_1.1 hmem
      have : k - start < p.length := by omega
      simp [partOf, this]
    rcases hsplit with hA | hB
    · rw [hzero i hi hA, hzero j hj hA]
    · have hbound : ∀ k, k ∈ g → start + p.length ≤ k := by
        intro k hk
        have := epubGroupsGo_mem maxChars rest (start + p.length) g hB k hk
        exact (List.mem_range'_1.1 this).1
      have hstep : ∀ k, k ∈ g →
          partOf (p :: rest) (k - start) =
            partOf rest (k - (start + p.length)) + 1 := by
        intro k hk
        have h1 := hbound k hk
        have h2 : ¬(k - start < p.length) := by omega
        have h3 : k - start - p.length = k - (start + p.length) := by omega
        simp [partOf, h2, h3]
      rw [hstep i hi, hstep j hj, ih (start + p.length) g hB i hi j hj]

/-- C4 (counterexample): the DOCX init groups greedily over the whole
flattened block list, ignoring document-part boundaries.  With two parts of
one block each (sizes 1 and 1) and budget 10, the single produced chunk
`[0, 1]` contains blocks from two different parts. -/
theorem C4_docx_groups_cross_parts_counterexample :
    ([[1], [1]] : List (List Nat)).flatten = [1, 1]
    ∧ docxGroups 10 [1, 1] = [[0, 1]]
    ∧ partOf [[1], [1]] 0 = 0
    ∧ partOf [[1], [1]] 1 = 1
    ∧ partOf [[1], [1]] 0 ≠ partOf [[1], [1]] 1 := by
  decide

/-- C4 (amended): both groupers pack blocks greedily left to right, keeping
the running total at or under budget and starting a new chunk exactly when
the next block would overflow a non-empty chunk, so a chunk's total exceeds
the budget only when it is a single block; the concatenation of all chunks
is exactly the ascending block index range (no block split, none dropped).
In the EPUB variant the pass restarts per file, so no chunk mixes blocks of
two parts; the DOCX variant runs one pass over the whole document, and its
chunks may cross part boundaries (see the counterexample). -/
theorem C4_chunk_grouping (maxChars : Nat) (parts : List (List Nat)) :
    (∀ g ∈ epubGroups maxChars parts,
        (g.map (fun i => parts.flatten.getD i 0)).sum ≤ maxChars ∨ g.length = 1)
    ∧ (epubGroups maxChars parts).flatten = List.range' 0 parts.flatten.length
    ∧ (∀ g ∈ epubGroups maxChars parts, ∀ i ∈ g, ∀ j ∈ g,
        partOf parts i = partOf parts j)
    ∧ (∀ sizes : List Nat, ∀ g ∈ docxGroups maxChars sizes,
        (g.map (fun i => sizes.getD i 0)).sum ≤ maxChars ∨ g.length = 1)
    ∧ (∀ sizes : List Nat,
        (docxGroups maxChars sizes).flatten = List.range' 0 sizes.length) := by
  refine ⟨?_, ?_, ?_, ?_, ?_⟩
  · intro g hg
    have hf : ∀ q ∈ parts.flatten.enumFrom 0,
        (fun i => parts.flatten.getD i 0) q.1 = q.2 := by
      intro q hq
      simpa using (enumFrom_getD parts.flatten 0 q hq).2
    revert hg
    have main : ∀ (ps : List (List Nat)) (start : Nat),
        (∀ q ∈ ps.flatten.enumFrom start,
          (fun i => parts.flatten.getD i 0) q.1 = q.2) →
        ∀ g ∈ epubGroupsGo maxChars start ps,
          (g.map (fun i => parts.flatten.getD i 0)).sum ≤ maxChars ∨
            g.length = 1 := by
      intro ps
      induction ps with
      | nil => intro start _ g hg; simp [epubGroupsGo] at hg
      | cons p rest ih =>
        intro start hq g hg
        have hsplit : g ∈ greedyGo maxChars (p.enumFrom start) [] 0 ∨
            g ∈ epubGroupsGo maxChars (start + p.length) rest := by
          simpa [epubGroupsGo] using hg
        have happ : (p :: rest).flatten.enumFrom start =
            p.enumFrom start ++ rest.flatten.enumFrom (start + p.length) := by
          simpa using enumFrom_append_eq p rest.flatten start
        rcases hsplit with hA | hB
        · exact greedyGo_budget maxChars _ (p.enumFrom start) [] 0
            (fun q hqq => hq q (happ ▸ List.mem_append_left _ hqq))
            (by simp) (Or.inl (Nat.zero_le _)) g hA
        · exact ih (start + p.length)
            (fun q hqq => hq q (happ ▸ List.mem_append_right _ hqq)) g hB
    intro hg
    exact main parts 0 hf g hg
  · exact epubGroupsGo_flatten maxChars parts 0
  · intro g hg i hi j hj
    have := epubGroupsGo_same_part maxChars parts 0 g hg i hi j hj
    simpa using this
  · intro sizes g hg
    have hf : ∀ q ∈ sizes.enum, (fun i => sizes.getD i 0) q.1 = q.2 := by
      intro q hq
      have hq2 : q ∈ sizes.enumFrom 0 := by simpa [List.enum] using hq
      simpa using (enumFrom_getD sizes 0 q hq2).2
    exact greedyGo_budget maxChars _ sizes.enum [] 0 hf (by simp)
      (Or.inl (Nat.zero_le _)) g hg
  · intro sizes
    show (greedyGo maxChars sizes.enum [] 0).flatten = _
    rw [greedyGo_flatten]
    simp [List.enum, enumFrom_map_fst_eq]

/-- Witness for `C4_chunk_grouping`: concrete instantiation with budget 3,
parts `[[2, 2], [1]]` (epub) and sizes `[5]` (docx single oversized block). -/
theorem C4_chunk_grouping_witness :
    ((([1] : List Nat).map
        (fun i => ([[2, 2], [1]] : List (List Nat)).flatten.getD i 0)).sum ≤ 3 ∨
      ([1] : List Nat).length = 1)
    ∧ (epubGroups 3 [[2, 2], [1]]).flatten =
        List.range' 0 ([[2, 2], [1]] : List (List Nat)).flatten.length
    ∧ partOf [[2, 2], [1]] 0 = partOf [[2, 2], [1]] 0
    ∧ ((([0] : List Nat).map (fun i => ([5] : List Nat).getD i 0)).sum ≤ 3 ∨
        ([0] : List Nat).length = 1)
    ∧ (docxGroups 3 [5]).flatten = List.range' 0 ([5] : List Nat).length := by
  have h := C4_chunk_grouping 3 [[2, 2], [1]]
  have h2 := C4_chunk_grouping 3 [[2, 2], [1]]
  exact ⟨h.1 [1] (by decide), h.2.1,
    h.2.2.1 [0] (by decide) 0 (by decide) 0 (by decide),
    h2.2.2.2.1 [5] [0] (by decide), h2.2.2.2.2 [5]⟩

/-- A concrete two-chunk store whose record 1 is missing. -/
def c7Store : Nat → Option Chunk := fun i =>
  if i = 0 then
    some { orig := str "q", trans := str "[[1]]Hi[[1]]", blockIndices := [7],
           isError := true, errorType := none }
  else none

/-- Witness for `C7_load_cache_defaults_and_revalidation`: with two chunks
and record 1 missing, loading yields the default chunk at index 1 and
re-validates the translated chunk at index 0. -/
theorem C7_load_cache_witness :
    (loadCache 2 c7Store).length = 2
    ∧ (loadCache 2 c7Store).get ⟨1, by decide⟩ = defaultChunk
    ∧ (((loadCache 2 c7Store).get ⟨0, by decide⟩).isError = true ↔
        checkAnchorFormat ((loadCache 2 c7Store).get ⟨0, by decide⟩).trans
          ((loadCache 2 c7Store).get ⟨0, by decide⟩).blockIndices.length ≠
          str "ok") := by
  have h := C7_load_cache_defaults_and_revalidation 2 c7Store
  refine ⟨h.1, h.2.1 1 (by decide) (by decide), ?_⟩
  exact ((h.2.2 0 (by decide)).2 (by decide)).1

/-! ## Response parsing (`validate_and_parse_response`, both processors) -/

/-- Position of the first occurrence of the nonempty pattern `p` in `s`
(fueled scan). -/
def findIndexGo (p : List Char) : Nat → List Char → Option Nat
  | 0, _ => none
  | fuel + 1, s =>
    if p.isPrefixOf s then some 0
    else
      match s with
      | [] => none
      | _ :: tail => (findIndexGo p fuel tail).map (· + 1)

/-- Position of the first occurrence of `p` in `s`. -/
def findIndex (p s : List Char) : Option Nat := findIndexGo p (s.length + 1) s

/-- `re.search(escape(ds) + '(.*?)' + escape(ds), content, re.DOTALL)` for a
block delimiter `ds` (which has no nontrivial border, so occurrences cannot
overlap): the match starts at the first occurrence of `ds`; the lazy group
runs to the next occurrence of `ds`.  If the first occurrence has no second
occurrence after it there is no match at all, since any later occurrence
would itself serve as that second occurrence.  Returns the group text and
the end position of the match. -/
def searchPair (ds s : List Char) : Option (List Char × Nat) :=
  match findIndex ds s with
  | none => none
  | some q0 =>
    let after := s.drop (q0 + ds.length)
    match findIndex ds after with
    | none => none
    | some q1 => some (after.take q1, q0 + ds.length + q1 + ds.length)

/-- The position loop of `validate_and_parse_response`: for each block
position, search the unconsumed tail of the response for the delimited
segment; on success emit its stripped content and consume up to the match
end, on failure emit the block's original text, leave the tail unconsumed,
and clear the success flag. -/
def vprGo : Nat → List Char → List (List Char) → List (List Char) × Bool
  | _, _, [] => ([], true)
  | i, content, orig :: rest =>
    match searchPair (blockDelimiter i) content with
    | some (inner, endPos) =>
      let r := vprGo (i + 1) (content.drop endPos) rest
      (pyStrip inner :: r.1, r.2)
    | none =>
      let r := vprGo (i + 1) content rest
      (orig :: r.1, false)

/-- The per-position found/missing trace of the same loop. -/
def vprFound : Nat → List Char → List (List Char) → List Bool
  | _, _, [] => []
  | i, content, _ :: rest =>
    match searchPair (blockDelimiter i) content with
    | some (_, endPos) => true :: vprFound (i + 1) (content.drop endPos) rest
    | none => false :: vprFound (i + 1) content rest

/-- `validate_and_parse_response(response_text, original_group)`: identical
in both processors.  The final length re-check of the Python code is kept
verbatim (it can never fire, as proved below). -/
def validateAndParseResponse (responseText : List Char)
    (origTexts : List (List Char)) : List (List Char) × Bool :=
  let r := vprGo 0 (pyStrip responseText) origTexts
  (r.1, if r.1.length ≠ origTexts.length then false else r.2)

lemma vprGo_spec :
    ∀ (orig : List (List Char)) (i : Nat) (content : List Char),
      (vprGo i content orig).1.length = orig.length
      ∧ ((vprGo i content orig).2 = true ↔
          ∀ b ∈ vprFound i content orig, b = true)
      ∧ ∀ k, (vprFound i content orig).getD k true = false →
          (vprGo i content orig).1.getD k [] = orig.getD k [] := by
  intro orig
  induction orig with
  | nil =>
    intro i content
    refine ⟨rfl, by simp [vprGo, vprFound], ?_⟩
    intro k hk
    simp [vprFound] at hk
  | cons o rest ih =>
    intro i content
    cases hs : searchPair (blockDelimiter i) content with
    | some pr =>
      obtain ⟨inner, endPos⟩ := pr
      have h1 := ih (i + 1) (content.drop endPos)
      refine ⟨?_, ?_, ?_⟩
      · simp [vprGo, hs, h1.1]
      · simp only [vprGo, hs, vprFound]
        rw [h1.2.1]
        simp
      · intro k hk
        simp only [vprFound, hs] at hk
        cases k with
        | zero => simp at hk
        | succ k =>
          simp only [List.getD_cons_succ] at hk
          simpa [vprGo, hs] using h1.2.2 k hk
    | none =>
      have h1 := ih (i + 1) content
      refine ⟨?_, ?_, ?_⟩
      · simp [vprGo, hs, h1.1]
      · simp only [vprGo, hs, vprFound]
        constructor
        · intro h; exact absurd h (by simp)
        · intro h
          exact absurd (h false (by simp)) (by simp)
      · intro k hk
        simp only [vprFound, hs] at hk
        cases k with
        | zero => simp [vprGo, hs]
        | succ k =>
          simp only [List.getD_cons_succ] at hk
          simpa [vprGo, hs] using h1.2.2 k hk

/-- C10: the response parser is total — it always returns exactly one
translated text per block of the group; a position whose delimited segment
cannot be found in the unconsumed response text receives the block's
original untranslated text and forces the success flag to `False`; the flag
is `True` exactly when every position was found. -/
theorem C10_response_parsing_totality_and_fallback (response : List Char)
    (orig : List (List Char)) :
    (validateAndParseResponse response orig).1.length = orig.length
    ∧ ((validateAndParseResponse response orig).2 = true ↔
        ∀ b ∈ vprFound 0 (pyStrip response) orig, b = true)
    ∧ ∀ k, (vprFound 0 (pyStrip response) orig).getD k true = false →
        (validateAndParseResponse response orig).1.getD k [] =
          orig.getD k [] := by
  have h := vprGo_spec orig 0 (pyStrip response)
  refine ⟨?_, ?_, ?_⟩
  · simpa [validateAndParseResponse] using h.1
  · simp only [validateAndParseResponse]
    rw [if_neg (by simp [h.1])]
    exact h.2.1
  · intro k hk
    simpa [validateAndParseResponse] using h.2.2 k hk

/-- Witness for `C10_response_parsing_totality_and_fallback`: a response
containing only block 1 of a two-block group keeps block 2's original text
and reports failure. -/
theorem C10_response_parsing_witness :
    (validateAndParseResponse (str "[[1]]Bonjour[[1]] noise")
        [str "Hello", str "World"]).1.length = 2
    ∧ (validateAndParseResponse (str "[[1]]Bonjour[[1]] noise")
        [str "Hello", str "World"]).1.getD 1 [] = str "World" := by
  have h := C10_response_parsing_totality_and_fallback
    (str "[[1]]Bonjour[[1]] noise") [str "Hello", str "World"]
  exact ⟨h.1, h.2.2 1 (by decide)⟩

/-! ## The pipeline step and the mirror guard (`process_run`,
`process_chunk_task`, `apply_chunk_to_mirror`) -/

/-- The cached document state used by the pipeline step: the per-file chunk
lists, the global block texts (`all_blocks[idx]["text"]`), the block-index
to part-path map (`block_to_file`, keyed in Python by `str(b_idx)`), and
the resume pointer (`current_flat_idx`). -/
structure CachedData where
  files : List (List Chunk)
  allBlocks : List (List Char)
  blockToFile : Nat → Option (List Char)
  currentFlatIdx : Nat

/-- The pipeline state: cached data plus the source mirror, modelled as a
map from part path to part content of an abstract content type `σ`. -/
structure PipeState (σ : Type) where
  cd : CachedData
  mirror : List Char → σ

/-- Replace the chunk at flat index `i` across the per-file chunk lists
(the flat ordering of `flat_list` / `apply_chunk_to_mirror`'s counter). -/
def setFlatChunk : List (List Chunk) → Nat → Chunk → List (List Chunk)
  | [], _, _ => []
  | f :: fs, i, c =>
    if i < f.length then f.set i c :: fs
    else f :: setFlatChunk fs (i - f.length) c

/-- `apply_chunk_to_mirror(input_path, cached_data, chunk_idx)`: locate the
chunk by flat index; return the mirror unchanged if the chunk has no
translated text, is flagged as error, or if its response cannot be fully
parsed (`validate_and_parse_response` not ok); otherwise rewrite each
affected part (deduplicated `block_to_file` images of the chunk's block
indices, skipping missing entries) through the abstract per-file restore
operation `restoreFile (path, old content, list of (block index, translated
text) pairs belonging to that part)`. -/
def applyChunkToMirror {σ : Type}
    (restoreFile : List Char → σ → List (Nat × List Char) → σ)
    (cd : CachedData) (mirror : List Char → σ) (chunkIdx : Nat) :
    List Char → σ :=
  match cd.files.flatten.get? chunkIdx with
  | none => mirror
  | some chunk =>
    if chunk.trans.isEmpty then mirror
    else if chunk.isError then mirror
    else
      let groupTexts := chunk.blockIndices.map (fun idx => cd.allBlocks.getD idx [])
      let r := validateAndParseResponse chunk.trans groupTexts
      if ¬r.2 then mirror
      else
        let affected := dedupFirst (chunk.blockIndices.map cd.blockToFile)
        affected.foldl
          (fun m rp =>
            match rp with
            | none => m
            | some relPath =>
              let pairs := (chunk.blockIndices.zip r.1).filter
                (fun p => cd.blockToFile p.1 = some relPath)
              fun path => if path = relPath then restoreFile relPath (m relPath) pairs
                else m path)
          mirror

/-- The critical section of `process_chunk_task(i)` after the translate
call returned `translation`: store the response, validate it, set the error
fields, apply the chunk to the mirror only when validation is `ok`, and
advance the resume pointer to `i + 1` only in whole-run mode
(`target_indices is None`) and only when `i` is at or beyond the pointer. -/
def processChunkTask {σ : Type}
    (restoreFile : List Char → σ → List (Nat × List Char) → σ)
    (targetNone : Bool) (st : PipeState σ) (i : Nat)
    (translation : List Char) : PipeState σ :=
  match st.cd.files.flatten.get? i with
  | none => st
  | some chunk =>
    let errorType := checkAnchorFormat translation chunk.blockIndices.length
    let chunk2 := { chunk with trans := translation, errorType := some errorType, isError := decide (errorType ≠ str "ok") }
    let cd2 := { st.cd with files := setFlatChunk st.cd.files i chunk2 }
    let mirror2 :=
      if errorType = str "ok" then applyChunkToMirror restoreFile cd2 st.mirror i
      else st.mirror
    let cd3 :=
      if targetNone ∧ cd2.currentFlatIdx ≤ i then
        { cd2 with currentFlatIdx := i + 1 }
      else cd2
    { cd := cd3, mirror := mirror2 }

lemma setFlatChunk_flatten (c : Chunk) :
    ∀ (files : List (List Chunk)) (i : Nat),
      (setFlatChunk files i c).flatten = files.flatten.set i c := by
  intro files
  induction files with
  | nil => intro i; simp [setFlatChunk]
  | cons f fs ih =>
    intro i
    by_cases h : i < f.length
    · simp [setFlatChunk, h, List.set_append, if_pos h]
    · simp [setFlatChunk, h, List.set_append, ih (i - f.length)]

/-- C2: in the pipeline step, the mirror is written only when the chunk's
validation is `ok`: a failing format check leaves the whole mirror
unchanged and flags the chunk as error; independently,
`apply_chunk_to_mirror` is a no-op for a chunk flagged as error and for a
chunk whose response cannot be fully parsed into per-block texts. -/
theorem C2_mirror_written_only_when_valid {σ : Type}
    (restoreFile : List Char → σ → List (Nat × List Char) → σ)
    (targetNone : Bool) (st : PipeState σ) (i : Nat) (translation : List Char) :
    (∀ chunk, st.cd.files.flatten.get? i = some chunk →
      checkAnchorFormat translation chunk.blockIndices.length ≠ str "ok" →
      (processChunkTask restoreFile targetNone st i translation).mirror = st.mirror
      ∧ ∀ chunk2,
          (processChunkTask restoreFile targetNone st i translation).cd.files.flatten.get? i
            = some chunk2 → chunk2.isError = true)
    ∧ (∀ chunkIdx chunk, st.cd.files.flatten.get? chunkIdx = some chunk →
        chunk.isError = true →
        applyChunkToMirror restoreFile st.cd st.mirror chunkIdx = st.mirror)
    ∧ (∀ chunkIdx chunk, st.cd.files.flatten.get? chunkIdx = some chunk →
        (validateAndParseResponse chunk.trans
          (chunk.blockIndices.map (fun idx => st.cd.allBlocks.getD idx []))).2 = false →
        applyChunkToMirror restoreFile st.cd st.mirror chunkIdx = st.mirror) := by
  refine ⟨?_, ?_, ?_⟩
  · intro chunk hget hbad
    have hi : i < st.cd.files.flatten.length := by
      rcases List.get?_eq_some.1 hget with ⟨h, _⟩
      exact h
    constructor
    · simp only [processChunkTask, hget]
      rw [if_neg hbad]
    · intro chunk2 hget2
      simp only [processChunkTask, hget] at hget2
      split at hget2 <;>
      · simp only at hget2
        rw [setFlatChunk_flatten, List.get?_eq_getElem?,
          List.getElem?_set_eq_of_lt _ hi] at hget2
        have := Option.some.inj hget2
        rw [← this]
        simp [hbad]
  · intro chunkIdx chunk hget herr
    simp only [applyChunkToMirror, hget]
    by_cases htr : chunk.trans.isEmpty
    · rw [if_pos htr]
    · rw [if_neg htr, if_pos herr]
  · intro chunkIdx chunk hget hparse
    simp only [applyChunkToMirror, hget]
    by_cases htr : chunk.trans.isEmpty
    · rw [if_pos htr]
    · rw [if_neg htr]
      by_cases herr2 : chunk.isError
      · rw [if_pos herr2]
      · rw [if_neg herr2, if_pos (by simpa using hparse)]

/-- C8: the resume pointer is set to `i + 1` exactly when the run is in
whole-document mode and `i` is at or beyond the current pointer (and the
flat index exists); a single step never decreases it, and consequently the
pointer is non-decreasing across any sequence of chunk completions in any
order. -/
theorem C8_resume_pointer_monotone {σ : Type}
    (restoreFile : List Char → σ → List (Nat × List Char) → σ)
    (targetNone : Bool) :
    (∀ (st : PipeState σ) (i : Nat) (translation : List Char) chunk,
      st.cd.files.flatten.get? i = some chunk →
      (processChunkTask restoreFile targetNone st i translation).cd.currentFlatIdx =
        if targetNone ∧ st.cd.currentFlatIdx ≤ i then i + 1
        else st.cd.currentFlatIdx)
    ∧ (∀ (st : PipeState σ) (i : Nat) (translation : List Char),
        st.cd.currentFlatIdx ≤
          (processChunkTask restoreFile targetNone st i translation).cd.currentFlatIdx)
    ∧ (∀ (steps : List (Nat × List Char)) (st : PipeState σ),
        st.cd.currentFlatIdx ≤
          (steps.foldl
            (fun s p => processChunkTask restoreFile targetNone s p.1 p.2)
            st).cd.currentFlatIdx) := by
  have hstep : ∀ (st : PipeState σ) (i : Nat) (translation : List Char),
      st.cd.currentFlatIdx ≤
        (processChunkTask restoreFile targetNone st i translation).cd.currentFlatIdx := by
    intro st i translation
    simp only [processChunkTask]
    split
    · exact le_refl _
    · split
      · next h => exact Nat.le_succ_of_le h.2
      · exact le_refl _
  refine ⟨?_, hstep, ?_⟩
  · intro st i translation chunk hget
    simp only [processChunkTask, hget]
    split
    · rfl
    · rfl
  · intro steps
    induction steps with
    | nil => intro st; exact le_refl _
    | cons p rest ih =>
      intro st
      exact le_trans (hstep st p.1 p.2) (ih _)

/-- A concrete chunk flagged as error, with an unparseable response. -/
def c2Chunk : Chunk :=
  { orig := str "x", trans := str "old", blockIndices := [0], isError := true,
    errorType := none }

/-- A concrete one-file pipeline state over mirror contents of type
`List Char`. -/
def c2State : PipeState (List Char) :=
  { cd := { files := [[c2Chunk]], allBlocks := [str "B0"],
            blockToFile := fun _ => some (str "part.xhtml"),
            currentFlatIdx := 0 },
    mirror := fun _ => str "mirror-content" }

/-- A concrete per-file restore operation. -/
def c2Restore : List Char → List Char → List (Nat × List Char) → List Char :=
  fun _ old _ => old

/-- Witness for `C2_mirror_written_only_when_valid`: a failing format check
leaves the concrete mirror unchanged, and `apply_chunk_to_mirror` on the
error-flagged chunk is a no-op. -/
theorem C2_mirror_guard_witness :
    (processChunkTask c2Restore true c2State 0 (str "garbage")).mirror =
        c2State.mirror
    ∧ applyChunkToMirror c2Restore c2State.cd c2State.mirror 0 =
        c2State.mirror := by
  have h := C2_mirror_written_only_when_valid c2Restore true c2State 0
    (str "garbage")
  exact ⟨(h.1 c2Chunk rfl (by decide)).1, h.2.1 0 c2Chunk rfl rfl⟩

/-- Witness for `C8_resume_pointer_monotone`: completing chunk 0 with the
pointer at 0 in whole-run mode advances the pointer to 1. -/
theorem C8_resume_pointer_witness :
    (processChunkTask c2Restore true c2State 0 (str "t")).cd.currentFlatIdx = 1 := by
  have h := C8_resume_pointer_monotone c2Restore true
  rw [h.1 c2State 0 (str "t") c2Chunk rfl]
  decide

/-! ## WordprocessingML node model (`docx_anchor_processor.py`) -/

/-- A parsed XML node: a text node, or an element with an optional
namespace prefix, a local name, an attribute list (insertion order
preserved, as in `dict(node.attrs)`) and children. -/
inductive XNode where
  | text (s : List Char)
  | elem (pfx : Option (List Char)) (name : List Char)
      (attrs : List (List Char × List Char)) (children : List XNode)

/-- `f"{node.prefix}:{node.name}" if node.prefix else node.name`. -/
def tagNameOf (pfx : Option (List Char)) (name : List Char) : List Char :=
  match pfx with
  | some p => p ++ (':' :: name)
  | none => name

/-- Serialization of one XML attribute pair, ` k="v"`. -/
def serAttrs : List (List Char × List Char) → List Char
  | [] => []
  | (k, v) :: rest => ' ' :: (k ++ ('=' :: '"' :: v ++ ['"'])) ++ serAttrs rest

/-- XML text escaping used by the tree service on output (`&`, `<`, `>`). -/
def escXmlChar (c : Char) : List Char :=
  if c = '&' then str "&amp;"
  else if c = '<' then str "&lt;"
  else if c = '>' then str "&gt;"
  else [c]

/-- Escape a text run for serialization. -/
def escXml (s : List Char) : List Char := (s.map escXmlChar).flatten

mutual
/-- `str(node)` for the XML tree service (empty elements are serialized
with an explicit closing tag; the self-closing shorthand is not
distinguished by this model). -/
def xser : XNode → List Char
  | .text s => escXml s
  | .elem pfx name attrs children =>
    '<' :: (tagNameOf pfx name ++ serAttrs attrs ++ ['>']) ++
      xserList children ++ ('<' :: '/' :: (tagNameOf pfx name ++ ['>']))

/-- Serialization of a node list (`decode_contents`). -/
def xserList : List XNode → List Char
  | [] => []
  | n :: rest => xser n ++ xserList rest
end

/-- An absorbed property child (`w:rPr`, `w:pPr`, `w:proofErr`): tag name,
attributes, and serialized original content. -/
structure DProp where
  tag : List Char
  attrs : List (List Char × List Char)
  content : List Char
deriving Repr, DecidableEq

/-- A manifest entry appended by the DOCX internal-anchoring phase:
`{'id', 'tag', 'attrs', 'type': 'container', 'is_internal': True,
'inner_props'}`. -/
structure DTag where
  id : List Char
  tag : List Char
  attrs : List (List Char × List Char)
  innerProps : List DProp
deriving Repr, DecidableEq

/-- Python `s.replace('<','&lt;').replace('>','&gt;')` — the text escaping
of `recursive_extract` (note: `&` is not escaped there). -/
def escLtGt (s : List Char) : List Char :=
  (s.map (fun c =>
    if c = '<' then str "&lt;" else if c = '>' then str "&gt;" else [c])).flatten

/-- The absorbed-property names of the DOCX extractor. -/
def isPropName (name : List Char) : Bool :=
  name = str "rPr" ∨ name = str "pPr" ∨ name = str "proofErr"

mutual
/-- `recursive_extract(node)` of `DocxAnchorProcessor
.extract_block_with_local_ids`, with the mutable `local_counter` and
`format_tags` threaded explicitly: a text node contributes its
angle-escaped text; a `t` element is transparent; any other element
extracts its children, absorbing `rPr`/`pPr`/`proofErr` children as
properties; a run (`r`) whose extracted content has no `'⟬'` character and
no absorbed properties is returned bare; every other element is wrapped in
a fresh paired anchor and appends its container entry post-order. -/
def dExtractNode (n : XNode) (counter : Nat) (tags : List DTag) :
    List Char × Nat × List DTag :=
  match n with
  | .text s => (escLtGt s, counter, tags)
  | .elem pfx name attrs children =>
    if name = str "t" then dExtractPlainList children counter tags
    else
      match dExtractChildren children counter tags with
      | (inner, props, c1, t1) =>
        if name = str "r" ∧ ¬inner.contains '⟬' ∧ props.isEmpty then
          (inner, c1, t1)
        else
          let delim := innerDelimiter c1
          (delim ++ inner ++ delim, c1 + 1,
            t1 ++ [{ id := delim, tag := tagNameOf pfx name, attrs := attrs,
                     innerProps := props }])

/-- The child loop of `recursive_extract` for a container: absorb property
children in order, extract the rest recursively, threading the state. -/
def dExtractChildren (ns : List XNode) (counter : Nat) (tags : List DTag) :
    List Char × List DProp × Nat × List DTag :=
  match ns with
  | [] => ([], [], counter, tags)
  | n :: rest =>
    match n with
    | .elem pfx name attrs children =>
      if isPropName name then
        match dExtractChildren rest counter tags with
        | (txt, props, c1, t1) =>
          (txt, { tag := tagNameOf pfx name, attrs := attrs,
                  content := if children.isEmpty then [] else xserList children }
              :: props, c1, t1)
      else
        match dExtractNode n counter tags with
        | (part, c1, t1) =>
          match dExtractChildren rest c1 t1 with
          | (txt, props, c2, t2) => (part ++ txt, props, c2, t2)
    | .text _ =>
      match dExtractNode n counter tags with
      | (part, c1, t1) =>
        match dExtractChildren rest c1 t1 with
        | (txt, props, c2, t2) => (part ++ txt, props, c2, t2)

/-- The transparent `t` case: plain concatenation over all children
(`"".join(recursive_extract(c) for c in node.children)`).  Also models the
internal-anchoring pass over the top-level contents of a segment. -/
def dExtractPlainList (ns : List XNode) (counter : Nat) (tags : List DTag) :
    List Char × Nat × List DTag :=
  match ns with
  | [] => ([], counter, tags)
  | n :: rest =>
    match dExtractNode n counter tags with
    | (part, c1, t1) =>
      match dExtractPlainList rest c1 t1 with
      | (txt, c2, t2) => (part ++ txt, c2, t2)
end

/-- `recursive_extract` started on one node with a fresh per-block state. -/
def docxRecursiveExtract (n : XNode) : List Char × Nat × List DTag :=
  dExtractNode n 0 []

/-- C5 (evaluation at the failing input): for the run `<w:r><w:ruby/></w:r>`
the recursively extracted inner content is `((A))((A))` — it does contain
anchors — yet the run is emitted as bare text with no anchor of its own,
and the only manifest entry belongs to the `w:ruby` child.  The code's
minimization guard checks for the legacy anchor glyph `'⟬'`, which the
current `((A))`-style delimiters never contain, so the "inner content
contains no further anchors" condition of the claim (and of the code's own
comment) is never actually enforced. -/
theorem C5_run_minimization_guard_vestigial :
    (docxRecursiveExtract
      (XNode.elem (some (str "w")) (str "r") []
        [XNode.elem (some (str "w")) (str "ruby") [] []])).1 = str "((A))((A))"
    ∧ (docxRecursiveExtract
        (XNode.elem (some (str "w")) (str "r") []
          [XNode.elem (some (str "w")) (str "ruby") [] []])).2.2.length = 1
    ∧ ∀ t ∈ (docxRecursiveExtract
        (XNode.elem (some (str "w")) (str "r") []
          [XNode.elem (some (str "w")) (str "ruby") [] []])).2.2,
        t.tag = str "w:ruby" := by
  decide

/-! ## Empty-block filtering and char sizes (`tag_and_add_block`,
`create_blocks_from_soup`) -/

/-- Digits `[0-9]`. -/
def isDigitCh (c : Char) : Bool := '0' ≤ c ∧ c ≤ '9'

/-- Capital letters `[A-Z]`. -/
def isUpperCh (c : Char) : Bool := 'A' ≤ c ∧ c ≤ 'Z'

/-- Match `\[\[\d+\]\]` at the head of `s`, returning the remainder. -/
def matchBlockDelimAt (s : List Char) : Option (List Char) :=
  match s with
  | '[' :: '[' :: rest =>
    if (rest.takeWhile isDigitCh).isEmpty then none
    else
      match rest.dropWhile isDigitCh with
      | ']' :: ']' :: r => some r
      | _ => none
  | _ => none

/-- Match `\(\([A-Z]+\)\)` (letters only, as in the epub cleaning regex) at
the head of `s`, returning the remainder. -/
def matchUpperAnchorAt (s : List Char) : Option (List Char) :=
  match s with
  | '(' :: '(' :: rest =>
    if (rest.takeWhile isUpperCh).isEmpty then none
    else
      match rest.dropWhile isUpperCh with
      | ')' :: ')' :: r => some r
      | _ => none
  | _ => none

/-- Fueled scan for
`re.sub(r'\[\[\d+\]\]|\(\([A-Z]+\)\)|\s| ', '', text)` of
`tag_and_add_block` (EPUB): delete block delimiters, internal anchors and
whitespace. -/
def epubCleanGo : Nat → List Char → List Char
  | 0, _ => []
  | _ + 1, [] => []
  | fuel + 1, c :: tail =>
    match matchBlockDelimAt (c :: tail) with
    | some rest => epubCleanGo fuel rest
    | none =>
      match matchUpperAnchorAt (c :: tail) with
      | some rest => epubCleanGo fuel rest
      | none =>
        if isPySpace c then epubCleanGo fuel tail
        else c :: epubCleanGo fuel tail

/-- The EPUB block-cleaning substitution. -/
def epubCleanText (s : List Char) : List Char := epubCleanGo s.length s

/-- The character class `[⩀-⪣⭀-⮣]` — the legacy
delimiter pools still declared in both processors' constructors. -/
def isLegacyDelim (c : Char) : Bool :=
  (0x2A40 ≤ c.toNat ∧ c.toNat ≤ 0x2AA3) ∨ (0x2B40 ≤ c.toNat ∧ c.toNat ≤ 0x2BA3)

/-- `re.sub(r'[⩀-⪣⭀-⮣\s ]', '', text)` of
`create_blocks_from_soup` (DOCX): delete legacy delimiter code points and
whitespace — not the `[[n]]` / `((A))` anchors actually in use. -/
def docxCleanText (s : List Char) : List Char :=
  s.filter (fun c => ¬(isLegacyDelim c ∨ isPySpace c))

/-- The keep/size decision of `tag_and_add_block` (EPUB): discard when the
cleaned text is empty, otherwise record `len(clean_text)` as the size. -/
def epubKeepBlock (text : List Char) : Option Nat :=
  let clean := epubCleanText text
  if clean.isEmpty then none else some clean.length

/-- The keep/size decision of `create_blocks_from_soup` (DOCX). -/
def docxKeepBlock (text : List Char) : Option Nat :=
  let clean := docxCleanText text
  if clean.isEmpty then none else some clean.length

/-- C6 (evaluation at the failing input): the DOCX segment
`<w:t>Hi</w:t><w:ruby><w:t>X</w:t></w:ruby>` flattens to `Hi((A))X((A))`
(the fold loop does not change this two-node segment, both edge nodes carry
text).  The claim says its recorded char size is the length of the
anchor-and-whitespace-stripped text (3, as the EPUB path indeed computes),
but the DOCX path strips only the legacy `U+2A40–U+2AA3` / `U+2B40–U+2BA3`
delimiter pools and whitespace, recording size 13; likewise a pure
anchor-and-whitespace text such as `((A)) ((A))`, which the claim says is
discarded, is kept by the DOCX path with size 10. -/
theorem C6_docx_clean_strips_legacy_delims_only :
    (dExtractPlainList
      [XNode.elem (some (str "w")) (str "t") [] [XNode.text (str "Hi")],
       XNode.elem (some (str "w")) (str "ruby") []
         [XNode.elem (some (str "w")) (str "t") [] [XNode.text (str "X")]]]
      0 []).1 = str "Hi((A))X((A))"
    ∧ docxCleanText (str "Hi((A))X((A))") = str "Hi((A))X((A))"
    ∧ docxKeepBlock (str "Hi((A))X((A))") = some 13
    ∧ epubCleanText (str "Hi((A))X((A))") = str "HiX"
    ∧ epubKeepBlock (str "Hi((A))X((A))") = some 3
    ∧ docxKeepBlock (str "((A)) ((A))") = some 10
    ∧ epubKeepBlock (str "((A)) ((A))") = none := by
  decide

/-! ## Request formatting (`format_for_ai`) and the round trip through the
validator -/

/-- The line list of `format_for_ai`, starting at block position `i`:
each block's text wrapped in its position's delimiter pair. -/
def formatLines : Nat → List (List Char) → List (List Char)
  | _, [] => []
  | i, t :: rest => (blockDelimiter i ++ t ++ blockDelimiter i) :: formatLines (i + 1) rest

/-- `"\n".join(lines)`. -/
def joinNl : List (List Char) → List Char
  | [] => []
  | [l] => l
  | l :: l2 :: rest => l ++ '\n' :: joinNl (l2 :: rest)

/-- `format_for_ai(group_blocks)` (identical in both processors): one
delimiter-wrapped block per line. -/
def formatForAI (texts : List (List Char)) : List Char :=
  joinNl (formatLines 0 texts)

/-! ### Fuel stability for the fueled scanners -/

lemma pyCountGo_fuel (p : List Char) (hp : p ≠ []) :
    ∀ (fuel₁ : Nat) (fuel₂ : Nat) (s : List Char), s.length ≤ fuel₁ →
      s.length ≤ fuel₂ → pyCountGo p fuel₁ s = pyCountGo p fuel₂ s := by
  intro fuel₁
  induction fuel₁ with
  | zero =>
    intro fuel₂ s h1 _
    have : s = [] := List.length_eq_zero.1 (Nat.le_zero.1 h1)
    subst this
    cases fuel₂ <;> rfl
  | succ fuel ih =>
    intro fuel₂ s h1 h2
    cases s with
    | nil => cases fuel₂ <;> rfl
    | cons c tail =>
      simp only [List.length_cons] at h1 h2
      obtain ⟨f₂, rfl⟩ : ∃ f₂, fuel₂ = f₂ + 1 := by
        cases fuel₂ with
        | zero => omega
        | succ f => exact ⟨f, rfl⟩
      show (if p.isPrefixOf (c :: tail) then
          1 + pyCountGo p fuel ((c :: tail).drop p.length)
        else pyCountGo p fuel tail) =
        (if p.isPrefixOf (c :: tail) then
          1 + pyCountGo p f₂ ((c :: tail).drop p.length)
        else pyCountGo p f₂ tail)
      have hp1 : 1 ≤ p.length := by
        cases p with
        | nil => exact absurd rfl hp
        | cons a b => simp
      have hdrop : ((c :: tail).drop p.length).length ≤ tail.length := by
        simp only [List.length_drop, List.length_cons]
        omega
      by_cases hpre : p.isPrefixOf (c :: tail)
      · rw [if_pos hpre, if_pos hpre,
          ih f₂ ((c :: tail).drop p.length) (by omega) (by omega)]
      · rw [if_neg hpre, if_neg hpre, ih f₂ tail (by omega) (by omega)]

lemma pyCount_nil (p : List Char) : pyCount p [] = 0 := rfl

/-- One-step unfolding of `pyCount` on a cons cell. -/
lemma pyCount_cons (p : List Char) (hp : p ≠ []) (c : Char) (s : List Char) :
    pyCount p (c :: s) =
      if p.isPrefixOf (c :: s) then 1 + pyCount p ((c :: s).drop p.length)
      else pyCount p s := by
  have hp1 : 1 ≤ p.length := by
    cases p with
    | nil => exact absurd rfl hp
    | cons a b => simp
  show (if p.isPrefixOf (c :: s) then
      1 + pyCountGo p s.length ((c :: s).drop p.length)
    else pyCountGo p s.length s) = _
  have hdrop : ((c :: s).drop p.length).length ≤ s.length := by
    simp only [List.length_drop, List.length_cons]
    omega
  by_cases hpre : p.isPrefixOf (c :: s)
  · rw [if_pos hpre, if_pos hpre,
      pyCountGo_fuel p hp s.length ((c :: s).drop p.length).length _ hdrop le_rfl]
    rfl
  · rw [if_neg hpre, if_neg hpre]
    rfl

lemma takeWhile_length_add_dropWhile_length (p : Char → Bool) (l : List Char) :
    (l.takeWhile p).length + (l.dropWhile p).length = l.length := by
  rw [← List.length_append, List.takeWhile_append_dropWhile]

lemma matchAnchorAt_rest_lt (s m rest : List Char)
    (h : matchAnchorAt s = some (m, rest)) : rest.length < s.length := by
  cases s with
  | nil => exact absurd h (by simp [matchAnchorAt])
  | cons c1 t1 =>
    cases t1 with
    | nil => exact absurd h (by simp [matchAnchorAt])
    | cons c2 r0 =>
      simp only [matchAnchorAt] at h
      split at h
      · split at h
        · exact absurd h (by simp)
        · next hrun =>
          split at h
          · have h2 : (r0.dropWhile isUpperDigit).drop 2 = rest :=
              congrArg Prod.snd (Option.some.inj h)
            have hlen := takeWhile_length_add_dropWhile_length isUpperDigit r0
            have hrun1 : 1 ≤ (r0.takeWhile isUpperDigit).length := by
              simp only [List.isEmpty_iff] at hrun
              cases hq : r0.takeWhile isUpperDigit with
              | nil => exact absurd hq hrun
              | cons a b => simp
            have hdl : ((r0.dropWhile isUpperDigit).drop 2).length =
                (r0.dropWhile isUpperDigit).length - 2 := by simp
            rw [h2] at hdl
            simp only [List.length_cons]
            omega
          · exact absurd h (by simp)
      · exact absurd h (by simp)

lemma findAnchorsGo_fuel :
    ∀ (fuel₁ fuel₂ : Nat) (s : List Char), s.length ≤ fuel₁ →
      s.length ≤ fuel₂ → findAnchorsGo fuel₁ s = findAnchorsGo fuel₂ s := by
  intro fuel₁
  induction fuel₁ with
  | zero =>
    intro fuel₂ s h1 _
    have : s = [] := List.length_eq_zero.1 (Nat.le_zero.1 h1)
    subst this
    cases fuel₂ <;> rfl
  | succ fuel ih =>
    intro fuel₂ s h1 h2
    cases s with
    | nil => cases fuel₂ <;> rfl
    | cons c tail =>
      obtain ⟨f₂, rfl⟩ : ∃ f₂, fuel₂ = f₂ + 1 := by
        cases fuel₂ with
        | zero => simp at h2
        | succ f => exact ⟨f, rfl⟩
      show (match matchAnchorAt (c :: tail) with
          | some (m, rest) => m :: findAnchorsGo fuel rest
          | none => findAnchorsGo fuel tail) =
        (match matchAnchorAt (c :: tail) with
          | some (m, rest) => m :: findAnchorsGo f₂ rest
          | none => findAnchorsGo f₂ tail)
      cases hm : matchAnchorAt (c :: tail) with
      | some pr =>
        obtain ⟨m, rest⟩ := pr
        have hlt := matchAnchorAt_rest_lt _ _ _ hm
        simp only [List.length_cons] at hlt h1 h2
        dsimp only
        rw [ih f₂ rest (by omega) (by omega)]
      | none =>
        dsimp only
        simp only [List.length_cons] at h1 h2
        exact ih f₂ tail (by omega) (by omega)

lemma findAnchors_nil : findAnchors [] = [] := rfl

/-- One-step unfolding of `findAnchors` on a cons cell. -/
lemma findAnchors_cons (c : Char) (s : List Char) :
    findAnchors (c :: s) =
      match matchAnchorAt (c :: s) with
      | some (m, rest) => m :: findAnchors rest
      | none => findAnchors s := by
  show (match matchAnchorAt (c :: s) with
      | some (m, rest) => m :: findAnchorsGo s.length rest
      | none => findAnchorsGo s.length s) = _
  cases hm : matchAnchorAt (c :: s) with
  | some pr =>
    obtain ⟨m, rest⟩ := pr
    have hlt := matchAnchorAt_rest_lt _ _ _ hm
    simp only [List.length_cons] at hlt
    dsimp only
    rw [findAnchorsGo_fuel s.length rest.length rest (by omega) le_rfl]
    rfl
  | none => rfl

lemma mem_of_getLast?_eq {l : List Char} {a : Char} (h : l.getLast? = some a) :
    a ∈ l := by
  induction l with
  | nil => exact absurd h (by simp)
  | cons c t ih =>
    cases t with
    | nil =>
      simp only [List.getLast?_singleton, Option.some.injEq] at h
      simp [h]
    | cons d t2 =>
      rw [List.getLast?_cons_cons] at h
      exact List.mem_cons_of_mem c (ih h)

/-- A pattern containing a character absent from `s` never occurs in `s`. -/
lemma pyCount_eq_zero (p s : List Char) (x : Char) (hx : x ∈ p)
    (hxs : x ∉ s) : pyCount p s = 0 := by
  induction s with
  | nil => rfl
  | cons c tail ih =>
    have hp : p ≠ [] := by
      intro h
      subst h
      simp at hx
    rw [pyCount_cons p hp]
    have hpre : ¬p.isPrefixOf (c :: tail) := by
      intro hcon
      exact hxs ((List.isPrefixOf_iff_prefix.1 hcon).subset hx)
    rw [if_neg hpre]
    exact ih (fun hmem => hxs (List.mem_cons_of_mem c hmem))

/-- Occurrence counting skips a left context that lacks the pattern's head
character. -/
lemma pyCount_append_left (p' ds rest : List Char) (hds : '(' ∉ ds) :
    pyCount ('(' :: p') (ds ++ rest) = pyCount ('(' :: p') rest := by
  induction ds with
  | nil => rfl
  | cons d ds' ih =>
    rw [List.cons_append, pyCount_cons _ (by simp)]
    have hdne : ¬('(' :: p').isPrefixOf (d :: (ds' ++ rest)) := by
      intro hcon
      obtain ⟨t, ht⟩ := List.isPrefixOf_iff_prefix.1 hcon
      rw [List.cons_append] at ht
      exact hds (by simp [← (List.cons.inj ht).1])
    rw [if_neg hdne]
    exact ih (fun hm => hds (List.mem_cons_of_mem d hm))

/-- Occurrence counting ignores a right context that lacks the pattern's
last character: occurrences can neither lie in nor straddle into it. -/
lemma pyCount_append_right (p₀ ds : List Char) (hds : ')' ∉ ds) :
    ∀ (n : Nat) (t : List Char), t.length ≤ n →
      pyCount (p₀ ++ [')']) (t ++ ds) = pyCount (p₀ ++ [')']) t := by
  have hpne : (p₀ ++ [')'] : List Char) ≠ [] := by simp
  have hmem : ')' ∈ p₀ ++ [')'] := List.mem_append_right p₀ (by simp)
  intro n
  induction n with
  | zero =>
    intro t ht
    have : t = [] := List.length_eq_zero.1 (Nat.le_zero.1 ht)
    subst this
    rw [List.nil_append, pyCount_nil]
    exact pyCount_eq_zero _ ds _ hmem hds
  | succ n ih =>
    intro t ht
    cases t with
    | nil =>
      rw [List.nil_append, pyCount_nil]
      exact pyCount_eq_zero _ ds _ hmem hds
    | cons c t2 =>
      simp only [List.length_cons] at ht
      rw [List.cons_append]
      by_cases hpre : (p₀ ++ [')']).isPrefixOf (c :: (t2 ++ ds))
      · have hple : (p₀ ++ [')']).length ≤ (c :: t2).length := by
          by_contra hgt
          push_neg at hgt
          obtain ⟨r, hr⟩ := List.isPrefixOf_iff_prefix.1 hpre
          rw [← List.cons_append] at hr
          have hds2 : ds = (p₀ ++ [')']).drop (c :: t2).length ++ r := by
            have h1 : ((c :: t2) ++ ds).drop (c :: t2).length = ds :=
              List.drop_left ..
            rw [← hr, List.drop_append_eq_append_drop,
              Nat.sub_eq_zero_of_le (Nat.le_of_lt hgt), List.drop_zero] at h1
            exact h1.symm
          have hlen0 : (c :: t2).length ≤ p₀.length := by
            have : (p₀ ++ [')'] : List Char).length = p₀.length + 1 := by simp
            omega
          have hmem2 : ')' ∈ (p₀ ++ [')']).drop (c :: t2).length := by
            rw [List.drop_append_eq_append_drop,
              Nat.sub_eq_zero_of_le hlen0, List.drop_zero]
            exact List.mem_append_right _ (by simp)
          exact hds (hds2 ▸ List.mem_append_left r hmem2)
        have hpre2 : (p₀ ++ [')']).isPrefixOf (c :: t2) := by
          rw [List.isPrefixOf_iff_prefix] at hpre ⊢
          rw [← List.cons_append] at hpre
          exact List.prefix_of_prefix_length_le hpre
            (List.prefix_append _ ds) hple
        rw [pyCount_cons _ hpne, pyCount_cons _ hpne, if_pos hpre,
          if_pos hpre2]
        have hdrop : (c :: (t2 ++ ds)).drop (p₀ ++ [')']).length =
            ((c :: t2).drop (p₀ ++ [')']).length) ++ ds := by
          rw [← List.cons_append, List.drop_append_eq_append_drop,
            Nat.sub_eq_zero_of_le hple, List.drop_zero]
        rw [hdrop, ih ((c :: t2).drop (p₀ ++ [')']).length) (by simp; omega)]
      · have hpre2 : ¬(p₀ ++ [')']).isPrefixOf (c :: t2) := by
          intro hcon
          apply hpre
          rw [List.isPrefixOf_iff_prefix] at hcon ⊢
          rw [← List.cons_append]
          exact hcon.trans (List.prefix_append _ ds)
        rw [pyCount_cons _ hpne, pyCount_cons _ hpne, if_neg hpre,
          if_neg hpre2]
        exact ih t2 (by omega)

/-- Every regex match produced by `matchAnchorAt` is `((L))` for a nonempty
run `L` of `[A-Z0-9]` characters. -/
lemma matchAnchorAt_shape (s m rest : List Char)
    (h : matchAnchorAt s = some (m, rest)) :
    ∃ L : List Char, L ≠ [] ∧ (∀ c ∈ L, isUpperDigit c = true) ∧
      m = '(' :: '(' :: (L ++ [')', ')']) := by
  cases s with
  | nil => exact absurd h (by simp [matchAnchorAt])
  | cons c1 t1 =>
    cases t1 with
    | nil => exact absurd h (by simp [matchAnchorAt])
    | cons c2 r0 =>
      simp only [matchAnchorAt] at h
      split at h
      · split at h
        · exact absurd h (by simp)
        · next hrun =>
          split at h
          · refine ⟨r0.takeWhile isUpperDigit, ?_, ?_, ?_⟩
            · simpa [List.isEmpty_iff] using hrun
            · intro c hc
              exact List.mem_takeWhile_imp hc
            · exact (congrArg Prod.fst (Option.some.inj h)).symm
          · exact absurd h (by simp)
      · exact absurd h (by simp)

/-- Every anchor found by the scan has the `((L))` shape. -/
lemma findAnchorsGo_shape :
    ∀ (fuel : Nat) (s a : List Char), a ∈ findAnchorsGo fuel s →
      ∃ L : List Char, L ≠ [] ∧ (∀ c ∈ L, isUpperDigit c = true) ∧
        a = '(' :: '(' :: (L ++ [')', ')']) := by
  intro fuel
  induction fuel with
  | zero =>
    intro s a ha
    simp [findAnchorsGo] at ha
  | succ fuel ih =>
    intro s a ha
    cases s with
    | nil => simp [findAnchorsGo] at ha
    | cons c tail =>
      cases hm : matchAnchorAt (c :: tail) with
      | some pr =>
        obtain ⟨m, rest⟩ := pr
        simp only [findAnchorsGo, hm] at ha
        rcases List.mem_cons.1 ha with rfl | ha2
        · exact matchAnchorAt_shape _ _ _ hm
        · exact ih rest a ha2
      | none =>
        simp only [findAnchorsGo, hm] at ha
        exact ih tail a ha

lemma dedupFirstGo_subset {α : Type} [DecidableEq α] :
    ∀ (l seen : List α) (a : α), a ∈ dedupFirstGo seen l → a ∈ l := by
  intro l
  induction l with
  | nil =>
    intro seen a ha
    simp [dedupFirstGo] at ha
  | cons b t ih =>
    intro seen a ha
    simp only [dedupFirstGo] at ha
    split at ha
    · exact List.mem_cons_of_mem b (ih seen a ha)
    · rcases List.mem_cons.1 ha with rfl | h2
      · exact List.mem_cons_self ..
      · exact List.mem_cons_of_mem b (ih _ a h2)

lemma dropTrailingSpace_eq_self {s : List Char}
    (h : ∀ c, s.getLast? = some c → isPySpace c = false) :
    dropTrailingSpace s = s := by
  unfold dropTrailingSpace
  cases hs : s.reverse with
  | nil =>
    have : s = [] := by simpa using congrArg List.reverse hs
    simp [this]
  | cons c rest =>
    have hlast : s.getLast? = some c := by
      rw [← List.head?_reverse, hs]
      rfl
    rw [List.dropWhile_cons, h c hlast]
    simp only [Bool.false_eq_true, if_false]
    rw [← hs, List.reverse_reverse]

lemma pyStrip_eq_self {s : List Char}
    (hh : ∀ c, s.head? = some c → isPySpace c = false)
    (hl : ∀ c, s.getLast? = some c → isPySpace c = false) :
    pyStrip s = s := by
  unfold pyStrip
  have h1 : s.dropWhile isPySpace = s := by
    cases s with
    | nil => rfl
    | cons c t =>
      rw [List.dropWhile_cons, hh c rfl]
      simp
  rw [h1]
  exact dropTrailingSpace_eq_self hl

lemma splitNl_no_nl {l : List Char} (h : '\n' ∉ l) : splitNl l = [l] := by
  induction l with
  | nil => rfl
  | cons c t ih =>
    have hc : ¬c = '\n' := fun hc => h (hc ▸ List.mem_cons_self ..)
    have ht : '\n' ∉ t := fun hm => h (List.mem_cons_of_mem c hm)
    simp only [splitNl, if_neg hc, ih ht]

lemma splitNl_cons_ne (c : Char) (t : List Char) (hc : ¬c = '\n') :
    splitNl (c :: t) =
      match splitNl t with
      | l :: ls => (c :: l) :: ls
      | [] => [[c]] := by
  simp [splitNl, if_neg hc]

lemma splitNl_append_nl {l : List Char} (s : List Char) (h : '\n' ∉ l) :
    splitNl (l ++ '\n' :: s) = l :: splitNl s := by
  induction l with
  | nil => simp [splitNl]
  | cons c t ih =>
    have hc : ¬c = '\n' := fun hc => h (hc ▸ List.mem_cons_self ..)
    have ht : '\n' ∉ t := fun hm => h (List.mem_cons_of_mem c hm)
    rw [List.cons_append, splitNl_cons_ne c _ hc, ih ht]

lemma splitNl_joinNl :
    ∀ (lines : List (List Char)), lines ≠ [] →
      (∀ l ∈ lines, '\n' ∉ l) → splitNl (joinNl lines) = lines := by
  intro lines
  induction lines with
  | nil => intro h; exact absurd rfl h
  | cons l ls ih =>
    intro _ hno
    cases ls with
    | nil => exact splitNl_no_nl (hno l (List.mem_cons_self ..))
    | cons l2 rest =>
      show splitNl (l ++ '\n' :: joinNl (l2 :: rest)) = _
      rw [splitNl_append_nl _ (hno l (List.mem_cons_self ..)),
        ih (by simp) (fun x hx => hno x (List.mem_cons_of_mem l hx))]

lemma natCharsGo_mem :
    ∀ (fuel n : Nat) (acc : List Char) (c : Char),
      c ∈ natCharsGo fuel n acc →
      (∃ d, d < 10 ∧ c = digitChar d) ∨ c ∈ acc := by
  intro fuel
  induction fuel with
  | zero =>
    intro n acc c hc
    rcases List.mem_cons.1 hc with rfl | h
    · exact Or.inl ⟨n % 10, Nat.mod_lt _ (by norm_num), rfl⟩
    · exact Or.inr h
  | succ fuel ih =>
    intro n acc c hc
    simp only [natCharsGo] at hc
    split at hc
    · next hlt =>
      rcases List.mem_cons.1 hc with rfl | h
      · exact Or.inl ⟨n, hlt, rfl⟩
      · exact Or.inr h
    · rcases ih (n / 10) (digitChar (n % 10) :: acc) c hc with h | h
      · exact Or.inl h
      · rcases List.mem_cons.1 h with rfl | h2
        · exact Or.inl ⟨n % 10, Nat.mod_lt _ (by norm_num), rfl⟩
        · exact Or.inr h2

lemma digitChar_props (d : Nat) (hd : d < 10) :
    isPySpace (digitChar d) = false ∧ digitChar d ≠ '\n' ∧
      digitChar d ≠ '(' ∧ digitChar d ≠ ')' := by
  interval_cases d <;> exact ⟨by decide, by decide, by decide, by decide⟩

/-- Every character of a block delimiter is a bracket or a digit; none of
them is whitespace, a newline, or a parenthesis. -/
lemma blockDelimiter_chars (i : Nat) (c : Char) (hc : c ∈ blockDelimiter i) :
    isPySpace c = false ∧ c ≠ '\n' ∧ c ≠ '(' ∧ c ≠ ')' := by
  simp only [blockDelimiter, List.mem_cons, List.mem_append] at hc
  rcases hc with rfl | rfl | hc | hc
  · exact ⟨by decide, by decide, by decide, by decide⟩
  · exact ⟨by decide, by decide, by decide, by decide⟩
  · rcases natCharsGo_mem _ _ _ _ hc with ⟨d, hd, rfl⟩ | habs
    · exact digitChar_props d hd
    · simp at habs
  · rcases hc with rfl | hc2
    · exact ⟨by decide, by decide, by decide, by decide⟩
    · rcases hc2 with rfl | h0
      · exact ⟨by decide, by decide, by decide, by decide⟩
      · simp at h0

lemma blockDelimiter_getLast? (i : Nat) :
    (blockDelimiter i).getLast? = some ']' := by
  show ('[' :: '[' :: (natChars (i + 1) ++ [']', ']'])).getLast? = some ']'
  have h1 : ('[' :: '[' :: (natChars (i + 1) ++ [']', ']'])) =
      ('[' :: '[' :: (natChars (i + 1) ++ [']'])) ++ [']'] := by
    simp
  rw [h1, List.getLast?_concat]

lemma getLast?_append_right {l₁ l₂ : List Char} (h : l₂ ≠ []) :
    (l₁ ++ l₂).getLast? = l₂.getLast? := by
  rw [← List.head?_reverse, ← List.head?_reverse, List.reverse_append]
  cases hr : l₂.reverse with
  | nil => exact absurd (by simpa using congrArg List.reverse hr) h
  | cons c X => rfl

lemma blockDelimiter_ne_nil (i : Nat) : blockDelimiter i ≠ [] := by
  simp [blockDelimiter]

lemma blockDelimiter_head (i : Nat) :
    (blockDelimiter i ++ t ++ blockDelimiter i).head? = some '[' := rfl

/-- A formatted line is already stripped: it starts with `[` and ends
with `]`. -/
lemma pyStrip_formatted (j : Nat) (t : List Char) :
    pyStrip (blockDelimiter j ++ t ++ blockDelimiter j) =
      blockDelimiter j ++ t ++ blockDelimiter j := by
  apply pyStrip_eq_self
  · intro c hc
    rw [blockDelimiter_head] at hc
    cases Option.some.inj hc
    decide
  · intro c hc
    rw [getLast?_append_right (blockDelimiter_ne_nil j),
      blockDelimiter_getLast? j] at hc
    cases Option.some.inj hc
    decide

/-- The anchor-parity condition holds on every formatted line whenever it
holds on the block's own text: the delimiters contribute no parentheses, so
every found anchor's occurrence count transfers to the text. -/
lemma checkLine_formatted (j : Nat) (t : List Char)
    (heven : ∀ L : List Char, L ≠ [] → (∀ c ∈ L, isUpperDigit c = true) →
      pyCount ('(' :: '(' :: (L ++ [')', ')'])) t % 2 = 0) :
    checkLine j (blockDelimiter j ++ t ++ blockDelimiter j) = none := by
  have hnoParL : '(' ∉ blockDelimiter j := fun hm =>
    (blockDelimiter_chars j '(' hm).2.2.1 rfl
  have hnoParR : ')' ∉ blockDelimiter j := fun hm =>
    (blockDelimiter_chars j ')' hm).2.2.2 rfl
  have hpre : (blockDelimiter j).isPrefixOf
      (blockDelimiter j ++ t ++ blockDelimiter j) = true := by
    rw [List.isPrefixOf_iff_prefix, List.append_assoc]
    exact List.prefix_append ..
  have hsuf : (blockDelimiter j).isSuffixOf
      (blockDelimiter j ++ t ++ blockDelimiter j) = true := by
    rw [List.isSuffixOf_iff_suffix]
    exact List.suffix_append ..
  have hfind : (dedupFirst (findAnchors
      (blockDelimiter j ++ t ++ blockDelimiter j))).find?
        (fun a => pyCount a (blockDelimiter j ++ t ++ blockDelimiter j) % 2 ≠ 0)
      = none := by
    rw [List.find?_eq_none]
    intro a ha
    obtain ⟨L, hL, hud, rfl⟩ :=
      findAnchorsGo_shape _ _ _ (dedupFirstGo_subset _ _ _ ha)
    have e1 : pyCount ('(' :: '(' :: (L ++ [')', ')']))
        (blockDelimiter j ++ t ++ blockDelimiter j) =
        pyCount ('(' :: '(' :: (L ++ [')', ')'])) (t ++ blockDelimiter j) := by
      rw [List.append_assoc]
      exact pyCount_append_left _ _ _ hnoParL
    have hpat : ('(' :: '(' :: (L ++ [')', ')']) : List Char) =
        ('(' :: '(' :: (L ++ [')'])) ++ [')'] := by simp
    have e2 : pyCount ('(' :: '(' :: (L ++ [')', ')'])) (t ++ blockDelimiter j)
        = pyCount ('(' :: '(' :: (L ++ [')', ')'])) t := by
      rw [hpat]
      exact pyCount_append_right _ _ hnoParR t.length t le_rfl
    have hz : pyCount ('(' :: '(' :: (L ++ [')', ')']))
        (blockDelimiter j ++ t ++ blockDelimiter j) % 2 = 0 := by
      rw [e1, e2]
      exact heven L hL hud
    have hz2 : pyCount ('(' :: '(' :: (L ++ [')', ')']))
        (blockDelimiter j ++ (t ++ blockDelimiter j)) % 2 = 0 := by
      rw [← List.append_assoc]
      exact hz
    simp [hz, hz2]
  simp only [checkLine, pyStrip_formatted, hfind]
  rw [if_neg (not_not_intro ⟨hpre, hsuf⟩)]

lemma formatLines_length (texts : List (List Char)) :
    ∀ j, (formatLines j texts).length = texts.length := by
  induction texts with
  | nil => intro j; rfl
  | cons t rest ih => intro j; simp [formatLines, ih (j + 1)]

lemma formatLines_mem (texts : List (List Char)) :
    ∀ (j : Nat) (l : List Char), l ∈ formatLines j texts →
      ∃ k t, t ∈ texts ∧
        l = blockDelimiter k ++ t ++ blockDelimiter k := by
  induction texts with
  | nil => intro j l hl; simp [formatLines] at hl
  | cons t rest ih =>
    intro j l hl
    simp only [formatLines, List.mem_cons] at hl
    rcases hl with rfl | hl2
    · exact ⟨j, t, List.mem_cons_self .., rfl⟩
    · obtain ⟨k, t2, ht2, rfl⟩ := ih (j + 1) l hl2
      exact ⟨k, t2, List.mem_cons_of_mem t ht2, rfl⟩

lemma checkLinesGo_formatLines (texts : List (List Char)) :
    ∀ j, (∀ t ∈ texts, ∀ L : List Char, L ≠ [] →
        (∀ c ∈ L, isUpperDigit c = true) →
        pyCount ('(' :: '(' :: (L ++ [')', ')'])) t % 2 = 0) →
      checkLinesGo j (formatLines j texts) = str "ok" := by
  induction texts with
  | nil => intro j _; rfl
  | cons t rest ih =>
    intro j hev
    show (match checkLine j (blockDelimiter j ++ t ++ blockDelimiter j) with
      | some err => err
      | none => checkLinesGo (j + 1) (formatLines (j + 1) rest)) = str "ok"
    rw [checkLine_formatted j t (hev t (List.mem_cons_self ..))]
    exact ih (j + 1) (fun x hx => hev x (List.mem_cons_of_mem t hx))

lemma formatted_line_no_nl (j : Nat) (t : List Char) (ht : '\n' ∉ t) :
    '\n' ∉ blockDelimiter j ++ t ++ blockDelimiter j := by
  intro hm
  rcases List.mem_append.1 hm with hm2 | hm2
  · rcases List.mem_append.1 hm2 with hm3 | hm3
    · exact (blockDelimiter_chars j _ hm3).2.1 rfl
    · exact ht hm3
  · exact (blockDelimiter_chars j _ hm2).2.1 rfl

lemma joinNl_getLast? (lines : List (List Char))
    (h : ∀ l ∈ lines, l.getLast? = some ']') :
    lines ≠ [] → (joinNl lines).getLast? = some ']' := by
  induction lines with
  | nil => intro hne; exact absurd rfl hne
  | cons l ls ih =>
    intro _
    cases ls with
    | nil => exact h l (List.mem_cons_self ..)
    | cons l2 rest =>
      show (l ++ '\n' :: joinNl (l2 :: rest)).getLast? = some ']'
      rw [getLast?_append_right (by simp)]
      have hrec : (joinNl (l2 :: rest)).getLast? = some ']' :=
        ih (fun x hx => h x (List.mem_cons_of_mem l hx)) (by simp)
      cases hj : joinNl (l2 :: rest) with
      | nil => rw [hj] at hrec; exact absurd hrec (by simp)
      | cons c X =>
        rw [hj] at hrec
        rw [List.getLast?_cons_cons, hrec]

lemma joinNl_head? (lines : List (List Char))
    (h : ∀ l ∈ lines, l.head? = some '[') :
    lines ≠ [] → (joinNl lines).head? = some '[' := by
  induction lines with
  | nil => intro hne; exact absurd rfl hne
  | cons l ls ih =>
    intro _
    cases ls with
    | nil => exact h l (List.mem_cons_self ..)
    | cons l2 rest =>
      show (l ++ '\n' :: joinNl (l2 :: rest)).head? = some '['
      have hl := h l (List.mem_cons_self ..)
      cases l with
      | nil => exact absurd hl (by simp)
      | cons c X =>
        rw [List.cons_append]
        simpa using hl

/-- C9: a freshly formatted request always passes the validator — for every
non-empty block group whose texts contain no newline and in which every
anchor-shaped substring `((L))` occurs an even number of times per text,
`check_anchor_format (format_for_ai blocks) (len blocks)` is `ok`. -/
theorem C9_formatted_requests_validate (texts : List (List Char))
    (hne : texts ≠ [])
    (hnl : ∀ t ∈ texts, '\n' ∉ t)
    (heven : ∀ t ∈ texts, ∀ L : List Char, L ≠ [] →
      (∀ c ∈ L, isUpperDigit c = true) →
      pyCount ('(' :: '(' :: (L ++ [')', ')'])) t % 2 = 0) :
    checkAnchorFormat (formatForAI texts) texts.length = str "ok" := by
  have hlmem : ∀ l ∈ formatLines 0 texts,
      ∃ k t, t ∈ texts ∧ l = blockDelimiter k ++ t ++ blockDelimiter k :=
    formatLines_mem texts 0
  have hlinesne : formatLines 0 texts ≠ [] := by
    intro h
    have := formatLines_length texts 0
    rw [h] at this
    exact hne (List.length_eq_zero.1 this.symm)
  have hheads : ∀ l ∈ formatLines 0 texts, l.head? = some '[' := by
    intro l hl
    obtain ⟨k, t, _, rfl⟩ := hlmem l hl
    exact blockDelimiter_head k
  have hlasts : ∀ l ∈ formatLines 0 texts, l.getLast? = some ']' := by
    intro l hl
    obtain ⟨k, t, _, rfl⟩ := hlmem l hl
    rw [getLast?_append_right (blockDelimiter_ne_nil k)]
    exact blockDelimiter_getLast? k
  have hnonl : ∀ l ∈ formatLines 0 texts, '\n' ∉ l := by
    intro l hl
    obtain ⟨k, t, ht, rfl⟩ := hlmem l hl
    exact formatted_line_no_nl k t (hnl t ht)
  have hstripF : pyStrip (formatForAI texts) = formatForAI texts := by
    apply pyStrip_eq_self
    · intro c hc
      rw [show (formatForAI texts).head? = some '[' from
        joinNl_head? _ hheads hlinesne] at hc
      cases Option.some.inj hc
      decide
    · intro c hc
      rw [show (formatForAI texts).getLast? = some ']' from
        joinNl_getLast? _ hlasts hlinesne] at hc
      cases Option.some.inj hc
      decide
  have hsplit : splitNl (formatForAI texts) = formatLines 0 texts :=
    splitNl_joinNl _ hlinesne hnonl
  have hstriplines : ∀ l ∈ formatLines 0 texts, pyStrip l = l := by
    intro l hl
    obtain ⟨k, t, _, rfl⟩ := hlmem l hl
    exact pyStrip_formatted k t
  have hfilter : (formatLines 0 texts).filter
      (fun l => ¬(pyStrip l).isEmpty) = formatLines 0 texts := by
    rw [List.filter_eq_self]
    intro l hl
    have h1 := hstriplines l hl
    have h2 : l ≠ [] := by
      intro hl0
      have := hheads l hl
      rw [hl0] at this
      exact absurd this (by simp)
    simp [h1, h2]
  show (let lines := splitNl (pyStrip (formatForAI texts))
    let validLines := lines.filter (fun l => ¬(pyStrip l).isEmpty)
    if validLines.length ≠ texts.length then str "line_count_mismatch"
    else checkLinesGo 0 validLines) = str "ok"
  simp only [hstripF, hsplit, hfilter]
  rw [if_neg (by simp [formatLines_length texts 0])]
  exact checkLinesGo_formatLines texts 0 heven

/-- Witness for `C9_formatted_requests_validate`: a concrete two-block
group with parenthesis-free texts; the anchor-parity hypothesis holds
because no text contains `(` at all. -/
theorem C9_formatted_requests_witness :
    checkAnchorFormat (formatForAI [str "Hello world", str "Bye"]) 2 =
      str "ok" := by
  have h := C9_formatted_requests_validate [str "Hello world", str "Bye"]
    (by decide) (by decide) ?_
  · exact h
  · intro t ht L hL hud
    have hz : pyCount ('(' :: '(' :: (L ++ [')', ')'])) t = 0 := by
      apply pyCount_eq_zero _ _ '(' (List.mem_cons_self ..)
      simp only [List.mem_cons, List.mem_singleton] at ht
      rcases ht with rfl | rfl | h0
      · decide
      · decide
      · simp at h0
    rw [hz]

/-! ## EPUB anchor extraction and restoration
(`extract_block_with_local_ids` / `restore_html`)

The HTML tree service (BeautifulSoup parse / serialize) is an external
collaborator of the design; it is modelled by `xser`/`xserList` (with
`pfx = none` for HTML) together with the explicit parser `parseNodes`
below.  The string round trips the Python code performs through that
service inside the folding loop are modelled directly on node lists, and
Python's `.strip()` on a serialized node list is modelled by the
tree-level `stripEdges`.  Void-element self-closing serialization is not
distinguished. -/

/-- The fold direction recorded by the folding loop. -/
inductive FoldKind where
  | fPre
  | fSuf
  | fWrap
deriving Repr, DecidableEq

/-- One entry of `format_tags`: a folded tag
(`{'tag','attrs','is_folded','fold_type'}`), an internal container anchor
(`{'id','tag','attrs','type':'container','is_internal'}`), or an internal
monolithic anchor (which additionally stores `raw_html`). -/
inductive ETag where
  | folded (tag : List Char) (attrs : List (List Char × List Char))
      (kind : FoldKind)
  | internalC (id : List Char) (tag : List Char)
      (attrs : List (List Char × List Char))
  | internalM (id : List Char) (tag : List Char)
      (attrs : List (List Char × List Char)) (rawHtml : List Char)
deriving Repr, DecidableEq

/-- `isinstance(c, str) and not c.strip()` — a whitespace-only text node. -/
def wsOnlyText : XNode → Bool
  | .text s => s.all isPySpace
  | .elem .. => false

/-- Is this node an element (a bs4 `Tag`)? -/
def isElemNode : XNode → Bool
  | .elem .. => true
  | .text _ => false

mutual
/-- `node.get_text(strip=True)` is non-empty: some text descendant
carries a non-whitespace character. -/
def hasText : XNode → Bool
  | .text s => ¬s.all isPySpace
  | .elem _ _ _ children => hasTextList children

/-- `hasText` over a node list. -/
def hasTextList : List XNode → Bool
  | [] => false
  | n :: rest => hasText n ∨ hasTextList rest
end

/-- The prefix/suffix folding guard: an element with no extractable text
and no element descendant (`not first.get_text(strip=True) and not
first.find_all(True)`; a descendant element exists exactly when a direct
child is an element). -/
def foldableB : XNode → Bool
  | .text _ => false
  | .elem _ _ _ children =>
    ¬hasTextList children ∧ children.all (fun c => ¬isElemNode c)

/-- The folded-tag record for a node (only applied to elements). -/
def mkFold (n : XNode) (k : FoldKind) : ETag :=
  match n with
  | .elem _ name attrs _ => .folded name attrs k
  | .text _ => .folded [] [] k

/-- Remove leading whitespace of the serialized node list (the leading
effect of `.strip()` on `decode_contents()`). -/
def stripNodesLeft : List XNode → List XNode
  | [] => []
  | .text s :: rest =>
    let s2 := s.dropWhile isPySpace
    if s2.isEmpty then stripNodesLeft rest else .text s2 :: rest
  | n :: rest => n :: rest

/-- Remove trailing whitespace of the serialized node list. -/
def stripNodesRight : List XNode → List XNode
  | [] => []
  | [n] =>
    match n with
    | .text s =>
      let s2 := dropTrailingSpace s
      if s2.isEmpty then [] else [XNode.text s2]
    | e => [e]
  | n :: n2 :: rest => n :: stripNodesRight (n2 :: rest)

/-- `.strip()` of a serialized node list, at tree level. -/
def stripEdges (ns : List XNode) : List XNode :=
  stripNodesRight (stripNodesLeft ns)

mutual
/-- Node count of a tree (fuel measure for the folding loop). -/
def xsize : XNode → Nat
  | .text _ => 1
  | .elem _ _ _ children => 1 + xsizeList children

/-- Node count of a node list. -/
def xsizeList : List XNode → Nat
  | [] => 0
  | n :: rest => xsize n + xsizeList rest
end

/-- The tag-folding loop of `extract_block_with_local_ids`: repeatedly
filter out whitespace-only strings, fold a foldable first node as
`prefix`, else a foldable last node as `suffix`, else descend through a
single wrapping element (stripping the serialized edges of its contents),
until no change occurs. -/
def foldLoop : Nat → List XNode → List ETag → List XNode × List ETag
  | 0, content, tags => (content, tags)
  | fuel + 1, content, tags =>
    let nodes := content.filter (fun n => ¬wsOnlyText n)
    match nodes with
    | [] => (content, tags)
    | first :: restNodes =>
      if foldableB first then
        foldLoop fuel restNodes (tags ++ [mkFold first FoldKind.fPre])
      else
        let last := (first :: restNodes).getLast (by simp)
        if foldableB last then
          foldLoop fuel ((first :: restNodes).dropLast)
            (tags ++ [mkFold last FoldKind.fSuf])
        else
          match first, restNodes with
          | XNode.elem pfx name attrs children, [] =>
            foldLoop fuel (stripEdges children)
              (tags ++ [ETag.folded name attrs FoldKind.fWrap])
          | _, _ => (content, tags)

/-- `monolithic_tags` of the EPUB extractor. -/
def isMonolithicName (name : List Char) : Bool :=
  name = str "math" ∨ name = str "svg" ∨ name = str "canvas" ∨
  name = str "video" ∨ name = str "audio" ∨ name = str "img" ∨
  name = str "br" ∨ name = str "hr"

mutual
/-- `recursive_extract(node)` of the EPUB extractor with the counter and
`format_tags` threaded: text contributes its angle-escaped characters, a
monolithic element becomes a zero-width paired anchor recording its full
serialization, and any other element becomes a paired anchor around its
recursively extracted content, appending its container entry post-order. -/
def eExtractNode (n : XNode) (counter : Nat) (tags : List ETag) :
    List Char × Nat × List ETag :=
  match n with
  | .text s => (escLtGt s, counter, tags)
  | .elem pfx name attrs children =>
    if isMonolithicName name then
      let delim := innerDelimiter counter
      (delim ++ delim, counter + 1,
        tags ++ [ETag.internalM delim name attrs (xser (XNode.elem pfx name attrs children))])
    else
      match eExtractList children counter tags with
      | (inner, c1, t1) =>
        let delim := innerDelimiter c1
        (delim ++ inner ++ delim, c1 + 1, t1 ++ [ETag.internalC delim name attrs])

/-- The extraction pass over the top-level contents. -/
def eExtractList (ns : List XNode) (counter : Nat) (tags : List ETag) :
    List Char × Nat × List ETag :=
  match ns with
  | [] => ([], counter, tags)
  | n :: rest =>
    match eExtractNode n counter tags with
    | (part, c1, t1) =>
      match eExtractList rest c1 t1 with
      | (txt, c2, t2) => (part ++ txt, c2, t2)
end

/-- Collapse whitespace runs to single spaces (`re.sub(r'\s+', ' ', s)`),
tracking whether the previous character was part of a run. -/
def collapseWsGo : Bool → List Char → List Char
  | _, [] => []
  | inRun, c :: rest =>
    if isPySpace c then
      if inRun then collapseWsGo true rest
      else ' ' :: collapseWsGo true rest
    else c :: collapseWsGo false rest

/-- `re.sub(r'\s+', ' ', s).strip()` — the final whitespace normalization
of the extractor. -/
def normalizeWs (s : List Char) : List Char :=
  pyStrip (collapseWsGo false s)

/-- Python `s.split(sep)` for a non-empty separator: cons a char onto the
first piece of a split. -/
def consFirst (c : Char) : List (List Char) → List (List Char)
  | l :: ls => (c :: l) :: ls
  | [] => [[c]]

/-- Python `s.split(sep)` for a non-empty separator (fuelled scan). -/
def pySplitGo (d : List Char) : Nat → List Char → List (List Char)
  | 0, s => [s]
  | fuel + 1, s =>
    if d.isPrefixOf s then [] :: pySplitGo d fuel (s.drop d.length)
    else
      match s with
      | [] => [[]]
      | c :: tail => consFirst c (pySplitGo d fuel tail)

/-- Python `s.split(sep)` for a non-empty separator. -/
def pySplit (d s : List Char) : List (List Char) :=
  pySplitGo d (s.length + 1) s

/-- Python `s.replace(pat, rep)` for a non-empty pattern (fuelled scan). -/
def replaceAllGo (pat rep : List Char) : Nat → List Char → List Char
  | 0, s => s
  | fuel + 1, s =>
    if pat.isPrefixOf s then rep ++ replaceAllGo pat rep fuel (s.drop pat.length)
    else
      match s with
      | [] => []
      | c :: tail => c :: replaceAllGo pat rep fuel tail

/-- Python `s.replace(pat, rep)` for a non-empty pattern. -/
def replaceAll (pat rep s : List Char) : List Char :=
  replaceAllGo pat rep (s.length + 1) s

/-! ### A strict HTML-fragment parser for the tree service

`BeautifulSoup(s, 'html.parser')` on the well-formed fragments this code
emits.  The parser is strict (`none` on anything the serializer would not
produce); bs4's error recovery on malformed input is outside the model. -/

/-- Tag/attribute name characters accepted by the parser. -/
def isNameChar (c : Char) : Bool :=
  ('a' ≤ c ∧ c ≤ 'z') ∨ ('0' ≤ c ∧ c ≤ '9')

/-- Parse ` k="v"`* `>` after a tag name. -/
def parseAttrs : Nat → List Char → Option (List (List Char × List Char) × List Char)
  | 0, _ => none
  | fuel + 1, s =>
    match s with
    | [] => none
    | c :: r =>
      if c = '>' then some ([], r)
      else if c = ' ' then
        let k := r.takeWhile isNameChar
        if k.isEmpty then none
        else
          let r1 := r.drop k.length
          if r1.take 2 = ['=', '"'] then
            let r2 := r1.drop 2
            let v := r2.takeWhile (fun ch => ¬(ch = '"'))
            let r3 := r2.drop v.length
            if r3.take 1 = ['"'] then
              (parseAttrs fuel (r3.drop 1)).map (fun p => ((k, v) :: p.1, p.2))
            else none
          else none
      else none

/-- Parse a text run up to the next `<` (or end), decoding the entities
the serializer emits (a stray `&` is kept literally). -/
def parseTextGo : Nat → List Char → List Char × List Char
  | 0, s => ([], s)
  | fuel + 1, s =>
    match s with
    | [] => ([], [])
    | c :: r =>
      if c = '<' then ([], c :: r)
      else if c = '&' then
        if (str "lt;").isPrefixOf r then
          let p := parseTextGo fuel (r.drop 3)
          ('<' :: p.1, p.2)
        else if (str "gt;").isPrefixOf r then
          let p := parseTextGo fuel (r.drop 3)
          ('>' :: p.1, p.2)
        else if (str "amp;").isPrefixOf r then
          let p := parseTextGo fuel (r.drop 4)
          ('&' :: p.1, p.2)
        else
          let p := parseTextGo fuel r
          (c :: p.1, p.2)
      else
        let p := parseTextGo fuel r
        (c :: p.1, p.2)

/-- Parse a sibling list of nodes; stops at end of input or at a closing
tag (which is left for the enclosing element). -/
def parseNodes : Nat → List Char → Option (List XNode × List Char)
  | 0, _ => none
  | fuel + 1, s =>
    match s with
    | [] => some ([], [])
    | c :: cs =>
      if c = '<' then
        if cs.take 1 = ['/'] then some ([], c :: cs)
        else
          let name := cs.takeWhile isNameChar
          if name.isEmpty then none
          else
            match parseAttrs (cs.length + 1) (cs.drop name.length) with
            | none => none
            | some (attrs, r2) =>
              match parseNodes fuel r2 with
              | none => none
              | some (children, r3) =>
                let close := '<' :: '/' :: (name ++ ['>'])
                if close.isPrefixOf r3 then
                  match parseNodes fuel (r3.drop close.length) with
                  | none => none
                  | some (sibs, r4) =>
                    some (XNode.elem none name attrs children :: sibs, r4)
                else none
      else
        match parseTextGo (cs.length + 2) (c :: cs) with
        | (t, rem) =>
          match parseNodes fuel rem with
          | none => none
          | some (sibs, r2) => some (XNode.text t :: sibs, r2)

/-- Parse a full fragment (input must be consumed entirely). -/
def parseFragment (s : List Char) : Option (List XNode) :=
  match parseNodes (s.length + 1) s with
  | some (ns, []) => some ns
  | _ => none

/-! ### `restore_html` -/

/-- The anchor id of a manifest entry (folded entries have none). -/
def idOf : ETag → List Char
  | .internalC id _ _ => id
  | .internalM id _ _ _ => id
  | .folded _ _ _ => []

/-- `f.get('is_internal')`. -/
def isInternalTag : ETag → Bool
  | .internalC _ _ _ => true
  | .internalM _ _ _ _ => true
  | .folded _ _ _ => false

/-- `f.get('is_folded')`. -/
def isFoldedTag : ETag → Bool
  | .folded _ _ _ => true
  | _ => false

/-- Stable insertion for descending sort by id length: `x` goes after
every entry whose id is at least as long. -/
def insDesc (x : ETag) : List ETag → List ETag
  | [] => [x]
  | y :: l =>
    if (idOf x).length ≤ (idOf y).length then y :: insDesc x l
    else x :: y :: l

/-- `list.sort(key=lambda x: len(x['id']), reverse=True)` — stable,
id length descending. -/
def sortDescByIdLen (l : List ETag) : List ETag :=
  l.foldl (fun acc x => insDesc x acc) []

/-- The `start_tag` string rebuilt by `restore_html`. -/
def startTagStr (tname : List Char) (attrs : List (List Char × List Char)) :
    List Char :=
  '<' :: (tname ++ serAttrs attrs ++ ['>'])

/-- The `end_tag` string rebuilt by `restore_html`. -/
def endTagStr (tname : List Char) : List Char :=
  '<' :: '/' :: (tname ++ ['>'])

/-- `for i in range(1, len(parts) - 1, 2)`: wrap successive pairs of
parts in the start/end tags; a trailing unpaired part is dropped. -/
def interleaveGo (st en : List Char) : List (List Char) → List Char
  | p1 :: p2 :: rest => st ++ p1 ++ en ++ p2 ++ interleaveGo st en rest
  | _ => []

/-- One internal-anchor restoration step: monolithic ids paste
`raw_html` over the doubled id; container ids split on the id and
re-wrap alternating parts when at least three parts appear. -/
def applyInternal (cur : List Char) (t : ETag) : List Char :=
  match t with
  | .internalM id _ _ raw => replaceAll (id ++ id) raw cur
  | .internalC id tname attrs =>
    let parts := pySplit id cur
    if 3 ≤ parts.length then
      (parts.headD []) ++ interleaveGo (startTagStr tname attrs) (endTagStr tname) parts.tail
    else cur
  | .folded _ _ _ => cur

/-- One folded-tag restoration step (`prefix`/`suffix` prepend or append
the serialized empty tag; `wrap` wraps the re-parsed current fragment).
Wrap fails if the current string is not a fragment the serializer could
have produced. -/
def applyFold (cur : Option (List Char)) (t : ETag) : Option (List Char) :=
  match cur with
  | none => none
  | some s =>
    match t with
    | .folded tname attrs k =>
      match k with
      | .fPre => some (xser (XNode.elem none tname attrs []) ++ s)
      | .fSuf => some (s ++ xser (XNode.elem none tname attrs []))
      | .fWrap =>
        match parseFragment s with
        | some ns => some (xser (XNode.elem none tname attrs ns))
        | none => none
    | _ => some s

/-- `restore_html(original_block, translated_text)`: split the manifest,
replay internal anchors in id-length-descending stable order, replay the
folded tags in reverse, and parse the final string back into the
element's new child nodes. -/
def restoreHtml (tags : List ETag) (translated : List Char) :
    Option (List XNode) :=
  let internals := sortDescByIdLen (tags.filter isInternalTag)
  let afterAnchors := internals.foldl applyInternal translated
  let afterFolds :=
    ((tags.filter isFoldedTag).reverse).foldl applyFold (some afterAnchors)
  match afterFolds with
  | none => none
  | some s => parseFragment s

/-- `extract_block_with_local_ids(element)` on the element's child list:
strip the serialized contents, run the folding loop, run the internal
anchoring pass, and normalize whitespace.  Returns the flattened text and
the manifest (folded entries first, then internal entries in post-order). -/
def extractBlock (children : List XNode) : List Char × List ETag :=
  let content0 := stripEdges children
  match foldLoop (xsizeList content0 + 1) content0 [] with
  | (content1, tags1) =>
    match eExtractList content1 0 tags1 with
    | (flat, _, tags2) => (normalizeWs flat, tags2)

/-! ### The plain-block class for the exact round trip

`goodCtx` captures blocks whose content the extract/restore pair
reproduces exactly: texts are non-empty, contain no angle bracket,
ampersand or parenthesis, use only plain spaces as whitespace with no
double spaces and a non-space character, do not start or end a child
list with a space, and are never adjacent to another text; elements have
lowercase ASCII names outside the monolithic list, attribute keys that
are lowercase ASCII and values free of quotes, angle brackets, ampersands
and parentheses, no namespace prefix, and a non-empty child list
satisfying the same conditions. -/

/-- Characters allowed in a plain-block text: not markup-active
(`<`, `>`, `&`), not anchor-active (`(`, `)`), and no whitespace other
than a plain space. -/
def charOkT (c : Char) : Bool :=
  ¬(c = '<' ∨ c = '>' ∨ c = '&' ∨ c = '(' ∨ c = ')') ∧
  (isPySpace c → c = ' ')

/-- No two adjacent spaces. -/
def noDbl : List Char → Bool
  | c1 :: c2 :: rest => ¬(c1 = ' ' ∧ c2 = ' ') ∧ noDbl (c2 :: rest)
  | _ => true

/-- A plain-block text node. -/
def textOkW (s : List Char) : Bool :=
  ¬s.isEmpty ∧ s.all charOkT ∧ noDbl s ∧ s.any (fun c => ¬(c = ' '))

/-- A lowercase ASCII identifier. -/
def nameOkW (n : List Char) : Bool :=
  ¬n.isEmpty ∧ n.all (fun c => 'a' ≤ c ∧ c ≤ 'z')

/-- A plain-block attribute pair. -/
def attrOkW : List Char × List Char → Bool
  | (k, v) =>
    nameOkW k ∧
    v.all (fun c => ¬(c = '"' ∨ c = '<' ∨ c = '>' ∨ c = '&' ∨ c = '(' ∨ c = ')'))

/-- No two adjacent text nodes. -/
def noAdjTexts : List XNode → Bool
  | .text _ :: .text _ :: _ => false
  | _ :: rest => noAdjTexts rest
  | [] => true

/-- The serialized child list does not start with a space. -/
def edgeL : List XNode → Bool
  | .text s :: _ => ¬(s.headD 'x' = ' ')
  | _ => true

/-- The serialized child list does not end with a space. -/
def edgeR (ns : List XNode) : Bool :=
  match ns.getLast? with
  | some (.text s) => ¬(s.getLast?.getD 'x' = ' ')
  | _ => true

mutual
/-- A plain-block node (see the section comment). -/
def goodNode : XNode → Bool
  | .text s => textOkW s
  | .elem pfx name attrs children =>
    pfx.isNone ∧ nameOkW name ∧ ¬isMonolithicName name ∧
    attrs.all attrOkW ∧ ¬children.isEmpty ∧
    noAdjTexts children ∧ edgeL children ∧ edgeR children ∧
    goodList children

/-- All nodes of a list are plain-block nodes. -/
def goodList : List XNode → Bool
  | [] => true
  | n :: rest => goodNode n ∧ goodList rest
end

/-- A plain-block child list: plain nodes, no adjacent texts, and no
space at either serialized edge. -/
def goodCtx (ns : List XNode) : Bool :=
  noAdjTexts ns ∧ edgeL ns ∧ edgeR ns ∧ goodList ns

/-! ### Proof devices for the anchoring pass

The extraction counter is independent of everything but the tree shape
(`cntList`); `itemsSList S` is the flattened text of the anchoring pass
with each anchor pair either still present (`S` true at its counter) or
already replaced by its start/end tags (`S` false), as an alternating
list of delimiter atoms and parenthesis-free chunks; `maniList` is the
internal-anchor manifest the pass appends. -/

/-- An atom of the flattened text: opaque chunk or anchor delimiter. -/
inductive Item where
  | chunk (s : List Char)
  | delim (j : Nat)
deriving Repr, DecidableEq

/-- Concatenate an item list back into a string. -/
def itemsStr : List Item → List Char
  | [] => []
  | .chunk s :: r => s ++ itemsStr r
  | .delim j :: r => innerDelimiter j ++ itemsStr r

mutual
/-- The counter value after extracting one node. -/
def cntNode : XNode → Nat → Nat
  | .text _, c => c
  | .elem _ name _ children, c =>
    if isMonolithicName name then c + 1 else cntList children c + 1

/-- The counter value after extracting a node list. -/
def cntList : List XNode → Nat → Nat
  | [], c => c
  | n :: rest, c => cntList rest (cntNode n c)
end

mutual
/-- The flattened text of one node as items, with anchor pairs at
counters where `S` is false already replaced by their start/end tags. -/
def itemsSNode (S : Nat → Bool) : XNode → Nat → List Item
  | .text s, _ => [Item.chunk (escLtGt s)]
  | .elem pfx name attrs children, c =>
    if isMonolithicName name then
      if S c then [Item.delim c, Item.delim c]
      else [Item.chunk (xser (XNode.elem pfx name attrs children))]
    else
      let c1 := cntList children c
      if S c1 then
        Item.delim c1 :: (itemsSList S children c ++ [Item.delim c1])
      else
        Item.chunk (startTagStr name attrs) ::
          (itemsSList S children c ++ [Item.chunk (endTagStr name)])

/-- `itemsSNode` over a node list. -/
def itemsSList (S : Nat → Bool) : List XNode → Nat → List Item
  | [], _ => []
  | n :: rest, c => itemsSNode S n c ++ itemsSList S rest (cntNode n c)
end

mutual
/-- The internal-anchor manifest appended for one node. -/
def maniNode : XNode → Nat → List ETag
  | .text _, _ => []
  | .elem pfx name attrs children, c =>
    if isMonolithicName name then
      [ETag.internalM (innerDelimiter c) name attrs
        (xser (XNode.elem pfx name attrs children))]
    else
      maniList children c ++
        [ETag.internalC (innerDelimiter (cntList children c)) name attrs]

/-- `maniNode` over a node list. -/
def maniList : List XNode → Nat → List ETag
  | [], _ => []
  | n :: rest, c => maniNode n c ++ maniList rest (cntNode n c)
end

/-- Flip an anchor set to false at one counter. -/
def setF (S : Nat → Bool) (j : Nat) : Nat → Bool :=
  fun i => if i = j then false else S i

/-- The anchor set induced by a pending tag list: true exactly at
counters whose delimiter is some pending tag's id. -/
def mkS (tl : List ETag) : Nat → Bool :=
  fun j => tl.any (fun t => idOf t = innerDelimiter j)

/-- No delimiter atom for counter `j` occurs in the item list. -/
def dFree (j : Nat) (l : List Item) : Prop :=
  ∀ it ∈ l, it ≠ Item.delim j

/-- Concrete children of `<p><i>x</i> and ((A)) literal</p>` for the
round-trip counterexample: the block text itself contains an
anchor-shaped substring. -/
def c1Children : List XNode :=
  [XNode.elem none (str "i") [] [XNode.text (str "x")],
   XNode.text (str " and ((A)) literal")]

/-- The restorer's output in the counterexample: the trailing text
` literal` has been lost. -/
def c1Restored : List XNode :=
  [XNode.elem none (str "i") [] [XNode.text (str "x")],
   XNode.text (str " and ")]

/-- C1 (counterexample): the extract/restore round trip is not the
identity, not even modulo whitespace normalization.  For the block
`<p><i>x</i> and ((A)) literal</p>` — already whitespace-normal — the
extracted text is `((A))x((A)) and ((A)) literal` with the single
container anchor `((A))` for `<i>`; feeding it back unchanged,
`restore_html` splits on `((A))` into four parts, and its pair-wise
re-wrapping loop (`for i in range(1, len(parts) - 1, 2)`) drops the
trailing unpaired part, so the non-whitespace text ` literal` disappears:
the element is rebuilt as `<i>x</i> and `. -/
theorem C1_round_trip_counterexample :
    extractBlock c1Children =
      (str "((A))x((A)) and ((A)) literal",
        [ETag.internalC (str "((A))") (str "i") []]) ∧
    restoreHtml (extractBlock c1Children).2 (extractBlock c1Children).1 =
      some c1Restored ∧
    xserList c1Children = str "<i>x</i> and ((A)) literal" ∧
    xserList c1Restored = str "<i>x</i> and " ∧
    restoreHtml (extractBlock c1Children).2 (extractBlock c1Children).1 ≠
      some c1Children := by
  refine ⟨rfl, rfl, rfl, rfl, ?_⟩
  intro h
  have h1 : c1Restored = c1Children :=
    Option.some.inj
      ((show restoreHtml (extractBlock c1Children).2 (extractBlock c1Children).1 =
          some c1Restored from rfl).symm.trans h)
  have h2 := congrArg xserList h1
  exact absurd h2 (by decide)

/-! ### String infrastructure for the round-trip proof -/

lemma takeWhile_append_all (f : Char → Bool) :
    ∀ (p z : List Char), (∀ c ∈ p, f c = true) →
      (∀ d, z.head? = some d → f d = false) →
      (p ++ z).takeWhile f = p ∧ (p ++ z).dropWhile f = z
  | [], z, _, hz => by
    cases z with
    | nil => exact ⟨rfl, rfl⟩
    | cons d z' =>
      simp only [List.nil_append, List.takeWhile_cons, List.dropWhile_cons,
        hz d rfl]
      exact ⟨rfl, rfl⟩
  | c :: p', z, hp, hz => by
    have hc := hp c (List.mem_cons_self c p')
    have ih := takeWhile_append_all f p' z
      (fun x hx => hp x (List.mem_cons_of_mem _ hx)) hz
    simp only [List.cons_append, List.takeWhile_cons, List.dropWhile_cons, hc,
      ih.1, ih.2]
    exact ⟨rfl, rfl⟩

lemma isPrefixOf_nil_false (d : List Char) (hd : d ≠ []) :
    d.isPrefixOf ([] : List Char) = false := by
  cases d with
  | nil => exact absurd rfl hd
  | cons a b => rfl

lemma pySplitGo_ne_nil (d : List Char) :
    ∀ (fuel : Nat) (s : List Char), pySplitGo d fuel s ≠ [] := by
  intro fuel
  induction fuel with
  | zero => intro s; simp [pySplitGo]
  | succ f ih =>
    intro s
    show (if d.isPrefixOf s then [] :: pySplitGo d f (s.drop d.length)
      else match s with
        | [] => [[]]
        | c :: tail => consFirst c (pySplitGo d f tail)) ≠ []
    by_cases hpre : d.isPrefixOf s
    · rw [if_pos hpre]; simp
    · rw [if_neg hpre]
      cases s with
      | nil => simp
      | cons c tail =>
        show consFirst c (pySplitGo d f tail) ≠ []
        cases hq : pySplitGo d f tail with
        | nil => exact absurd hq (ih tail)
        | cons l ls => simp [consFirst]

lemma pySplitGo_fuel (d : List Char) (hd : d ≠ []) :
    ∀ (fuel₁ fuel₂ : Nat) (s : List Char), s.length ≤ fuel₁ →
      s.length ≤ fuel₂ → pySplitGo d fuel₁ s = pySplitGo d fuel₂ s := by
  intro fuel₁
  induction fuel₁ with
  | zero =>
    intro fuel₂ s h1 _
    have : s = [] := List.length_eq_zero.1 (Nat.le_zero.1 h1)
    subst this
    cases fuel₂ with
    | zero => rfl
    | succ f =>
      show [([] : List Char)] = if d.isPrefixOf [] then _ else _
      rw [if_neg (by simp [isPrefixOf_nil_false d hd])]
  | succ fuel ih =>
    intro fuel₂ s h1 h2
    cases s with
    | nil =>
      have hE : ∀ f, pySplitGo d f ([] : List Char) = [[]] := by
        intro f
        cases f with
        | zero => rfl
        | succ g =>
          show (if d.isPrefixOf [] then _ else _) = _
          rw [if_neg (by simp [isPrefixOf_nil_false d hd])]
      rw [hE, hE]
    | cons c tail =>
      simp only [List.length_cons] at h1 h2
      obtain ⟨f₂, rfl⟩ : ∃ f₂, fuel₂ = f₂ + 1 := by
        cases fuel₂ with
        | zero => omega
        | succ f => exact ⟨f, rfl⟩
      show (if d.isPrefixOf (c :: tail) then
          [] :: pySplitGo d fuel ((c :: tail).drop d.length)
        else consFirst c (pySplitGo d fuel tail)) =
        (if d.isPrefixOf (c :: tail) then
          [] :: pySplitGo d f₂ ((c :: tail).drop d.length)
        else consFirst c (pySplitGo d f₂ tail))
      have hp1 : 1 ≤ d.length := by
        cases d with
        | nil => exact absurd rfl hd
        | cons a b => simp
      have hdrop : ((c :: tail).drop d.length).length ≤ tail.length := by
        simp only [List.length_drop, List.length_cons]
        omega
      by_cases hpre : d.isPrefixOf (c :: tail)
      · rw [if_pos hpre, if_pos hpre,
          ih f₂ ((c :: tail).drop d.length) (by omega) (by omega)]
      · rw [if_neg hpre, if_neg hpre, ih f₂ tail (by omega) (by omega)]

/-- One-step unfolding of `pySplit`. -/
lemma pySplit_step (d : List Char) (hd : d ≠ []) (s : List Char) :
    pySplit d s =
      if d.isPrefixOf s then [] :: pySplit d (s.drop d.length)
      else
        match s with
        | [] => [[]]
        | c :: tail => consFirst c (pySplit d tail) := by
  cases s with
  | nil =>
    show pySplitGo d 1 [] = _
    rw [if_neg (by simp [isPrefixOf_nil_false d hd])]
    show (if d.isPrefixOf [] then _ else _) = _
    rw [if_neg (by simp [isPrefixOf_nil_false d hd])]
  | cons c tail =>
    have hp1 : 1 ≤ d.length := by
      cases d with
      | nil => exact absurd rfl hd
      | cons a b => simp
    show (if d.isPrefixOf (c :: tail) then
        [] :: pySplitGo d (tail.length + 1) ((c :: tail).drop d.length)
      else consFirst c (pySplitGo d (tail.length + 1) tail)) = _
    have hdrop : ((c :: tail).drop d.length).length ≤ tail.length := by
      simp only [List.length_drop, List.length_cons]
      omega
    by_cases hpre : d.isPrefixOf (c :: tail)
    · rw [if_pos hpre, if_pos hpre,
        pySplitGo_fuel d hd (tail.length + 1) (((c :: tail).drop d.length).length + 1)
          ((c :: tail).drop d.length) (by omega) (by omega)]
      rfl
    · rw [if_neg hpre, if_neg hpre,
        pySplitGo_fuel d hd (tail.length + 1) (tail.length + 1) tail (by omega) (by omega)]
      rfl

lemma pySplit_ne_nil (d s : List Char) : pySplit d s ≠ [] :=
  pySplitGo_ne_nil d (s.length + 1) s

lemma pySplit_nil (d : List Char) (hd : d ≠ []) : pySplit d [] = [[]] := by
  rw [pySplit_step d hd]
  rw [if_neg (by simp [isPrefixOf_nil_false d hd])]

lemma pySplit_match_head (d : List Char) (hd : d ≠ []) (X : List Char) :
    pySplit d (d ++ X) = [] :: pySplit d X := by
  rw [pySplit_step d hd,
    if_pos (List.isPrefixOf_iff_prefix.2 (List.prefix_append d X)),
    List.drop_left]

lemma suffix_append_cases :
    ∀ (a : List Char) {s b : List Char}, s <:+ a ++ b →
      s <:+ b ∨ ∃ a', a' <:+ a ∧ a' ≠ [] ∧ s = a' ++ b
  | [], s, b, h => Or.inl h
  | c :: a', s, b, h => by
    rw [List.cons_append, List.suffix_cons_iff] at h
    rcases h with h | h
    · exact Or.inr ⟨c :: a', List.suffix_refl _, by simp, by rw [h, List.cons_append]⟩
    · rcases suffix_append_cases a' h with h2 | ⟨a'', h1, h2, h3⟩
      · exact Or.inl h2
      · exact Or.inr ⟨a'', h1.trans (List.suffix_cons c a'), h2, h3⟩

/-- Scanning `m ++ X` finds no separator before `X` when no non-empty
suffix of `m` continued by `X` starts with the separator: the split of
`m ++ X` is the split of `X` with `m` prepended to its first piece. -/
lemma pySplit_skip (d : List Char) (hd : d ≠ []) :
    ∀ (m X : List Char),
      (∀ s, s ≠ [] → s <:+ m → ¬d.isPrefixOf (s ++ X)) →
      pySplit d (m ++ X) =
        (m ++ (pySplit d X).headD []) :: (pySplit d X).tail
  | [], X, _ => by
    simp only [List.nil_append]
    cases hq : pySplit d X with
    | nil => exact absurd hq (pySplit_ne_nil d X)
    | cons l ls => simp
  | c :: m', X, h => by
    rw [List.cons_append, pySplit_step d hd]
    have hnp : ¬d.isPrefixOf (c :: (m' ++ X)) := by
      have := h (c :: m') (by simp) (List.suffix_refl _)
      rwa [List.cons_append] at this
    rw [if_neg hnp]
    show consFirst c (pySplit d (m' ++ X)) = _
    rw [pySplit_skip d hd m' X
      (fun s hs hsuf => h s hs (hsuf.trans (List.suffix_cons c m')))]
    simp [consFirst]

/-- A separator-free string splits into itself alone. -/
lemma pySplit_free (d : List Char) (hd : d ≠ []) (m : List Char)
    (h : ∀ s, s ≠ [] → s <:+ m → ¬d.isPrefixOf s) :
    pySplit d m = [m] := by
  have h2 : ∀ s, s ≠ [] → s <:+ m → ¬d.isPrefixOf (s ++ ([] : List Char)) := by
    intro s hs hsuf
    rw [List.append_nil]
    exact h s hs hsuf
  have := pySplit_skip d hd m [] h2
  rw [List.append_nil, pySplit_nil d hd] at this
  simpa using this

/-! ### Shape and injectivity of the inner delimiters -/

/-- The letter code of anchor `index` (the loop result of
`get_inner_delimiters`). -/
def innerCode (index : Nat) : List Char :=
  innerCodeGo (index + 1) (Int.ofNat index) []

/-- The value of a bijective base-26 letter code (`A` = 1 … `Z` = 26,
most significant letter first). -/
def codeVal : List Char → Nat
  | [] => 0
  | c :: rest => (c.toNat - 64) * 26 ^ rest.length + codeVal rest

lemma innerDelimiter_eq (j : Nat) :
    innerDelimiter j = '(' :: '(' :: (innerCode j ++ [')', ')']) := rfl

lemma char_toNat_ofNat (n : Nat) (h : n < 55296) : (Char.ofNat n).toNat = n := by
  have hv : n.isValidChar := Or.inl h
  unfold Char.ofNat
  rw [dif_pos hv]
  unfold Char.ofNatAux Char.toNat
  show ({ toBitVec := _ } : UInt32).toNat = n
  simp [UInt32.toNat, BitVec.toNat_ofNatLt]

lemma isUpperCh_iff (c : Char) :
    isUpperCh c = true ↔ 65 ≤ c.toNat ∧ c.toNat ≤ 90 := by
  simp only [isUpperCh, Char.le_def, decide_eq_true_eq, Bool.and_eq_true]
  show (65 : UInt32) ≤ c.val ∧ c.val ≤ 90 ↔ _
  rw [UInt32.le_def, UInt32.le_def]
  constructor
  · intro h
    exact ⟨h.1, h.2⟩
  · intro h
    exact ⟨h.1, h.2⟩

lemma upper_ne_parens (c : Char) (h : isUpperCh c = true) :
    c ≠ '(' ∧ c ≠ ')' := by
  rw [isUpperCh_iff] at h
  constructor
  · intro hc
    rw [hc] at h
    exact absurd h (by decide)
  · intro hc
    rw [hc] at h
    exact absurd h (by decide)

lemma innerCodeGo_neg : ∀ (fuel : Nat) (t : Int) (res : List Char),
    t < 0 → innerCodeGo fuel t res = res := by
  intro fuel t res ht
  cases fuel with
  | zero => rfl
  | succ f =>
    show (if t ≥ 0 then _ else res) = res
    rw [if_neg (by omega)]

lemma innerCodeGo_append : ∀ (fuel : Nat) (t : Int) (res : List Char),
    innerCodeGo fuel t res = innerCodeGo fuel t [] ++ res := by
  intro fuel
  induction fuel with
  | zero => intro t res; rfl
  | succ f ih =>
    intro t res
    show (if t ≥ 0 then _ else res) = (if t ≥ 0 then _ else ([] : List Char)) ++ res
    by_cases ht : t ≥ 0
    · rw [if_pos ht, if_pos ht,
        ih (t / 26 - 1) (Char.ofNat (65 + (t % 26).toNat) :: res),
        ih (t / 26 - 1) [Char.ofNat (65 + (t % 26).toNat)], List.append_assoc]
      rfl
    · rw [if_neg ht, if_neg ht]
      rfl

lemma innerCodeGo_caps : ∀ (fuel : Nat) (t : Int) (res : List Char),
    (∀ c ∈ res, isUpperCh c = true) →
    ∀ c ∈ innerCodeGo fuel t res, isUpperCh c = true := by
  intro fuel
  induction fuel with
  | zero => intro t res hres; exact hres
  | succ f ih =>
    intro t res hres
    show ∀ c ∈ (if t ≥ 0 then _ else res), isUpperCh c = true
    by_cases ht : t ≥ 0
    · rw [if_pos ht]
      refine ih (t / 26 - 1) _ ?_
      intro c hc
      rcases List.mem_cons.1 hc with rfl | hc2
      · have h0 : (0 : Int) ≤ t % 26 := Int.emod_nonneg t (by omega)
        have h1 : t % 26 < 26 := Int.emod_lt_of_pos t (by omega)
        have h2 : (t % 26).toNat ≤ 25 := by omega
        rw [isUpperCh_iff, char_toNat_ofNat (65 + (t % 26).toNat) (by omega)]
        omega
      · exact hres c hc2
    · rw [if_neg ht]
      exact hres

lemma intOfNat_cast (n : Nat) : Int.ofNat n = (n : Int) := rfl

lemma innerCode_caps (j : Nat) : ∀ c ∈ innerCode j, isUpperCh c = true :=
  innerCodeGo_caps (j + 1) (Int.ofNat j) [] (by simp)

lemma innerCode_ne_nil (j : Nat) : innerCode j ≠ [] := by
  show innerCodeGo (j + 1) (Int.ofNat j) [] ≠ []
  show (if (Int.ofNat j) ≥ 0 then _ else ([] : List Char)) ≠ []
  rw [if_pos (by rw [intOfNat_cast]; omega), innerCodeGo_append]
  simp

lemma codeVal_innerCodeGo : ∀ (fuel temp : Nat), temp < fuel →
    ∀ res, codeVal (innerCodeGo fuel (Int.ofNat temp) res) =
      (temp + 1) * 26 ^ res.length + codeVal res := by
  intro fuel
  induction fuel with
  | zero => intro temp h; omega
  | succ f ih =>
    intro temp h res
    show codeVal (if (Int.ofNat temp) ≥ 0 then _ else res) = _
    rw [if_pos (by rw [intOfNat_cast]; omega)]
    have hmod : ((Int.ofNat temp) % 26).toNat = temp % 26 := by
      rw [intOfNat_cast]
      omega
    have hch : (Char.ofNat (65 + ((Int.ofNat temp) % 26).toNat)).toNat =
        65 + temp % 26 := by
      rw [hmod]
      exact char_toNat_ofNat _ (by omega)
    have hcast : (Int.ofNat temp) / 26 = Int.ofNat (temp / 26) := by
      rw [intOfNat_cast, intOfNat_cast]
      omega
    by_cases hlt : temp < 26
    · have hdiv : (Int.ofNat temp) / 26 - 1 = -1 := by
        rw [hcast, Nat.div_eq_of_lt hlt]
        rfl
      rw [hdiv, innerCodeGo_neg f (-1) _ (by omega)]
      show (_ - 64) * 26 ^ res.length + codeVal res = _
      rw [hch]
      have h26 : temp % 26 = temp := Nat.mod_eq_of_lt hlt
      rw [h26]
      have h64 : 65 + temp - 64 = temp + 1 := by omega
      rw [h64]
    · have hq1 : 1 ≤ temp / 26 := Nat.one_le_div_iff (by omega) |>.2 (by omega)
      have hdiv : (Int.ofNat temp) / 26 - 1 = Int.ofNat (temp / 26 - 1) := by
        rw [hcast, Int.ofNat_eq_natCast, Int.ofNat_eq_natCast]
        omega
      rw [hdiv, ih (temp / 26 - 1) (by
        have := Nat.div_le_self temp 26
        omega) _]
      show (temp / 26 - 1 + 1) * 26 ^ (res.length + 1) +
        ((_ - 64) * 26 ^ res.length + codeVal res) = _
      rw [hch]
      have hq : temp / 26 - 1 + 1 = temp / 26 := by omega
      have hdm : 26 * (temp / 26) + temp % 26 = temp := Nat.div_add_mod temp 26
      rw [hq, pow_succ]
      have h64 : 65 + temp % 26 - 64 = temp % 26 + 1 := by omega
      rw [h64]
      conv_rhs => rw [← hdm]
      ring

lemma codeVal_innerCode (j : Nat) : codeVal (innerCode j) = j + 1 := by
  have := codeVal_innerCodeGo (j + 1) j (by omega) []
  simpa [innerCode, codeVal] using this

lemma innerDelimiter_inj (i j : Nat) (h : innerDelimiter i = innerDelimiter j) :
    i = j := by
  rw [innerDelimiter_eq, innerDelimiter_eq] at h
  have h2 : innerCode i ++ [')', ')'] = innerCode j ++ [')', ')'] := by
    have h5 := congrArg (fun l => List.drop 2 l) h
    simpa using h5
  have h3 : innerCode i = innerCode j := List.append_cancel_right h2
  have h4 := congrArg codeVal h3
  rw [codeVal_innerCode, codeVal_innerCode] at h4
  omega

lemma innerDelimiter_ne_nil (j : Nat) : innerDelimiter j ≠ [] := by
  rw [innerDelimiter_eq]
  simp

/-- A code wrapped in `))` is a prefix of another wrapped code continued
arbitrarily only when the codes agree. -/
lemma anchor_prefix_eq : ∀ (L M X : List Char),
    (∀ c ∈ L, isUpperCh c = true) → (∀ c ∈ M, isUpperCh c = true) →
    (L ++ [')', ')']) <+: ((M ++ [')', ')']) ++ X) → L = M
  | [], [], _, _, _, _ => rfl
  | [], m :: M', X, _, hM, h => by
    rw [List.nil_append, List.cons_append, List.cons_append,
      List.cons_prefix_cons] at h
    have := (upper_ne_parens m (hM m (List.mem_cons_self m M'))).2
    exact absurd h.1.symm this
  | l :: L', [], X, hL, _, h => by
    rw [List.nil_append, List.cons_append, List.cons_append,
      List.cons_prefix_cons] at h
    have := (upper_ne_parens l (hL l (List.mem_cons_self l L'))).2
    exact absurd h.1 this
  | l :: L', m :: M', X, hL, hM, h => by
    rw [List.cons_append, List.cons_append, List.cons_append,
      List.cons_prefix_cons] at h
    have h2 := anchor_prefix_eq L' M' X
      (fun c hc => hL c (List.mem_cons_of_mem _ hc))
      (fun c hc => hM c (List.mem_cons_of_mem _ hc)) h.2
    rw [h.1, h2]

/-- No non-empty suffix of a foreign delimiter, however continued, starts
with the delimiter of a different anchor. -/
lemma delim_noMatch (i j : Nat) (hij : i ≠ j) (X : List Char) :
    ∀ s, s ≠ [] → s <:+ innerDelimiter i →
      ¬(innerDelimiter j).isPrefixOf (s ++ X) := by
  intro s hs hsuf hpre
  rw [List.isPrefixOf_iff_prefix] at hpre
  rw [innerDelimiter_eq] at hsuf
  rcases List.suffix_cons_iff.1 hsuf with hfull | hsuf1
  · -- s is the full delimiter: the codes must agree, so i = j
    rw [hfull, innerDelimiter_eq j] at hpre
    rw [List.cons_append, List.cons_append] at hpre
    rw [List.cons_prefix_cons, List.cons_prefix_cons] at hpre
    have hcode := anchor_prefix_eq (innerCode j) (innerCode i) X
      (innerCode_caps j) (innerCode_caps i) hpre.2.2
    have := congrArg codeVal hcode
    rw [codeVal_innerCode, codeVal_innerCode] at this
    omega
  rcases List.suffix_cons_iff.1 hsuf1 with hone | hsuf2
  · -- s = '(' followed by the code: second char of the pattern mismatches
    cases hcode : innerCode i with
    | nil => exact absurd hcode (innerCode_ne_nil i)
    | cons c0 tl =>
      rw [hone, hcode, innerDelimiter_eq j] at hpre
      rw [List.cons_append, List.cons_append, List.cons_append] at hpre
      rw [List.cons_prefix_cons, List.cons_prefix_cons] at hpre
      have hc0 := (upper_ne_parens c0
        (innerCode_caps i c0 (by rw [hcode]; exact List.mem_cons_self c0 tl))).1
      exact absurd hpre.2.1.symm hc0
  · -- s lies inside the code and closing parens: its head is not '('
    rcases suffix_append_cases (innerCode i) hsuf2 with hpp | ⟨a', ha1, ha2, ha3⟩
    · -- s is a suffix of the two closing parens
      rcases List.suffix_cons_iff.1 hpp with h1 | h1
      · rw [h1, innerDelimiter_eq j] at hpre
        rw [List.cons_append, List.cons_prefix_cons] at hpre
        exact absurd hpre.1.symm (by decide)
      rcases List.suffix_cons_iff.1 h1 with h2 | h2
      · rw [h2, innerDelimiter_eq j] at hpre
        rw [List.cons_append, List.cons_prefix_cons] at hpre
        exact absurd hpre.1.symm (by decide)
      · rw [List.suffix_nil.1 h2] at hs
        exact hs rfl
    · -- s starts inside the code: its head is an uppercase letter
      cases a' with
      | nil => exact ha2 rfl
      | cons a0 atl =>
        have ha0 : isUpperCh a0 = true :=
          innerCode_caps i a0 (ha1.subset (List.mem_cons_self a0 atl))
        rw [ha3, innerDelimiter_eq j] at hpre
        rw [List.cons_append, List.cons_append] at hpre
        rw [List.cons_prefix_cons] at hpre
        exact absurd hpre.1.symm (upper_ne_parens a0 ha0).1

/-! ### Item-list splitting -/

/-- Chunks of the item list never contain an opening parenthesis (so no
delimiter match can begin inside one). -/
def pfreeItems (items : List Item) : Prop :=
  ∀ s, Item.chunk s ∈ items → ∀ c ∈ s, c ≠ '('

lemma itemsStr_append : ∀ (a b : List Item),
    itemsStr (a ++ b) = itemsStr a ++ itemsStr b
  | [], b => by simp [itemsStr]
  | Item.chunk s :: r, b => by
    rw [List.cons_append]
    show s ++ itemsStr (r ++ b) = (s ++ itemsStr r) ++ itemsStr b
    rw [itemsStr_append r b, List.append_assoc]
  | Item.delim j :: r, b => by
    rw [List.cons_append]
    show innerDelimiter j ++ itemsStr (r ++ b) =
      (innerDelimiter j ++ itemsStr r) ++ itemsStr b
    rw [itemsStr_append r b, List.append_assoc]

/-- No delimiter-`j` match can start anywhere inside the string of an
item list free of `delim j` whose chunks avoid `'('`. -/
lemma items_noMatch (j : Nat) : ∀ (items : List Item) (X : List Char),
    dFree j items → pfreeItems items →
    ∀ s, s ≠ [] → s <:+ itemsStr items →
      ¬(innerDelimiter j).isPrefixOf (s ++ X)
  | [], X, _, _, s, hs, hsuf => by
    rw [show itemsStr [] = [] from rfl, List.suffix_nil] at hsuf
    exact absurd hsuf hs
  | it :: rest, X, hfree, hp, s, hs, hsuf => by
    have hstep : itemsStr (it :: rest) =
        (match it with
          | Item.chunk c => c
          | Item.delim i => innerDelimiter i) ++ itemsStr rest := by
      cases it <;> rfl
    rw [hstep] at hsuf
    rcases suffix_append_cases _ hsuf with hin | ⟨a', ha1, ha2, ha3⟩
    · exact items_noMatch j rest X
        (fun x hx => hfree x (List.mem_cons_of_mem _ hx))
        (fun x hx => hp x (List.mem_cons_of_mem _ hx)) s hs hin
    · cases it with
      | chunk c =>
        cases a' with
        | nil => exact absurd rfl ha2
        | cons a0 atl =>
          intro hpre
          rw [List.isPrefixOf_iff_prefix, ha3] at hpre
          rw [List.cons_append, List.cons_append, innerDelimiter_eq j,
            List.cons_prefix_cons] at hpre
          exact absurd hpre.1.symm
            (hp c (List.mem_cons_self _ _) a0
              (ha1.subset (List.mem_cons_self a0 atl)))
      | delim i =>
        have hij : i ≠ j := by
          intro hij
          exact (hfree (Item.delim i) (List.mem_cons_self _ _)) (by rw [hij])
        have := delim_noMatch i j hij (itemsStr rest ++ X) a' ha2 ha1
        intro hpre
        rw [ha3, List.append_assoc] at hpre
        exact this hpre

/-- A `delim j`-free item list, as a string, contains no occurrence of
delimiter `j` at all: it splits into itself. -/
lemma pySplit_items_free (j : Nat) (items : List Item)
    (hfree : dFree j items) (hp : pfreeItems items) :
    pySplit (innerDelimiter j) (itemsStr items) = [itemsStr items] := by
  refine pySplit_free _ (innerDelimiter_ne_nil j) _ ?_
  intro s hs hsuf hpre
  have h2 := items_noMatch j items [] hfree hp s hs hsuf
  rw [List.append_nil] at h2
  exact h2 hpre

/-- Splitting the item string of `A ++ [delim j] ++ B ++ [delim j] ++ C`
on delimiter `j` yields exactly the three strings of `A`, `B`, `C`. -/
lemma pySplit_items (j : Nat) (A B C : List Item)
    (hA : dFree j A) (hB : dFree j B) (hC : dFree j C)
    (hpA : pfreeItems A) (hpB : pfreeItems B) (hpC : pfreeItems C) :
    pySplit (innerDelimiter j)
        (itemsStr (A ++ Item.delim j :: (B ++ Item.delim j :: C))) =
      [itemsStr A, itemsStr B, itemsStr C] := by
  have hd := innerDelimiter_ne_nil j
  have hBC : itemsStr (A ++ Item.delim j :: (B ++ Item.delim j :: C)) =
      itemsStr A ++ (innerDelimiter j ++ (itemsStr B ++
        (innerDelimiter j ++ itemsStr C))) := by
    rw [itemsStr_append]
    congr 1
    show innerDelimiter j ++ itemsStr (B ++ Item.delim j :: C) = _
    rw [itemsStr_append]
    rfl
  rw [hBC]
  have h1 : pySplit (innerDelimiter j) (itemsStr C) = [itemsStr C] :=
    pySplit_items_free j C hC hpC
  have h2 : pySplit (innerDelimiter j) (innerDelimiter j ++ itemsStr C) =
      [[], itemsStr C] := by
    rw [pySplit_match_head _ hd, h1]
  have h3 : pySplit (innerDelimiter j)
      (itemsStr B ++ (innerDelimiter j ++ itemsStr C)) =
      [itemsStr B, itemsStr C] := by
    rw [pySplit_skip _ hd _ _
      (fun s hs hsuf => items_noMatch j B (innerDelimiter j ++ itemsStr C)
        hB hpB s hs hsuf), h2]
    simp
  have h4 : pySplit (innerDelimiter j)
      (innerDelimiter j ++ (itemsStr B ++ (innerDelimiter j ++ itemsStr C))) =
      [[], itemsStr B, itemsStr C] := by
    rw [pySplit_match_head _ hd, h3]
  rw [pySplit_skip _ hd _ _
    (fun s hs hsuf => items_noMatch j A
      (innerDelimiter j ++ (itemsStr B ++ (innerDelimiter j ++ itemsStr C)))
      hA hpA s hs hsuf), h4]
  simp

/-! ### Characters of the pieces emitted by extraction -/

lemma lower_toNat (c : Char) (h : 'a' ≤ c ∧ c ≤ 'z') :
    97 ≤ c.toNat ∧ c.toNat ≤ 122 := by
  rcases h with ⟨h1, h2⟩
  rw [Char.le_def, UInt32.le_def] at h1 h2
  exact ⟨h1, h2⟩

lemma lower_ne_lparen (c : Char) (h : 'a' ≤ c ∧ c ≤ 'z') :
    c ≠ '(' := by
  intro hc
  have := lower_toNat c h
  rw [hc] at this
  exact absurd this (by decide)

lemma escLtGt_of_ok (s : List Char)
    (h : ∀ c ∈ s, ¬(c = '<') ∧ ¬(c = '>')) : escLtGt s = s := by
  induction s with
  | nil => rfl
  | cons c rest ih =>
    have hc := h c (List.mem_cons_self c rest)
    show (if c = '<' then str "&lt;" else if c = '>' then str "&gt;" else [c]) ++
      escLtGt rest = c :: rest
    rw [if_neg hc.1, if_neg hc.2, ih (fun x hx => h x (List.mem_cons_of_mem _ hx))]
    rfl

lemma escXml_of_ok (s : List Char)
    (h : ∀ c ∈ s, ¬(c = '&') ∧ ¬(c = '<') ∧ ¬(c = '>')) : escXml s = s := by
  induction s with
  | nil => rfl
  | cons c rest ih =>
    have hc := h c (List.mem_cons_self c rest)
    show escXmlChar c ++ escXml rest = c :: rest
    rw [show escXmlChar c = [c] by
      simp only [escXmlChar]
      rw [if_neg hc.1, if_neg hc.2.1, if_neg hc.2.2]]
    rw [ih (fun x hx => h x (List.mem_cons_of_mem _ hx))]
    rfl

lemma serAttrs_mem : ∀ (attrs : List (List Char × List Char)) (c : Char),
    c ∈ serAttrs attrs →
    c = ' ' ∨ c = '=' ∨ c = '"' ∨ ∃ kv ∈ attrs, c ∈ kv.1 ∨ c ∈ kv.2
  | [], c, h => absurd h (by simp [serAttrs])
  | (k, v) :: rest, c, h => by
    show c = ' ' ∨ c = '=' ∨ c = '"' ∨ ∃ kv ∈ (k, v) :: rest, c ∈ kv.1 ∨ c ∈ kv.2
    have h2 : c ∈ ' ' :: ((k ++ ('=' :: '"' :: v ++ ['"'])) ++ serAttrs rest) := h
    rcases List.mem_cons.1 h2 with rfl | h3
    · exact Or.inl rfl
    rcases List.mem_append.1 h3 with h4 | h5
    · rcases List.mem_append.1 h4 with hk | h6
      · exact Or.inr (Or.inr (Or.inr ⟨(k, v), List.mem_cons_self _ _, Or.inl hk⟩))
      rcases List.mem_cons.1 h6 with rfl | h7
      · exact Or.inr (Or.inl rfl)
      rcases List.mem_cons.1 h7 with rfl | h8
      · exact Or.inr (Or.inr (Or.inl rfl))
      rcases List.mem_append.1 h8 with hv | h9
      · exact Or.inr (Or.inr (Or.inr ⟨(k, v), List.mem_cons_self _ _, Or.inr hv⟩))
      · rcases List.mem_singleton.1 h9 with rfl
        exact Or.inr (Or.inr (Or.inl rfl))
    · rcases serAttrs_mem rest c h5 with h6 | h6 | h6 | ⟨kv, hkv, h7⟩
      · exact Or.inl h6
      · exact Or.inr (Or.inl h6)
      · exact Or.inr (Or.inr (Or.inl h6))
      · exact Or.inr (Or.inr (Or.inr ⟨kv, List.mem_cons_of_mem _ hkv, h7⟩))

/-- No opening parenthesis occurs in a rebuilt start tag. -/
lemma startTagStr_no_lparen (tname : List Char)
    (attrs : List (List Char × List Char))
    (hn : nameOkW tname = true) (ha : attrs.all attrOkW = true) :
    ∀ c ∈ startTagStr tname attrs, c ≠ '(' := by
  intro c hc
  simp only [startTagStr] at hc
  rcases List.mem_cons.1 hc with rfl | h2
  · decide
  rcases List.mem_append.1 h2 with h3 | h4
  · rcases List.mem_append.1 h3 with h5 | h6
    · simp only [nameOkW, Bool.and_eq_true, decide_eq_true_eq, List.all_eq_true]
        at hn
      exact lower_ne_lparen c (hn.2 c h5)
    · rcases serAttrs_mem attrs c h6 with h7 | h7 | h7 | ⟨kv, hkv, h8⟩
      · rw [h7]; decide
      · rw [h7]; decide
      · rw [h7]; decide
      · rw [List.all_eq_true] at ha
        have hok := ha kv hkv
        rcases kv with ⟨k, v⟩
        simp only [attrOkW, Bool.and_eq_true, decide_eq_true_eq] at hok
        rcases h8 with hk | hv
        · have := hok.1
          simp only [nameOkW, Bool.and_eq_true, decide_eq_true_eq,
            List.all_eq_true] at this
          exact lower_ne_lparen c (this.2 c hk)
        · have := hok.2
          rw [List.all_eq_true] at this
          have h9 := this c hv
          rw [decide_eq_true_eq] at h9
          intro hcc
          exact h9 (Or.inr (Or.inr (Or.inr (Or.inr (Or.inl hcc)))))
  · rcases List.mem_singleton.1 h4 with rfl
    decide

/-- No opening parenthesis occurs in a rebuilt end tag. -/
lemma endTagStr_no_lparen (tname : List Char) (hn : nameOkW tname = true) :
    ∀ c ∈ endTagStr tname, c ≠ '(' := by
  intro c hc
  simp only [endTagStr] at hc
  rcases List.mem_cons.1 hc with rfl | h2
  · decide
  rcases List.mem_cons.1 h2 with rfl | h3
  · decide
  rcases List.mem_append.1 h3 with h4 | h5
  · simp only [nameOkW, Bool.and_eq_true, decide_eq_true_eq, List.all_eq_true]
      at hn
    exact lower_ne_lparen c (hn.2 c h4)
  · rcases List.mem_singleton.1 h5 with rfl
    decide

/-! ### Structure of the anchoring pass -/

/-- The anchor set with every pair still in place. -/
def STrue : Nat → Bool := fun _ => true

/-- The anchor set with every pair already replaced. -/
def SFalse : Nat → Bool := fun _ => false

lemma charOkT_parts (c : Char) (h : charOkT c = true) :
    c ≠ '<' ∧ c ≠ '>' ∧ c ≠ '&' ∧ c ≠ '(' ∧ c ≠ ')' ∧
    (isPySpace c = true → c = ' ') := by
  simp only [charOkT, Bool.and_eq_true, decide_eq_true_eq] at h
  refine ⟨?_, ?_, ?_, ?_, ?_, h.2⟩ <;>
    (intro hc; exact h.1 (by tauto))

lemma textOkW_parts (s : List Char) (h : textOkW s = true) :
    s ≠ [] ∧ (∀ c ∈ s, charOkT c = true) ∧ noDbl s = true ∧
    ∃ c ∈ s, ¬(c = ' ') := by
  simp only [textOkW, Bool.and_eq_true, decide_eq_true_eq, List.all_eq_true,
    List.any_eq_true, List.isEmpty_iff, Bool.not_eq_true] at h
  refine ⟨by tauto, by tauto, by tauto, ?_⟩
  have h2 := h.2.2.2
  obtain ⟨c, hc1, hc2⟩ := h2
  exact ⟨c, hc1, by simpa using hc2⟩

lemma goodList_cons_iff (n : XNode) (rest : List XNode) :
    goodList (n :: rest) = true ↔ goodNode n = true ∧ goodList rest = true := by
  simp [goodList]

lemma goodNode_elem_parts (pfx : Option (List Char)) (name : List Char)
    (attrs : List (List Char × List Char)) (children : List XNode)
    (h : goodNode (XNode.elem pfx name attrs children) = true) :
    pfx = none ∧ nameOkW name = true ∧ isMonolithicName name = false ∧
    attrs.all attrOkW = true ∧ children ≠ [] ∧ noAdjTexts children = true ∧
    edgeL children = true ∧ edgeR children = true ∧
    goodList children = true := by
  simp only [goodNode, Bool.and_eq_true, decide_eq_true_eq,
    Option.isNone_iff_eq_none, Bool.not_eq_true, List.isEmpty_iff,
    List.isEmpty_eq_true] at h
  exact ⟨by tauto, by tauto, by tauto, by tauto, by tauto, by tauto, by tauto,
    by tauto, by tauto⟩

mutual
theorem cntNode_le : ∀ (n : XNode) (c : Nat), c ≤ cntNode n c
  | XNode.text _, c => le_refl c
  | XNode.elem _ name _ children, c => by
    show c ≤ if isMonolithicName name then c + 1 else cntList children c + 1
    by_cases hm : isMonolithicName name
    · rw [if_pos hm]; omega
    · rw [if_neg hm]
      have := cntList_le children c
      omega

theorem cntList_le : ∀ (ns : List XNode) (c : Nat), c ≤ cntList ns c
  | [], c => le_refl c
  | n :: rest, c => by
    show c ≤ cntList rest (cntNode n c)
    have h1 := cntNode_le n c
    have h2 := cntList_le rest (cntNode n c)
    omega
end

lemma cntNode_elem (pfx : Option (List Char)) (name : List Char)
    (attrs : List (List Char × List Char)) (children : List XNode) (c : Nat) :
    cntNode (XNode.elem pfx name attrs children) c =
      if isMonolithicName name then c + 1 else cntList children c + 1 := rfl

lemma cntList_cons (n : XNode) (rest : List XNode) (c : Nat) :
    cntList (n :: rest) c = cntList rest (cntNode n c) := rfl

mutual
theorem itemsSNode_ext : ∀ (n : XNode) (c : Nat) (S S' : Nat → Bool),
    (∀ i, c ≤ i → i < cntNode n c → S i = S' i) →
    itemsSNode S n c = itemsSNode S' n c
  | XNode.text _, _, _, _, _ => rfl
  | XNode.elem pfx name attrs children, c, S, S', h => by
    simp only [itemsSNode]
    by_cases hm : isMonolithicName name
    · rw [if_pos hm, if_pos hm,
        h c (le_refl c) (by rw [cntNode_elem, if_pos hm]; omega)]
    · have hcnt := cntList_le children c
      rw [if_neg hm, if_neg hm,
        h (cntList children c) hcnt (by rw [cntNode_elem, if_neg hm]; omega),
        itemsSList_ext children c S S' (fun i h1 h2 => h i h1
          (by rw [cntNode_elem, if_neg hm]; omega))]

theorem itemsSList_ext : ∀ (ns : List XNode) (c : Nat) (S S' : Nat → Bool),
    (∀ i, c ≤ i → i < cntList ns c → S i = S' i) →
    itemsSList S ns c = itemsSList S' ns c
  | [], _, _, _, _ => rfl
  | n :: rest, c, S, S', h => by
    simp only [itemsSList]
    have hr := cntList_le rest (cntNode n c)
    rw [itemsSNode_ext n c S S' (fun i h1 h2 => h i h1
        (by rw [cntList_cons]; omega)),
      itemsSList_ext rest (cntNode n c) S S' (fun i h1 h2 =>
        h i (le_trans (cntNode_le n c) h1) (by rw [cntList_cons]; omega))]
end

mutual
theorem delim_range_node : ∀ (n : XNode) (c : Nat) (S : Nat → Bool) (i : Nat),
    Item.delim i ∈ itemsSNode S n c → c ≤ i ∧ i < cntNode n c
  | XNode.text s, c, S, i, h => absurd h (by simp [itemsSNode])
  | XNode.elem pfx name attrs children, c, S, i, h => by
    rw [cntNode_elem]
    simp only [itemsSNode] at h
    by_cases hm : isMonolithicName name
    · rw [if_pos hm] at h
      rw [if_pos hm]
      by_cases hs : S c
      · rw [if_pos hs] at h
        rcases List.mem_cons.1 h with heq | h2
        · cases heq; omega
        rcases List.mem_singleton.1 h2 with heq
        cases heq; omega
      · rw [if_neg hs] at h
        exact absurd (List.mem_singleton.1 h) (by simp)
    · rw [if_neg hm] at h
      rw [if_neg hm]
      have hcnt := cntList_le children c
      by_cases hs : S (cntList children c)
      · rw [if_pos hs] at h
        rcases List.mem_cons.1 h with heq | h2
        · cases heq; omega
        rcases List.mem_append.1 h2 with h3 | h4
        · have := delim_range_list children c S i h3
          omega
        rcases List.mem_singleton.1 h4 with heq
        cases heq; omega
      · rw [if_neg hs] at h
        rcases List.mem_cons.1 h with heq | h2
        · exact absurd heq (by simp)
        rcases List.mem_append.1 h2 with h3 | h4
        · have := delim_range_list children c S i h3
          omega
        · exact absurd (List.mem_singleton.1 h4) (by simp)

theorem delim_range_list : ∀ (ns : List XNode) (c : Nat) (S : Nat → Bool) (i : Nat),
    Item.delim i ∈ itemsSList S ns c → c ≤ i ∧ i < cntList ns c
  | [], c, S, i, h => absurd h (by simp [itemsSList])
  | n :: rest, c, S, i, h => by
    rw [cntList_cons]
    simp only [itemsSList] at h
    have h1 := cntNode_le n c
    have h2 := cntList_le rest (cntNode n c)
    rcases List.mem_append.1 h with h3 | h4
    · have := delim_range_node n c S i h3
      omega
    · have := delim_range_list rest (cntNode n c) S i h4
      omega
end

mutual
theorem pfree_node : ∀ (n : XNode) (c : Nat) (S : Nat → Bool),
    goodNode n = true → ∀ s, Item.chunk s ∈ itemsSNode S n c →
    ∀ ch ∈ s, ch ≠ '('
  | XNode.text t, c, S, hg, s, hs, ch, hch => by
    simp only [itemsSNode, List.mem_singleton] at hs
    obtain ⟨_, hparts, _, _⟩ := textOkW_parts t hg
    rw [escLtGt_of_ok t (fun x hx =>
      ⟨(charOkT_parts x (hparts x hx)).1, (charOkT_parts x (hparts x hx)).2.1⟩)]
      at hs
    cases hs
    exact (charOkT_parts ch (hparts ch hch)).2.2.2.1
  | XNode.elem pfx name attrs children, c, S, hg, s, hs, ch, hch => by
    obtain ⟨hpfx, hname, hmono, hattrs, _, _, _, _, hgood⟩ :=
      goodNode_elem_parts pfx name attrs children hg
    simp only [itemsSNode, hmono, if_false, Bool.false_eq_true] at hs
    by_cases hS : S (cntList children c)
    · rw [if_pos hS] at hs
      rcases List.mem_cons.1 hs with heq | h2
      · exact absurd heq (by simp)
      rcases List.mem_append.1 h2 with h3 | h4
      · exact pfree_list children c S hgood s h3 ch hch
      · exact absurd (List.mem_singleton.1 h4) (by simp)
    · rw [if_neg hS] at hs
      rcases List.mem_cons.1 hs with heq | h2
      · cases heq
        exact startTagStr_no_lparen name attrs hname hattrs ch hch
      rcases List.mem_append.1 h2 with h3 | h4
      · exact pfree_list children c S hgood s h3 ch hch
      · cases List.mem_singleton.1 h4
        exact endTagStr_no_lparen name hname ch hch

theorem pfree_list : ∀ (ns : List XNode) (c : Nat) (S : Nat → Bool),
    goodList ns = true → ∀ s, Item.chunk s ∈ itemsSList S ns c →
    ∀ ch ∈ s, ch ≠ '('
  | [], c, S, _, s, hs => absurd hs (by simp [itemsSList])
  | n :: rest, c, S, hg, s, hs => by
    obtain ⟨hn, hrest⟩ := (goodList_cons_iff n rest).1 hg
    simp only [itemsSList] at hs
    rcases List.mem_append.1 hs with h1 | h2
    · exact pfree_node n c S hn s h1
    · exact pfree_list rest (cntNode n c) S hrest s h2
end

mutual
theorem eExtractNode_eq : ∀ (n : XNode) (c : Nat) (tags : List ETag),
    eExtractNode n c tags =
      (itemsStr (itemsSNode STrue n c), cntNode n c, tags ++ maniNode n c)
  | XNode.text s, c, tags => by
    simp [eExtractNode, itemsSNode, itemsStr, maniNode, cntNode]
  | XNode.elem pfx name attrs children, c, tags => by
    by_cases hm : isMonolithicName name
    · simp only [eExtractNode, itemsSNode, maniNode, cntNode_elem, hm, if_true,
        STrue, itemsStr, itemsStr_append]
      simp
    · simp only [eExtractNode, itemsSNode, maniNode, cntNode_elem, hm,
        Bool.false_eq_true, if_false]
      rw [eExtractList_eq children c tags]
      simp only [STrue, if_true, itemsStr, itemsStr_append, List.append_assoc]
      simp

theorem eExtractList_eq : ∀ (ns : List XNode) (c : Nat) (tags : List ETag),
    eExtractList ns c tags =
      (itemsStr (itemsSList STrue ns c), cntList ns c, tags ++ maniList ns c)
  | [], c, tags => by
    simp [eExtractList, itemsSList, itemsStr, maniList, cntList]
  | n :: rest, c, tags => by
    simp only [eExtractList]
    rw [eExtractNode_eq n c tags,
      eExtractList_eq rest (cntNode n c) (tags ++ maniNode n c)]
    simp only [itemsSList, itemsStr_append, cntList_cons, maniList,
      List.append_assoc]

end

mutual
theorem serFalse_node : ∀ (n : XNode) (c : Nat), goodNode n = true →
    itemsStr (itemsSNode SFalse n c) = xser n
  | XNode.text s, c, hg => by
    obtain ⟨_, hparts, _, _⟩ := textOkW_parts s hg
    show itemsStr [Item.chunk (escLtGt s)] = escXml s
    rw [escLtGt_of_ok s (fun x hx =>
        ⟨(charOkT_parts x (hparts x hx)).1, (charOkT_parts x (hparts x hx)).2.1⟩),
      escXml_of_ok s (fun x hx =>
        ⟨(charOkT_parts x (hparts x hx)).2.2.1, (charOkT_parts x (hparts x hx)).1,
          (charOkT_parts x (hparts x hx)).2.1⟩)]
    simp [itemsStr]
  | XNode.elem pfx name attrs children, c, hg => by
    obtain ⟨hpfx, hname, hmono, hattrs, hne, hadj, hl, hr, hgood⟩ :=
      goodNode_elem_parts pfx name attrs children hg
    subst hpfx
    simp only [itemsSNode, hmono, Bool.false_eq_true, if_false, SFalse]
    simp only [itemsStr, itemsStr_append, List.append_nil]
    rw [serFalse_list children c hgood]
    show startTagStr name attrs ++ (xserList children ++ endTagStr name) =
      '<' :: (tagNameOf none name ++ serAttrs attrs ++ ['>']) ++
        xserList children ++ ('<' :: '/' :: (tagNameOf none name ++ ['>']))
    simp only [startTagStr, endTagStr, tagNameOf, List.append_assoc,
      List.cons_append]

theorem serFalse_list : ∀ (ns : List XNode) (c : Nat), goodList ns = true →
    itemsStr (itemsSList SFalse ns c) = xserList ns
  | [], _, _ => rfl
  | n :: rest, c, hg => by
    obtain ⟨hn, hrest⟩ := (goodList_cons_iff n rest).1 hg
    simp only [itemsSList, itemsStr_append]
    rw [serFalse_node n c hn, serFalse_list rest (cntNode n c) hrest]
    rfl
end

mutual
theorem maniNode_ids : ∀ (n : XNode) (c : Nat),
    (maniNode n c).map idOf =
      (List.range' c (cntNode n c - c)).map innerDelimiter
  | XNode.text _, c => by simp [maniNode, cntNode]
  | XNode.elem pfx name attrs children, c => by
    by_cases hm : isMonolithicName name
    · simp only [maniNode, cntNode_elem, hm, if_true]
      simp [idOf]
    · simp only [maniNode, cntNode_elem, hm, Bool.false_eq_true, if_false]
      have hle := cntList_le children c
      rw [List.map_append, maniNode_ids_list children c]
      have h1 : (List.range' c (cntList children c - c)).map innerDelimiter ++
          [innerDelimiter (cntList children c)] =
          ((List.range' c (cntList children c - c)) ++
            [cntList children c]).map innerDelimiter := by
        rw [List.map_append]
        rfl
      rw [show ([ETag.internalC (innerDelimiter (cntList children c)) name
          attrs].map idOf) = [innerDelimiter (cntList children c)] from rfl, h1]
      congr 1
      have h2 : [cntList children c] = List.range' (c + (cntList children c - c)) 1 := by
        rw [show c + (cntList children c - c) = cntList children c by omega]
        rfl
      rw [h2, List.range'_append_1]
      congr 1
      omega

theorem maniNode_ids_list : ∀ (ns : List XNode) (c : Nat),
    (maniList ns c).map idOf =
      (List.range' c (cntList ns c - c)).map innerDelimiter
  | [], c => by simp [maniList, cntList]
  | n :: rest, c => by
    have h1 := cntNode_le n c
    have h2 := cntList_le rest (cntNode n c)
    simp only [maniList, cntList_cons, List.map_append]
    rw [maniNode_ids n c, maniNode_ids_list rest (cntNode n c),
      ← List.map_append]
    congr 1
    have e1 : cntNode n c = c + (cntNode n c - c) := by omega
    nth_rewrite 2 [e1]
    rw [List.range'_append_1]
    congr 1
    omega
end

lemma setF_ne (S : Nat → Bool) (j i : Nat) (h : i ≠ j) : setF S j i = S i := by
  simp [setF, h]

lemma setF_self (S : Nat → Bool) (j : Nat) : setF S j j = false := by
  simp [setF]

mutual
/-- Decomposition at one live anchor: for any counter `j` in range with
`S j` still true, the item list splits as `A ++ [delim j] ++ B ++
[delim j] ++ C` with `A`,`B`,`C` free of `delim j`; flipping `S` at `j`
replaces exactly the two delimiters by the node's start and end tags, and
the node's container entry is in the manifest. -/
theorem decomp_node : ∀ (n : XNode) (c : Nat) (S : Nat → Bool) (j : Nat),
    goodNode n = true → c ≤ j → j < cntNode n c → S j = true →
    ∃ A B C tname tattrs,
      itemsSNode S n c = A ++ Item.delim j :: (B ++ Item.delim j :: C) ∧
      itemsSNode (setF S j) n c =
        A ++ Item.chunk (startTagStr tname tattrs) ::
          (B ++ Item.chunk (endTagStr tname) :: C) ∧
      dFree j A ∧ dFree j B ∧ dFree j C ∧
      ETag.internalC (innerDelimiter j) tname tattrs ∈ maniNode n c
  | XNode.text s, c, S, j, _, hcj, hjlt, _ =>
    absurd hjlt (by simp only [cntNode]; omega)
  | XNode.elem pfx name attrs children, c, S, j, hg, hcj, hjlt, hS => by
    obtain ⟨hpfx, hname, hmono, hattrs, hne, hadj, hl, hr, hgood⟩ :=
      goodNode_elem_parts pfx name attrs children hg
    rw [cntNode_elem, hmono, if_neg (by simp)] at hjlt
    by_cases hj1 : j = cntList children c
    · -- this node's own anchor
      subst hj1
      refine ⟨[], itemsSList S children c, [], name, attrs, ?_, ?_, ?_, ?_, ?_, ?_⟩
      · simp only [itemsSNode, hmono, Bool.false_eq_true, if_false, hS, if_true]
        simp
      · simp only [itemsSNode, hmono, Bool.false_eq_true, if_false,
          setF_self]
        have hext : itemsSList (setF S (cntList children c)) children c =
            itemsSList S children c :=
          itemsSList_ext children c _ S (fun i h1 h2 => setF_ne S _ i (by omega))
        rw [hext]
        simp
      · intro it hit
        exact absurd hit (by simp)
      · intro it hit hitd
        rw [hitd] at hit
        have := delim_range_list children c S _ hit
        omega
      · intro it hit
        exact absurd hit (by simp)
      · simp only [maniNode, hmono, Bool.false_eq_true, if_false]
        exact List.mem_append.2 (Or.inr (List.mem_singleton.2 rfl))
    · -- the anchor lies inside the children
      have hjlt2 : j < cntList children c := by omega
      obtain ⟨A', B', C', tn, ta, h1, h2, f1, f2, f3, hmem⟩ :=
        decomp_list children c S j hgood hcj hjlt2 hS
      have hSc1 : setF S j (cntList children c) = S (cntList children c) :=
        setF_ne S j _ (fun h => hj1 h.symm)
      by_cases hS1 : S (cntList children c)
      · refine ⟨Item.delim (cntList children c) :: A',
          B', C' ++ [Item.delim (cntList children c)], tn, ta, ?_, ?_, ?_, f2, ?_, ?_⟩
        · simp only [itemsSNode, hmono, Bool.false_eq_true, if_false, hS1,
            if_true, h1]
          simp [List.append_assoc, List.cons_append]
        · simp only [itemsSNode, hmono, Bool.false_eq_true, if_false, hSc1,
            hS1, if_true, h2]
          simp [List.append_assoc, List.cons_append]
        · intro it hit
          rcases List.mem_cons.1 hit with rfl | h3
          · intro hd
            have : cntList children c = j := by
              have := congrArg (fun x => match x with
                | Item.delim k => k
                | Item.chunk _ => 0) hd
              simpa using this
            omega
          · exact f1 it h3
        · intro it hit
          rcases List.mem_append.1 hit with h3 | h4
          · exact f3 it h3
          · rcases List.mem_singleton.1 h4 with rfl
            intro hd
            have : cntList children c = j := by
              have := congrArg (fun x => match x with
                | Item.delim k => k
                | Item.chunk _ => 0) hd
              simpa using this
            omega
        · simp only [maniNode, hmono, Bool.false_eq_true, if_false]
          exact List.mem_append.2 (Or.inl hmem)
      · refine ⟨Item.chunk (startTagStr name attrs) :: A',
          B', C' ++ [Item.chunk (endTagStr name)], tn, ta, ?_, ?_, ?_, f2, ?_, ?_⟩
        · simp only [itemsSNode, hmono, Bool.false_eq_true, if_false,
            eq_false_of_ne_true hS1, h1]
          simp [List.append_assoc, List.cons_append]
        · simp only [itemsSNode, hmono, Bool.false_eq_true, if_false, hSc1,
            eq_false_of_ne_true hS1, h2]
          simp [List.append_assoc, List.cons_append]
        · intro it hit
          rcases List.mem_cons.1 hit with rfl | h3
          · simp
          · exact f1 it h3
        · intro it hit
          rcases List.mem_append.1 hit with h3 | h4
          · exact f3 it h3
          · rcases List.mem_singleton.1 h4 with rfl
            simp
        · simp only [maniNode, hmono, Bool.false_eq_true, if_false]
          exact List.mem_append.2 (Or.inl hmem)

theorem decomp_list : ∀ (ns : List XNode) (c : Nat) (S : Nat → Bool) (j : Nat),
    goodList ns = true → c ≤ j → j < cntList ns c → S j = true →
    ∃ A B C tname tattrs,
      itemsSList S ns c = A ++ Item.delim j :: (B ++ Item.delim j :: C) ∧
      itemsSList (setF S j) ns c =
        A ++ Item.chunk (startTagStr tname tattrs) ::
          (B ++ Item.chunk (endTagStr tname) :: C) ∧
      dFree j A ∧ dFree j B ∧ dFree j C ∧
      ETag.internalC (innerDelimiter j) tname tattrs ∈ maniList ns c
  | [], c, S, j, _, hcj, hjlt, _ => by
    exact absurd hjlt (by simp only [cntList]; omega)
  | n :: rest, c, S, j, hg, hcj, hjlt, hS => by
    obtain ⟨hn, hrest⟩ := (goodList_cons_iff n rest).1 hg
    rw [cntList_cons] at hjlt
    by_cases hj : j < cntNode n c
    · -- anchor inside the head node
      obtain ⟨A', B', C', tn, ta, h1, h2, f1, f2, f3, hmem⟩ :=
        decomp_node n c S j hn hcj hj hS
      refine ⟨A', B', C' ++ itemsSList S rest (cntNode n c), tn, ta,
        ?_, ?_, f1, f2, ?_, ?_⟩
      · simp only [itemsSList, h1]
        simp [List.append_assoc, List.cons_append]
      · have hext : itemsSList (setF S j) rest (cntNode n c) =
            itemsSList S rest (cntNode n c) :=
          itemsSList_ext rest (cntNode n c) _ S
            (fun i hi1 hi2 => setF_ne S j i (by omega))
        simp only [itemsSList, h2, hext]
        simp [List.append_assoc, List.cons_append]
      · intro it hit
        rcases List.mem_append.1 hit with h3 | h4
        · exact f3 it h3
        · intro hd
          rw [hd] at h4
          have := delim_range_list rest (cntNode n c) S j h4
          omega
      · simp only [maniList]
        exact List.mem_append.2 (Or.inl hmem)
    · -- anchor inside the tail
      have hc2 : cntNode n c ≤ j := by omega
      obtain ⟨A', B', C', tn, ta, h1, h2, f1, f2, f3, hmem⟩ :=
        decomp_list rest (cntNode n c) S j hrest hc2 hjlt hS
      refine ⟨itemsSNode S n c ++ A', B', C', tn, ta, ?_, ?_, ?_, f2, f3, ?_⟩
      · simp only [itemsSList, h1]
        simp [List.append_assoc]
      · have hext : itemsSNode (setF S j) n c = itemsSNode S n c :=
          itemsSNode_ext n c _ S (fun i hi1 hi2 => setF_ne S j i (by omega))
        simp only [itemsSList, h2, hext]
        simp [List.append_assoc]
      · intro it hit
        rcases List.mem_append.1 hit with h3 | h4
        · intro hd
          rw [hd] at h3
          have := delim_range_node n c S j h3
          omega
        · exact f1 it h4
      · simp only [maniList]
        exact List.mem_append.2 (Or.inr hmem)
end

mutual
theorem mani_ctor_node : ∀ (n : XNode) (c : Nat), goodNode n = true →
    ∀ t ∈ maniNode n c, ∃ d tn ta, t = ETag.internalC d tn ta
  | XNode.text _, _, _, t, ht => absurd ht (by simp [maniNode])
  | XNode.elem pfx name attrs children, c, hg, t, ht => by
    obtain ⟨_, _, hmono, _, _, _, _, _, hgood⟩ :=
      goodNode_elem_parts pfx name attrs children hg
    simp only [maniNode, hmono, Bool.false_eq_true, if_false] at ht
    rcases List.mem_append.1 ht with h1 | h2
    · exact mani_ctor_list children c hgood t h1
    · rcases List.mem_singleton.1 h2 with rfl
      exact ⟨_, _, _, rfl⟩

theorem mani_ctor_list : ∀ (ns : List XNode) (c : Nat), goodList ns = true →
    ∀ t ∈ maniList ns c, ∃ d tn ta, t = ETag.internalC d tn ta
  | [], _, _, t, ht => absurd ht (by simp [maniList])
  | n :: rest, c, hg, t, ht => by
    obtain ⟨hn, hrest⟩ := (goodList_cons_iff n rest).1 hg
    simp only [maniList] at ht
    rcases List.mem_append.1 ht with h1 | h2
    · exact mani_ctor_node n c hn t h1
    · exact mani_ctor_list rest (cntNode n c) hrest t h2
end

lemma maniList_ids_nodup (ns : List XNode) (c : Nat) :
    ((maniList ns c).map idOf).Nodup := by
  rw [maniNode_ids_list]
  exact List.Nodup.map (fun a b h => innerDelimiter_inj a b h)
    (List.nodup_range' _ _)

lemma mani_data_unique (ns : List XNode) (c : Nat) (d tn1 ta1 tn2 ta2)
    (h1 : ETag.internalC d tn1 ta1 ∈ maniList ns c)
    (h2 : ETag.internalC d tn2 ta2 ∈ maniList ns c) :
    tn1 = tn2 ∧ ta1 = ta2 := by
  have hinj := List.inj_on_of_nodup_map (maniList_ids_nodup ns c)
  have heq := hinj h1 h2 rfl
  injection heq with ha hb hc
  exact ⟨hb, hc⟩

lemma insDesc_perm (x : ETag) : ∀ (l : List ETag),
    List.Perm (insDesc x l) (x :: l)
  | [] => List.Perm.refl _
  | y :: l => by
    show List.Perm (if (idOf x).length ≤ (idOf y).length
      then y :: insDesc x l else x :: y :: l) _
    by_cases h : (idOf x).length ≤ (idOf y).length
    · rw [if_pos h]
      exact ((insDesc_perm x l).cons y).trans (List.Perm.swap x y l)
    · rw [if_neg h]

lemma sortDesc_foldl_perm : ∀ (l acc : List ETag),
    List.Perm (l.foldl (fun a x => insDesc x a) acc) (l ++ acc)
  | [], acc => by simp
  | x :: l, acc => by
    show List.Perm (l.foldl (fun a x => insDesc x a) (insDesc x acc)) _
    refine (sortDesc_foldl_perm l (insDesc x acc)).trans ?_
    refine (List.Perm.append_left l (insDesc_perm x acc)).trans ?_
    rw [List.cons_append]
    exact List.perm_middle

lemma sortDesc_perm (l : List ETag) :
    List.Perm (sortDescByIdLen l) l := by
  have := sortDesc_foldl_perm l []
  rwa [List.append_nil] at this

/-- Replaying any duplicate-free selection of the manifest's container
anchors turns the string with exactly those anchors live into the string
with none live — in any order. -/
theorem restore_anchor_fold : ∀ (tl : List ETag) (content : List XNode),
    goodList content = true →
    (∀ t ∈ tl, t ∈ maniList content 0) →
    (tl.map idOf).Nodup →
    tl.foldl applyInternal (itemsStr (itemsSList (mkS tl) content 0)) =
      itemsStr (itemsSList SFalse content 0)
  | [], content, _, _, _ => by
    have hfun : mkS [] = SFalse := funext (fun j => by simp [mkS, SFalse])
    rw [hfun]
    rfl
  | t :: tl', content, hgood, hmem, hnodup => by
    have hmem_t := hmem t (List.mem_cons_self t tl')
    obtain ⟨d, tn, ta, rfl⟩ := mani_ctor_list content 0 hgood t hmem_t
    have hid : d ∈ (maniList content 0).map idOf := by
      have := List.mem_map_of_mem idOf hmem_t
      simpa [idOf] using this
    rw [maniNode_ids_list] at hid
    obtain ⟨j, hj_mem, hj_eq⟩ := List.mem_map.1 hid
    have hj_lt : j < cntList content 0 := by
      have := List.mem_range'_1.1 hj_mem
      omega
    have hS : mkS (ETag.internalC d tn ta :: tl') j = true := by
      simp only [mkS, List.any_eq_true, decide_eq_true_eq]
      exact ⟨ETag.internalC d tn ta, List.mem_cons_self _ _, by
        simp [idOf, hj_eq]⟩
    obtain ⟨A, B, C, tn', ta', h1, h2, f1, f2, f3, hmem2⟩ :=
      decomp_list content 0 (mkS (ETag.internalC d tn ta :: tl')) j hgood
        (Nat.zero_le j) hj_lt hS
    rw [hj_eq] at hmem2
    obtain ⟨htn, hta⟩ :=
      mani_data_unique content 0 d tn ta tn' ta' hmem_t hmem2
    subst htn
    subst hta
    have hpf := pfree_list content 0 (mkS (ETag.internalC d tn ta :: tl')) hgood
    have hpA : pfreeItems A := fun s hs => hpf s (by
      rw [h1]
      exact List.mem_append.2 (Or.inl hs))
    have hpB : pfreeItems B := fun s hs => hpf s (by
      rw [h1]
      exact List.mem_append.2 (Or.inr (List.mem_cons_of_mem _
        (List.mem_append.2 (Or.inl hs)))))
    have hpC : pfreeItems C := fun s hs => hpf s (by
      rw [h1]
      exact List.mem_append.2 (Or.inr (List.mem_cons_of_mem _
        (List.mem_append.2 (Or.inr (List.mem_cons_of_mem _ hs))))))
    have hfun : setF (mkS (ETag.internalC d tn ta :: tl')) j = mkS tl' := by
      funext i
      by_cases hi : i = j
      · subst hi
        rw [setF_self]
        by_cases hmk : mkS tl' i = true
        · exfalso
          simp only [mkS, List.any_eq_true, decide_eq_true_eq] at hmk
          obtain ⟨t', ht'1, ht'2⟩ := hmk
          have hdup : d ∈ tl'.map idOf := by
            rw [← hj_eq, ← ht'2]
            exact List.mem_map_of_mem idOf ht'1
          have hnd : (idOf (ETag.internalC d tn ta) :: tl'.map idOf).Nodup := by
            rw [← List.map_cons]
            exact hnodup
          have h0 := (List.nodup_cons.1 hnd).1
          simp only [idOf] at h0
          exact h0 hdup
        · simp at hmk
          rw [hmk]
      · rw [setF_ne _ _ _ hi]
        simp only [mkS, List.any_cons]
        have hne : (decide (idOf (ETag.internalC d tn ta) = innerDelimiter i)) =
            false := by
          simp only [idOf, decide_eq_false_iff_not]
          intro hdd
          exact hi (innerDelimiter_inj j i (hj_eq.trans hdd)).symm
        rw [hne]
        simp
    have happly : applyInternal
        (itemsStr (itemsSList (mkS (ETag.internalC d tn ta :: tl')) content 0))
        (ETag.internalC d tn ta) =
        itemsStr (itemsSList (mkS tl') content 0) := by
      have hps := pySplit_items j A B C f1 f2 f3 hpA hpB hpC
      rw [hj_eq] at hps
      simp only [applyInternal]
      rw [h1, hps, if_pos (by simp)]
      rw [← hfun, h2]
      simp [itemsStr_append, itemsStr, interleaveGo, List.append_assoc]
    show List.foldl applyInternal _ (ETag.internalC d tn ta :: tl') = _
    rw [List.foldl_cons, happly]
    exact restore_anchor_fold tl' content hgood
      (fun t' ht' => hmem t' (List.mem_cons_of_mem _ ht'))
      ((List.nodup_cons.1 hnodup).2)

/-- The internal-anchor replay of `restore_html` — the manifest sorted by
id length descending, applied to the flattened text — rebuilds the
serialization of the block content. -/
theorem anchors_restore (content : List XNode) (hgood : goodList content = true) :
    (sortDescByIdLen (maniList content 0)).foldl applyInternal
      (itemsStr (itemsSList STrue content 0)) = xserList content := by
  have hperm := sortDesc_perm (maniList content 0)
  have hmem : ∀ t ∈ sortDescByIdLen (maniList content 0),
      t ∈ maniList content 0 := fun t ht => hperm.mem_iff.1 ht
  have hnodup : ((sortDescByIdLen (maniList content 0)).map idOf).Nodup :=
    ((hperm.map idOf).nodup_iff).2 (maniList_ids_nodup content 0)
  have hinit : itemsSList (mkS (sortDescByIdLen (maniList content 0))) content 0 =
      itemsSList STrue content 0 := by
    refine itemsSList_ext content 0 _ STrue ?_
    intro i hi1 hi2
    have h1 : innerDelimiter i ∈ (maniList content 0).map idOf := by
      rw [maniNode_ids_list]
      exact List.mem_map_of_mem _ (List.mem_range'_1.2 ⟨Nat.zero_le i, by omega⟩)
    obtain ⟨t, ht, hid⟩ := List.mem_map.1 h1
    simp only [mkS, List.any_eq_true, decide_eq_true_eq, STrue]
    exact ⟨t, hperm.mem_iff.2 ht, hid⟩
  have hfold := restore_anchor_fold (sortDescByIdLen (maniList content 0))
    content hgood hmem hnodup
  rw [hinit, serFalse_list content 0 hgood] at hfold
  exact hfold

/-! ### The parser inverts the serializer on plain blocks -/

lemma isNameChar_of_lower (c : Char) (h : 'a' ≤ c ∧ c ≤ 'z') :
    isNameChar c = true := by
  simp only [isNameChar, Bool.or_eq_true, decide_eq_true_eq]
  exact Or.inl h

lemma noAdjTexts_tail (n : XNode) (ns : List XNode)
    (h : noAdjTexts (n :: ns) = true) : noAdjTexts ns = true := by
  cases n with
  | text s =>
    cases ns with
    | nil => rfl
    | cons n2 ns2 =>
      cases n2 with
      | text s2 => exact absurd h (by simp [noAdjTexts])
      | elem p nm a ch => exact h
  | elem p nm a ch => exact h

lemma parseTextGo_exact : ∀ (txt rest : List Char),
    (∀ c ∈ txt, ¬(c = '<') ∧ ¬(c = '&')) →
    (rest = [] ∨ rest.take 1 = ['<']) →
    ∀ fuel, txt.length ≤ fuel → parseTextGo fuel (txt ++ rest) = (txt, rest)
  | [], rest, _, hrest, fuel, _ => by
    rw [List.nil_append]
    cases fuel with
    | zero => rfl
    | succ f =>
      rcases hrest with rfl | h2
      · rfl
      · cases rest with
        | nil => rfl
        | cons c r =>
          have hc : c = '<' := by
            have h3 : [c] = ['<'] := by simpa using h2
            simpa using h3
          subst hc
          simp [parseTextGo]
  | c :: txt', rest, hok, hrest, fuel, hfuel => by
    obtain ⟨f, rfl⟩ : ∃ f, fuel = f + 1 := by
      cases fuel with
      | zero => simp at hfuel
      | succ f => exact ⟨f, rfl⟩
    have hc := hok c (List.mem_cons_self c txt')
    rw [List.cons_append]
    simp only [parseTextGo]
    rw [if_neg hc.1, if_neg hc.2,
      parseTextGo_exact txt' rest
        (fun x hx => hok x (List.mem_cons_of_mem _ hx)) hrest f
        (by simp only [List.length_cons] at hfuel; omega)]

lemma parseAttrs_exact : ∀ (attrs : List (List Char × List Char)) (z : List Char),
    attrs.all attrOkW = true →
    ∀ fuel, (serAttrs attrs).length + 1 ≤ fuel →
    parseAttrs fuel (serAttrs attrs ++ '>' :: z) = some (attrs, z)
  | [], z, _, fuel, hfuel => by
    obtain ⟨f, rfl⟩ : ∃ f, fuel = f + 1 := by
      cases fuel with
      | zero => omega
      | succ f => exact ⟨f, rfl⟩
    show parseAttrs (f + 1) ([] ++ '>' :: z) = some ([], z)
    rw [List.nil_append]
    simp [parseAttrs]
  | (k, v) :: rest, z, hok, fuel, hfuel => by
    obtain ⟨f, rfl⟩ : ∃ f, fuel = f + 1 := by
      cases fuel with
      | zero => omega
      | succ f => exact ⟨f, rfl⟩
    rw [List.all_cons, Bool.and_eq_true] at hok
    have hkv := hok.1
    simp only [attrOkW, Bool.and_eq_true, decide_eq_true_eq] at hkv
    have hkname := hkv.1
    simp only [nameOkW, Bool.and_eq_true, decide_eq_true_eq, List.all_eq_true,
      List.isEmpty_iff] at hkname
    have hkchars : ∀ c ∈ k, isNameChar c = true := by
      intro c hc
      exact isNameChar_of_lower c (hkname.2 c hc)
    have hvchars : ∀ c ∈ v, ¬(c = '"') := by
      intro c hc
      have h2 := hkv.2
      rw [List.all_eq_true] at h2
      have h3 := h2 c hc
      rw [decide_eq_true_eq] at h3
      intro hq
      exact h3 (Or.inl hq)
    -- serialized shape
    have hser : serAttrs ((k, v) :: rest) ++ '>' :: z =
        ' ' :: (k ++ ('=' :: '"' :: (v ++ ('"' :: (serAttrs rest ++ '>' :: z))))) := by
      show (' ' :: (k ++ ('=' :: '"' :: v ++ ['"'])) ++ serAttrs rest) ++ '>' :: z = _
      simp [List.append_assoc, List.cons_append]
    rw [hser]
    have htw := takeWhile_append_all isNameChar k
      ('=' :: '"' :: (v ++ ('"' :: (serAttrs rest ++ '>' :: z))))
      hkchars (by intro d hd; cases hd; decide)
    have htwv := takeWhile_append_all (fun ch => ¬(ch = '"')) v
      ('"' :: (serAttrs rest ++ '>' :: z))
      (by
        intro c hc
        simpa using hvchars c hc)
      (by intro d hd; cases hd; simp)
    have hkne : k.isEmpty = false := by
      cases hk0 : k with
      | nil => exact absurd hk0 hkname.1
      | cons a b => rfl
    have hrec := parseAttrs_exact rest z hok.2 f (by
      have hlen : (serAttrs ((k, v) :: rest)).length =
          1 + (k.length + (2 + (v.length + 1))) + (serAttrs rest).length := by
        show (' ' :: (k ++ ('=' :: '"' :: v ++ ['"'])) ++ serAttrs rest).length = _
        simp [List.length_append]
        omega
      omega)
    simp only [parseAttrs, htw.1, hkne, List.drop_left, htwv.1, hrec]
    have htwv2 := takeWhile_append_all (fun ch => !decide (ch = '"')) v
      ('"' :: (serAttrs rest ++ '>' :: z))
      (by intro c hc; simpa using hvchars c hc)
      (by intro d hd; cases hd; simp)
    have hd1 : (v ++ ('"' :: (serAttrs rest ++ '>' :: z))).drop (v.length + 1) =
        serAttrs rest ++ '>' :: z := by
      rw [show v.length + 1 = (v ++ ['"']).length by simp]
      rw [show v ++ ('"' :: (serAttrs rest ++ '>' :: z)) =
        (v ++ ['"']) ++ (serAttrs rest ++ '>' :: z) by simp]
      exact List.drop_left _ _
    rw [show List.take 2 ('=' :: '"' :: (v ++ '"' :: (serAttrs rest ++ '>' :: z))) =
      ['=', '"'] from rfl, if_pos rfl]
    rw [show List.drop 2 ('=' :: '"' :: (v ++ '"' :: (serAttrs rest ++ '>' :: z))) =
      v ++ '"' :: (serAttrs rest ++ '>' :: z) from rfl]
    rw [htwv.1, List.drop_left]
    rw [show List.take 1 ('"' :: (serAttrs rest ++ '>' :: z)) = ['"'] from rfl,
      if_pos rfl]
    rw [show List.drop 1 ('"' :: (serAttrs rest ++ '>' :: z)) =
      serAttrs rest ++ '>' :: z from rfl]
    rw [hrec]
    rfl

/-- A take-2 decomposition helper for close-tag contexts. -/
lemma take2_shape (rest : List Char) (h : rest.take 2 = ['<', '/']) :
    ∃ r2, rest = '<' :: '/' :: r2 := by
  cases rest with
  | nil => exact absurd h (by simp)
  | cons a t =>
    cases t with
    | nil => exact absurd h (by simp)
    | cons b r2 =>
      have h2 : [a, b] = ['<', '/'] := by simpa using h
      have ha : a = '<' := by
        have := congrArg (fun l => List.headD l 'x') h2
        simpa using this
      have hb : b = '/' := by
        have := congrArg (fun l => List.headD (List.drop 1 l) 'x') h2
        simpa using this
      exact ⟨r2, by rw [ha, hb]⟩

/-- The parser reads back exactly the nodes the serializer wrote, leaving
a close-tag context (or nothing) unconsumed. -/
theorem parse_ser : ∀ (ns : List XNode), goodList ns = true →
    noAdjTexts ns = true →
    ∀ (rest : List Char), (rest = [] ∨ rest.take 2 = ['<', '/']) →
    ∀ fuel, (xserList ns ++ rest).length + 1 ≤ fuel →
    parseNodes fuel (xserList ns ++ rest) = some (ns, rest)
  | [], _, _, rest, hrest, fuel, hfuel => by
    obtain ⟨f, rfl⟩ : ∃ f, fuel = f + 1 := by
      cases fuel with
      | zero => omega
      | succ f => exact ⟨f, rfl⟩
    rw [show xserList [] ++ rest = rest from rfl]
    rcases hrest with rfl | h2
    · rfl
    · obtain ⟨r2, rfl⟩ := take2_shape rest h2
      simp only [parseNodes]
      rw [if_pos trivial,
        if_pos (show List.take 1 ('/' :: r2) = ['/'] from rfl)]
  | XNode.text s :: ns', hg, hadj, rest, hrest, fuel, hfuel => by
    obtain ⟨f, rfl⟩ : ∃ f, fuel = f + 1 := by
      cases fuel with
      | zero => omega
      | succ f => exact ⟨f, rfl⟩
    obtain ⟨hn, hrest'⟩ := (goodList_cons_iff _ _).1 hg
    obtain ⟨hsne, hchars, _, _⟩ := textOkW_parts s hn
    have hesc : escXml s = s := escXml_of_ok s (fun x hx =>
      ⟨(charOkT_parts x (hchars x hx)).2.2.1, (charOkT_parts x (hchars x hx)).1,
        (charOkT_parts x (hchars x hx)).2.1⟩)
    have hser : xserList (XNode.text s :: ns') ++ rest =
        s ++ (xserList ns' ++ rest) := by
      show (xser (XNode.text s) ++ xserList ns') ++ rest = _
      rw [show xser (XNode.text s) = escXml s from rfl, hesc, List.append_assoc]
    rw [hser]
    obtain ⟨c0, s0, rfl⟩ : ∃ c0 s0, s = c0 :: s0 := by
      cases s with
      | nil => exact absurd rfl hsne
      | cons a b => exact ⟨a, b, rfl⟩
    have hc0 := charOkT_parts c0 (hchars c0 (List.mem_cons_self _ _))
    have hrest2 : xserList ns' ++ rest = [] ∨
        (xserList ns' ++ rest).take 1 = ['<'] := by
      cases ns' with
      | nil =>
        rcases hrest with rfl | h2
        · exact Or.inl rfl
        · obtain ⟨r2, rfl⟩ := take2_shape rest h2
          exact Or.inr rfl
      | cons n2 ns'' =>
        cases n2 with
        | text s2 => exact absurd hadj (by simp [noAdjTexts])
        | elem p2 nm2 a2 ch2 => exact Or.inr rfl
    have htxt := parseTextGo_exact (c0 :: s0) (xserList ns' ++ rest)
      (fun x hx =>
        ⟨(charOkT_parts x (hchars x hx)).1, (charOkT_parts x (hchars x hx)).2.2.1⟩)
      hrest2
    rw [List.cons_append]
    simp only [parseNodes]
    rw [if_neg hc0.1]
    rw [show c0 :: (s0 ++ (xserList ns' ++ rest)) =
      (c0 :: s0) ++ (xserList ns' ++ rest) from rfl]
    rw [htxt ((s0 ++ (xserList ns' ++ rest)).length + 2) (by
      simp only [List.length_append, List.length_cons]
      omega)]
    have hlen : (xserList (XNode.text (c0 :: s0) :: ns')).length =
        (c0 :: s0).length + (xserList ns').length := by
      show (xser (XNode.text (c0 :: s0)) ++ xserList ns').length = _
      rw [show xser (XNode.text (c0 :: s0)) = escXml (c0 :: s0) from rfl, hesc]
      simp [List.length_append]
      omega
    have hih := parse_ser ns' hrest' (noAdjTexts_tail _ _ hadj) rest hrest f (by
      simp only [List.length_append, List.length_cons] at hfuel hlen ⊢
      omega)
    rw [hih]
  | XNode.elem pfx name attrs children :: ns', hg, hadj, rest, hrest, fuel, hfuel => by
    obtain ⟨f, rfl⟩ : ∃ f, fuel = f + 1 := by
      cases fuel with
      | zero => omega
      | succ f => exact ⟨f, rfl⟩
    obtain ⟨hn, hrest'⟩ := (goodList_cons_iff _ _).1 hg
    obtain ⟨hpfx, hname, hmono, hattrs, hne, hadjc, hl, hr, hgood⟩ :=
      goodNode_elem_parts pfx name attrs children hn
    subst hpfx
    simp only [nameOkW, Bool.and_eq_true, decide_eq_true_eq, List.all_eq_true,
      List.isEmpty_iff] at hname
    have hser : xserList (XNode.elem none name attrs children :: ns') ++ rest =
        '<' :: (name ++ (serAttrs attrs ++ '>' ::
          (xserList children ++ (('<' :: '/' :: (name ++ ['>'])) ++
            (xserList ns' ++ rest))))) := by
      show (xser (XNode.elem none name attrs children) ++ xserList ns') ++ rest = _
      show (('<' :: (tagNameOf none name ++ serAttrs attrs ++ ['>']) ++
        xserList children ++
        ('<' :: '/' :: (tagNameOf none name ++ ['>']))) ++ xserList ns') ++ rest = _
      show (('<' :: (name ++ serAttrs attrs ++ ['>']) ++ xserList children ++
        ('<' :: '/' :: (name ++ ['>']))) ++ xserList ns') ++ rest = _
      simp [List.append_assoc, List.cons_append]
    rw [hser]
    obtain ⟨nh, nt, rfl⟩ : ∃ nh nt, name = nh :: nt := by
      cases name with
      | nil => exact absurd rfl hname.1
      | cons a b => exact ⟨a, b, rfl⟩
    have hnh := hname.2 nh (List.mem_cons_self _ _)
    simp only [parseNodes]
    rw [if_pos trivial]
    rw [show ((nh :: nt) ++ (serAttrs attrs ++ '>' ::
      (xserList children ++ (('<' :: '/' :: ((nh :: nt) ++ ['>'])) ++
        (xserList ns' ++ rest))))).take 1 = [nh] from rfl]
    rw [if_neg (by
      intro hq
      have : nh = '/' := by simpa using hq
      have h2 := lower_toNat nh hnh
      rw [this] at h2
      exact absurd h2 (by decide))]
    have htw := takeWhile_append_all isNameChar (nh :: nt)
      (serAttrs attrs ++ '>' ::
        (xserList children ++ (('<' :: '/' :: ((nh :: nt) ++ ['>'])) ++
          (xserList ns' ++ rest))))
      (fun c hc => isNameChar_of_lower c (hname.2 c hc))
      (by
        intro d hd
        cases hattr0 : attrs with
        | nil =>
          rw [hattr0] at hd
          cases hd
          decide
        | cons kv r =>
          rw [hattr0] at hd
          rcases kv with ⟨k0, v0⟩
          cases hd
          decide)
    rw [htw.1]
    rw [if_neg (by simp)]
    rw [List.drop_left]
    have hpa := parseAttrs_exact attrs
      (xserList children ++ (('<' :: '/' :: ((nh :: nt) ++ ['>'])) ++
        (xserList ns' ++ rest))) hattrs
      (((nh :: nt) ++ (serAttrs attrs ++ '>' ::
        (xserList children ++ (('<' :: '/' :: ((nh :: nt) ++ ['>'])) ++
          (xserList ns' ++ rest))))).length + 1)
      (by
        simp only [List.length_append, List.length_cons]
        omega)
    simp only [hpa]
    have hlen2 := congrArg List.length hser
    simp only [List.length_append, List.length_cons] at hlen2
    have hihc := parse_ser children hgood hadjc
      (('<' :: '/' :: ((nh :: nt) ++ ['>'])) ++ (xserList ns' ++ rest))
      (Or.inr rfl) f (by
        simp only [List.length_append, List.length_cons] at hfuel hlen2 ⊢
        omega)
    simp only [hihc]
    rw [if_pos (List.isPrefixOf_iff_prefix.2 (List.prefix_append _ _))]
    rw [List.drop_left]
    have hiht := parse_ser ns' hrest' (noAdjTexts_tail _ _ hadj) rest hrest f (by
      simp only [List.length_append, List.length_cons] at hfuel hlen2 ⊢
      omega)
    simp only [hiht]

/-- The parser inverts the serializer on whole plain fragments. -/
lemma parseFragment_ser (ns : List XNode) (hg : goodList ns = true)
    (hadj : noAdjTexts ns = true) : parseFragment (xserList ns) = some ns := by
  unfold parseFragment
  have h := parse_ser ns hg hadj [] (Or.inl rfl) ((xserList ns).length + 1)
    (by simp)
  rw [List.append_nil] at h
  rw [h]

/-! ### The extracted text is already whitespace-normal -/

lemma goodCtx_parts (ns : List XNode) (h : goodCtx ns = true) :
    noAdjTexts ns = true ∧ edgeL ns = true ∧ edgeR ns = true ∧
    goodList ns = true := by
  simp only [goodCtx, Bool.and_eq_true, decide_eq_true_eq] at h
  tauto

lemma isPySpace_false_of_upper (c : Char) (h : 65 ≤ c.toNat ∧ c.toNat ≤ 90) :
    isPySpace c = false := by
  rw [Bool.eq_false_iff]
  intro hws
  simp only [isPySpace, Bool.or_eq_true, decide_eq_true_eq, Bool.and_eq_true]
    at hws
  rcases hws with hc|hc|hc|hc|hc|hc|hc|hc|hc|hc|hc|hc|hc|⟨h1, h2⟩|hc|hc|hc|hc|hc
    <;> first
    | (rw [hc] at h; exact absurd h (by decide))
    | omega

lemma delim_chars (j : Nat) :
    ∀ ch ∈ innerDelimiter j, ch = '(' ∨ ch = ')' ∨ isUpperCh ch = true := by
  intro ch hch
  rw [innerDelimiter_eq] at hch
  rcases List.mem_cons.1 hch with rfl | h2
  · exact Or.inl rfl
  rcases List.mem_cons.1 h2 with rfl | h3
  · exact Or.inl rfl
  rcases List.mem_append.1 h3 with h4 | h5
  · exact Or.inr (Or.inr (innerCode_caps j ch h4))
  · rcases List.mem_cons.1 h5 with rfl | h6
    · exact Or.inr (Or.inl rfl)
    · rcases List.mem_singleton.1 h6 with rfl
      exact Or.inr (Or.inl rfl)

lemma delim_no_space (j : Nat) :
    ∀ ch ∈ innerDelimiter j, ¬(ch = ' ') ∧ isPySpace ch = false := by
  intro ch hch
  rcases delim_chars j ch hch with rfl | rfl | hup
  · exact ⟨by decide, by decide⟩
  · exact ⟨by decide, by decide⟩
  · rw [isUpperCh_iff] at hup
    refine ⟨?_, isPySpace_false_of_upper ch hup⟩
    intro hsp
    rw [hsp] at hup
    exact absurd hup (by decide)

lemma noDbl_of_no_space : ∀ (s : List Char), (∀ ch ∈ s, ¬(ch = ' ')) →
    noDbl s = true
  | [] , _ => rfl
  | [c], _ => rfl
  | c1 :: c2 :: rest, h => by
    simp only [noDbl, Bool.and_eq_true, decide_eq_true_eq]
    exact ⟨fun hc => h c1 (List.mem_cons_self _ _) hc.1,
      noDbl_of_no_space (c2 :: rest)
        (fun ch hch => h ch (List.mem_cons_of_mem _ hch))⟩

lemma noDbl_cons_cons (c1 c2 : Char) (rest : List Char)
    (h : noDbl (c1 :: c2 :: rest) = true) :
    ¬(c1 = ' ' ∧ c2 = ' ') ∧ noDbl (c2 :: rest) = true := by
  simp only [noDbl, Bool.and_eq_true, decide_eq_true_eq] at h
  exact h

lemma noDbl_append : ∀ (a b : List Char), noDbl a = true → noDbl b = true →
    (∀ c1 c2, a.getLast? = some c1 → b.head? = some c2 →
      ¬(c1 = ' ' ∧ c2 = ' ')) →
    noDbl (a ++ b) = true
  | [], b, _, hb, _ => hb
  | [x], b, _, hb, hedge => by
    cases b with
    | nil => rfl
    | cons b0 b' =>
      simp only [List.cons_append, List.nil_append, noDbl, Bool.and_eq_true,
        decide_eq_true_eq]
      exact ⟨hedge x b0 rfl rfl, hb⟩
  | x :: y :: a', b, ha, hb, hedge => by
    have h2 := noDbl_cons_cons x y a' ha
    rw [List.cons_append]
    have h3 := noDbl_append (y :: a') b h2.2 hb (by
      intro c1 c2 hc1 hc2
      exact hedge c1 c2 (by rw [← hc1]; rfl) hc2)
    cases hyb : (y :: a') ++ b with
    | nil => simp at hyb
    | cons z zs =>
      have hz : z = y := by
        have := congrArg List.head? hyb
        simpa using this.symm
      simp only [noDbl, Bool.and_eq_true, decide_eq_true_eq]
      refine ⟨?_, by rw [← hyb]; exact h3⟩
      rw [hz]
      exact h2.1

lemma head?_append_left {l₁ l₂ : List Char} (h : l₁ ≠ []) :
    (l₁ ++ l₂).head? = l₁.head? := by
  cases l₁ with
  | nil => exact absurd rfl h
  | cons c t => rfl

lemma delim_head_last (j : Nat) :
    (innerDelimiter j).head? = some '(' ∧
    (innerDelimiter j).getLast? = some ')' := by
  constructor
  · rw [innerDelimiter_eq]
    rfl
  · rw [innerDelimiter_eq,
      show '(' :: '(' :: (innerCode j ++ [')', ')']) =
        ('(' :: '(' :: innerCode j) ++ [')', ')'] by simp,
      getLast?_append_right (by simp)]
    rfl

lemma edgeR_cons_cons (n n2 : XNode) (r2 : List XNode) :
    edgeR (n :: n2 :: r2) = edgeR (n2 :: r2) := by
  simp only [edgeR, List.getLast?_cons_cons]

mutual
theorem norm_node : ∀ (n : XNode) (c : Nat), goodNode n = true →
    (∀ ch ∈ itemsStr (itemsSNode STrue n c), isPySpace ch = true → ch = ' ') ∧
    noDbl (itemsStr (itemsSNode STrue n c)) = true ∧
    itemsStr (itemsSNode STrue n c) ≠ [] ∧
    (isElemNode n = true →
      (itemsStr (itemsSNode STrue n c)).head? = some '(' ∧
      (itemsStr (itemsSNode STrue n c)).getLast? = some ')') ∧
    (∀ s', n = XNode.text s' → itemsStr (itemsSNode STrue n c) = s')
  | XNode.text s, c, hg => by
    obtain ⟨hsne, hchars, hdbl, _⟩ := textOkW_parts s hg
    have hatom : itemsStr (itemsSNode STrue (XNode.text s) c) = s := by
      simp only [itemsSNode, itemsStr, List.append_nil]
      exact escLtGt_of_ok s (fun x hx =>
        ⟨(charOkT_parts x (hchars x hx)).1, (charOkT_parts x (hchars x hx)).2.1⟩)
    rw [hatom]
    refine ⟨fun ch hch hws => (charOkT_parts ch (hchars ch hch)).2.2.2.2.2 hws,
      hdbl, hsne, by simp [isElemNode], fun s' hs' => by cases hs'; rfl⟩
  | XNode.elem pfx name attrs children, c, hg => by
    obtain ⟨hpfx, hname, hmono, hattrs, hne, hadjc, hlc, hrc, hgood⟩ :=
      goodNode_elem_parts pfx name attrs children hg
    have hatom : itemsStr (itemsSNode STrue (XNode.elem pfx name attrs children) c) =
        innerDelimiter (cntList children c) ++
          (itemsStr (itemsSList STrue children c) ++
            innerDelimiter (cntList children c)) := by
      simp [itemsSNode, hmono, STrue, itemsStr, itemsStr_append]
    obtain ⟨hokI, hdblI, hLI, hRI, hneI⟩ := norm_list children c hgood hadjc
    rw [hatom]
    have hdne := innerDelimiter_ne_nil (cntList children c)
    have hdns := delim_no_space (cntList children c)
    have hdhl := delim_head_last (cntList children c)
    refine ⟨?_, ?_, ?_, ?_, ?_⟩
    · intro ch hch hws
      rcases List.mem_append.1 hch with h1 | h2
      · exact absurd hws (by rw [(hdns ch h1).2]; simp)
      rcases List.mem_append.1 h2 with h3 | h4
      · exact hokI ch h3 hws
      · exact absurd hws (by rw [(hdns ch h4).2]; simp)
    · refine noDbl_append _ _
        (noDbl_of_no_space _ (fun ch hch => (hdns ch hch).1)) ?_ ?_
      · refine noDbl_append _ _ hdblI
          (noDbl_of_no_space _ (fun ch hch => (hdns ch hch).1)) ?_
        intro c1 c2 hc1 hc2 hcc
        rw [hdhl.1] at hc2
        have : c2 = '(' := (by simpa using hc2 : '(' = c2).symm
        rw [this] at hcc
        exact absurd hcc.2 (by decide)
      · intro c1 c2 hc1 hc2 hcc
        rw [hdhl.2] at hc1
        have : c1 = ')' := (by simpa using hc1 : ')' = c1).symm
        rw [this] at hcc
        exact absurd hcc.1 (by decide)
    · intro hcontra
      rw [List.append_eq_nil] at hcontra
      exact hdne hcontra.1
    · intro _
      constructor
      · rw [head?_append_left hdne, hdhl.1]
      · rw [getLast?_append_right (by
          intro hcontra
          rw [List.append_eq_nil] at hcontra
          exact hdne hcontra.2),
          getLast?_append_right hdne, hdhl.2]
    · intro s' hs'
      cases hs'

theorem norm_list : ∀ (ns : List XNode) (c : Nat), goodList ns = true →
    noAdjTexts ns = true →
    (∀ ch ∈ itemsStr (itemsSList STrue ns c), isPySpace ch = true → ch = ' ') ∧
    noDbl (itemsStr (itemsSList STrue ns c)) = true ∧
    (edgeL ns = true → ∀ c0, (itemsStr (itemsSList STrue ns c)).head? = some c0 →
      isPySpace c0 = false) ∧
    (edgeR ns = true → ∀ c0, (itemsStr (itemsSList STrue ns c)).getLast? = some c0 →
      isPySpace c0 = false) ∧
    (ns ≠ [] → itemsStr (itemsSList STrue ns c) ≠ [])
  | [], c, _, _ => by
    refine ⟨by simp [itemsSList, itemsStr], rfl,
      ?_, ?_, fun h => absurd rfl h⟩
    · intro _ c0 hc0
      exact absurd hc0 (by simp [itemsSList, itemsStr])
    · intro _ c0 hc0
      exact absurd hc0 (by simp [itemsSList, itemsStr])
  | n :: rest, c, hg, hadj => by
    obtain ⟨hn, hrest⟩ := (goodList_cons_iff n rest).1 hg
    obtain ⟨hokN, hdblN, hneN, hElemN, hTextN⟩ := norm_node n c hn
    have hstep : itemsStr (itemsSList STrue (n :: rest) c) =
        itemsStr (itemsSNode STrue n c) ++
          itemsStr (itemsSList STrue rest (cntNode n c)) := by
      simp only [itemsSList, itemsStr_append]
    rw [hstep]
    obtain ⟨hokR, hdblR, hLR, hRR, hneR⟩ :=
      norm_list rest (cntNode n c) hrest (noAdjTexts_tail _ _ hadj)
    have hheadRest : ∀ n2 r2, rest = n2 :: r2 → isElemNode n2 = true →
        (itemsStr (itemsSList STrue rest (cntNode n c))).head? = some '(' := by
      intro n2 r2 hr2 helem
      subst hr2
      obtain ⟨_, _, hne2, hElem2, _⟩ :=
        norm_node n2 (cntNode n c) ((goodList_cons_iff n2 r2).1 hrest).1
      have hstep2 : itemsStr (itemsSList STrue (n2 :: r2) (cntNode n c)) =
          itemsStr (itemsSNode STrue n2 (cntNode n c)) ++
            itemsStr (itemsSList STrue r2 (cntNode n2 (cntNode n c))) := by
        simp only [itemsSList, itemsStr_append]
      rw [hstep2, head?_append_left hne2]
      exact (hElem2 helem).1
    refine ⟨?_, ?_, ?_, ?_, ?_⟩
    · intro ch hch hws
      rcases List.mem_append.1 hch with h1 | h2
      · exact hokN ch h1 hws
      · exact hokR ch h2 hws
    · refine noDbl_append _ _ hdblN hdblR ?_
      intro c1 c2 hc1 hc2 hcc
      cases n with
      | elem p nm a ch =>
        rw [(hElemN rfl).2] at hc1
        have : c1 = ')' := (by simpa using hc1 : ')' = c1).symm
        rw [this] at hcc
        exact absurd hcc.1 (by decide)
      | text s =>
        cases rest with
        | nil =>
          rw [show itemsStr (itemsSList STrue ([] : List XNode) (cntNode (XNode.text s) c)) =
            [] from rfl] at hc2
          exact absurd hc2 (by simp)
        | cons n2 r2 =>
          cases n2 with
          | text s2 => exact absurd hadj (by simp [noAdjTexts])
          | elem p2 nm2 a2 ch2 =>
            rw [hheadRest _ r2 rfl (by simp [isElemNode])] at hc2
            have : c2 = '(' := (by simpa using hc2 : '(' = c2).symm
            rw [this] at hcc
            exact absurd hcc.2 (by decide)
    · intro hedge c0 hc0
      rw [head?_append_left hneN] at hc0
      cases n with
      | elem p nm a ch =>
        rw [(hElemN rfl).1] at hc0
        have : c0 = '(' := (by simpa using hc0 : '(' = c0).symm
        rw [this]
        decide
      | text s =>
        rw [hTextN s rfl] at hc0
        have hc0mem : c0 ∈ s := List.mem_of_mem_head? hc0
        obtain ⟨_, hchars, _, _⟩ :=
          textOkW_parts s ((by exact hn : goodNode (XNode.text s) = true))
        have hcw := (charOkT_parts c0 (hchars c0 hc0mem)).2.2.2.2.2
        have hne' : ¬(c0 = ' ') := by
          simp only [edgeL] at hedge
          rw [decide_eq_true_eq] at hedge
          intro hsp
          cases s with
          | nil => exact absurd hc0 (by simp)
          | cons a b =>
            have : a = c0 := by simpa using hc0
            rw [← hsp, ← this] at hedge
            exact hedge rfl
        rw [Bool.eq_false_iff]
        intro hws
        exact hne' (hcw hws)
    · intro hedge c0 hc0
      cases hrest0 : rest with
      | nil =>
        subst hrest0
        rw [show itemsStr (itemsSList STrue ([] : List XNode) (cntNode n c)) =
          [] from rfl, List.append_nil] at hc0
        cases n with
        | elem p nm a ch =>
          rw [(hElemN rfl).2] at hc0
          have : c0 = ')' := (by simpa using hc0 : ')' = c0).symm
          rw [this]
          decide
        | text s =>
          rw [hTextN s rfl] at hc0
          have hc0mem : c0 ∈ s := List.mem_of_mem_getLast? hc0
          obtain ⟨_, hchars, _, _⟩ :=
            textOkW_parts s ((by exact hn : goodNode (XNode.text s) = true))
          have hcw := (charOkT_parts c0 (hchars c0 hc0mem)).2.2.2.2.2
          have hne' : ¬(c0 = ' ') := by
            simp only [edgeR, List.getLast?_singleton] at hedge
            rw [decide_eq_true_eq] at hedge
            intro hsp
            rw [hc0] at hedge
            rw [← hsp] at hedge
            exact hedge rfl
          rw [Bool.eq_false_iff]
          intro hws
          exact hne' (hcw hws)
      | cons n2 r2 =>
        subst hrest0
        have hneR2 := hneR (by simp)
        rw [getLast?_append_right hneR2] at hc0
        have hedge2 : edgeR (n2 :: r2) = true := by
          rw [← edgeR_cons_cons n n2 r2]
          exact hedge
        exact hRR hedge2 c0 hc0
    · intro _
      intro hcontra
      rw [List.append_eq_nil] at hcontra
      exact hneN hcontra.1
end

lemma collapseWsGo_id : ∀ (s : List Char),
    (∀ ch ∈ s, isPySpace ch = true → ch = ' ') → noDbl s = true →
    (collapseWsGo false s = s ∧
      ((∀ c0, s.head? = some c0 → ¬(c0 = ' ')) → collapseWsGo true s = s))
  | [], _, _ => ⟨rfl, fun _ => rfl⟩
  | c :: s', hok, hdbl => by
    have hdbl' : noDbl s' = true := by
      cases s' with
      | nil => rfl
      | cons c2 r => exact (noDbl_cons_cons c c2 r hdbl).2
    have hIH := collapseWsGo_id s'
      (fun ch hch => hok ch (List.mem_cons_of_mem _ hch)) hdbl'
    constructor
    · show (if isPySpace c then
          if false then collapseWsGo true s' else ' ' :: collapseWsGo true s'
        else c :: collapseWsGo false s') = c :: s'
      by_cases hws : isPySpace c
      · have hc : c = ' ' := hok c (List.mem_cons_self _ _) hws
        rw [if_pos hws, if_neg (by simp)]
        subst hc
        congr 1
        refine hIH.2 ?_
        intro c0 hc0 hc0sp
        cases s' with
        | nil => exact absurd hc0 (by simp)
        | cons c2 r =>
          have hd := (noDbl_cons_cons ' ' c2 r hdbl).1
          have : c2 = c0 := by simpa using hc0
          exact hd ⟨rfl, by rw [this, hc0sp]⟩
      · rw [if_neg hws, hIH.1]
    · intro hhead
      have hc : ¬(c = ' ') := hhead c rfl
      have hws : isPySpace c = false := by
        rw [Bool.eq_false_iff]
        intro hws2
        exact hc (hok c (List.mem_cons_self _ _) hws2)
      show (if isPySpace c then
          if true then collapseWsGo true s' else ' ' :: collapseWsGo true s'
        else c :: collapseWsGo false s') = c :: s'
      rw [if_neg (by rw [hws]; simp), hIH.1]

/-- A whitespace-normal string is a fixed point of the extractor's final
normalization. -/
lemma normalizeWs_id (s : List Char)
    (hok : ∀ ch ∈ s, isPySpace ch = true → ch = ' ')
    (hdbl : noDbl s = true)
    (hh : ∀ c0, s.head? = some c0 → isPySpace c0 = false)
    (hl : ∀ c0, s.getLast? = some c0 → isPySpace c0 = false) :
    normalizeWs s = s := by
  unfold normalizeWs
  rw [(collapseWsGo_id s hok hdbl).1]
  exact pyStrip_eq_self hh hl

/-- The extracted flattened text of a plain block is already normal. -/
lemma flat_normalizeWs (content : List XNode) (hctx : goodCtx content = true) :
    normalizeWs (itemsStr (itemsSList STrue content 0)) =
      itemsStr (itemsSList STrue content 0) := by
  obtain ⟨hadj, hl, hr, hlist⟩ := goodCtx_parts content hctx
  obtain ⟨h1, h2, h3, h4, _⟩ := norm_list content 0 hlist hadj
  exact normalizeWs_id _ h1 h2 (h3 hl) (h4 hr)

/-! ### The folding loop on plain blocks -/

lemma goodList_mem : ∀ (ns : List XNode), goodList ns = true →
    ∀ n ∈ ns, goodNode n = true
  | [], _, n, hn => absurd hn (by simp)
  | n0 :: rest, hg, n, hn => by
    obtain ⟨h1, h2⟩ := (goodList_cons_iff n0 rest).1 hg
    rcases List.mem_cons.1 hn with rfl | h3
    · exact h1
    · exact goodList_mem rest h2 n h3

lemma wsOnlyText_false (n : XNode) (hg : goodNode n = true) :
    wsOnlyText n = false := by
  cases n with
  | elem p nm a ch => rfl
  | text s =>
    obtain ⟨_, hchars, _, c0, hc0mem, hc0⟩ := textOkW_parts s hg
    show s.all isPySpace = false
    rw [Bool.eq_false_iff]
    intro hall
    rw [List.all_eq_true] at hall
    exact hc0 ((charOkT_parts c0 (hchars c0 hc0mem)).2.2.2.2.2 (hall c0 hc0mem))

lemma filter_wsOnly_id (ns : List XNode) (hg : goodList ns = true) :
    ns.filter (fun n => ¬wsOnlyText n) = ns := by
  rw [List.filter_eq_self]
  intro n hn
  rw [wsOnlyText_false n (goodList_mem ns hg n hn)]
  simp

mutual
theorem hasText_good_node : ∀ (n : XNode), goodNode n = true → hasText n = true
  | XNode.text s, hg => by
    obtain ⟨_, hchars, _, c0, hc0mem, hc0⟩ := textOkW_parts s hg
    show (¬s.all isPySpace : Bool) = true
    have : s.all isPySpace = false := by
      rw [Bool.eq_false_iff]
      intro hall
      rw [List.all_eq_true] at hall
      exact hc0 ((charOkT_parts c0 (hchars c0 hc0mem)).2.2.2.2.2 (hall c0 hc0mem))
    rw [this]
    simp
  | XNode.elem pfx name attrs children, hg => by
    obtain ⟨_, _, _, _, hne, _, _, _, hgood⟩ :=
      goodNode_elem_parts pfx name attrs children hg
    show hasTextList children = true
    exact hasText_good_list children hgood hne

theorem hasText_good_list : ∀ (ns : List XNode), goodList ns = true →
    ns ≠ [] → hasTextList ns = true
  | [], _, hne => absurd rfl hne
  | n :: rest, hg, _ => by
    obtain ⟨h1, _⟩ := (goodList_cons_iff n rest).1 hg
    show (hasText n ∨ hasTextList rest : Bool) = true
    rw [hasText_good_node n h1]
    simp
end

lemma foldableB_false (n : XNode) (hg : goodNode n = true) :
    foldableB n = false := by
  cases n with
  | text s => rfl
  | elem pfx name attrs children =>
    obtain ⟨_, _, _, _, hne, _, _, _, hgood⟩ :=
      goodNode_elem_parts pfx name attrs children hg
    show (¬hasTextList children ∧
      children.all (fun c => ¬isElemNode c) : Bool) = false
    rw [Bool.eq_false_iff]
    intro h
    simp only [Bool.and_eq_true, decide_eq_true_eq] at h
    exact h.1 (by rw [hasText_good_list children hgood hne])

lemma stripNodesLeft_id (ns : List XNode) (hg : goodList ns = true)
    (hl : edgeL ns = true) : stripNodesLeft ns = ns := by
  cases ns with
  | nil => rfl
  | cons n rest =>
    cases n with
    | elem p nm a ch => rfl
    | text s =>
      obtain ⟨h1, _⟩ := (goodList_cons_iff _ rest).1 hg
      obtain ⟨hsne, hchars, _, _⟩ := textOkW_parts s h1
      obtain ⟨c0, s0, rfl⟩ : ∃ c0 s0, s = c0 :: s0 := by
        cases s with
        | nil => exact absurd rfl hsne
        | cons a b => exact ⟨a, b, rfl⟩
      have hc0 : ¬(c0 = ' ') := by
        simp only [edgeL] at hl
        rw [decide_eq_true_eq] at hl
        intro hsp
        rw [show (c0 :: s0).headD 'x' = c0 from rfl] at hl
        exact hl hsp
      have hws : isPySpace c0 = false := by
        rw [Bool.eq_false_iff]
        intro hws2
        exact hc0 ((charOkT_parts c0
          (hchars c0 (List.mem_cons_self _ _))).2.2.2.2.2 hws2)
      show (let s2 := (c0 :: s0).dropWhile isPySpace
        if s2.isEmpty then stripNodesLeft rest else XNode.text s2 :: rest) = _
      rw [show (c0 :: s0).dropWhile isPySpace = c0 :: s0 by
        rw [List.dropWhile_cons, hws]
        simp]
      rw [if_neg (by simp)]

lemma stripNodesRight_id : ∀ (ns : List XNode), goodList ns = true →
    edgeR ns = true → stripNodesRight ns = ns
  | [], _, _ => rfl
  | [n], hg, hr => by
    cases n with
    | elem p nm a ch => rfl
    | text s =>
      obtain ⟨h1, _⟩ := (goodList_cons_iff _ []).1 hg
      obtain ⟨hsne, hchars, _, _⟩ := textOkW_parts s h1
      have hlast : ∀ c0, s.getLast? = some c0 → isPySpace c0 = false := by
        intro c0 hc0
        have hc0mem : c0 ∈ s := List.mem_of_mem_getLast? hc0
        have hne2 : ¬(c0 = ' ') := by
          simp only [edgeR, List.getLast?_singleton] at hr
          rw [decide_eq_true_eq] at hr
          intro hsp
          rw [hc0] at hr
          rw [← hsp] at hr
          exact hr rfl
        rw [Bool.eq_false_iff]
        intro hws
        exact hne2 ((charOkT_parts c0 (hchars c0 hc0mem)).2.2.2.2.2 hws)
      show (let s2 := dropTrailingSpace s
        if s2.isEmpty then [] else [XNode.text s2]) = _
      rw [dropTrailingSpace_eq_self hlast]
      rw [if_neg (by
        rw [List.isEmpty_iff]
        simpa using hsne)]
  | n :: n2 :: rest, hg, hr => by
    obtain ⟨h1, h2⟩ := (goodList_cons_iff _ _).1 hg
    show n :: stripNodesRight (n2 :: rest) = n :: n2 :: rest
    rw [stripNodesRight_id (n2 :: rest) h2 (by rw [← edgeR_cons_cons n]; exact hr)]

lemma stripEdges_id (ns : List XNode) (hctx : goodCtx ns = true) :
    stripEdges ns = ns := by
  obtain ⟨hadj, hl, hr, hlist⟩ := goodCtx_parts ns hctx
  unfold stripEdges
  rw [stripNodesLeft_id ns hlist hl, stripNodesRight_id ns hlist hr]

lemma goodNode_children_ctx (pfx : Option (List Char)) (name : List Char)
    (attrs : List (List Char × List Char)) (children : List XNode)
    (hg : goodNode (XNode.elem pfx name attrs children) = true) :
    goodCtx children = true := by
  obtain ⟨_, _, _, _, _, hadj, hl, hr, hgood⟩ :=
    goodNode_elem_parts pfx name attrs children hg
  simp [goodCtx, hadj, hl, hr, hgood]

/-- On a plain block the folding loop performs only wrap folds, keeps the
content plain, and replaying the recorded folds in reverse over the
serialized final content rebuilds the serialized input. -/
theorem foldLoop_W : ∀ (fuel : Nat) (content : List XNode) (tags0 : List ETag),
    goodCtx content = true →
    ∃ content2 ftags,
      foldLoop fuel content tags0 = (content2, tags0 ++ ftags) ∧
      goodCtx content2 = true ∧
      (∀ t ∈ ftags, isFoldedTag t = true) ∧
      (ftags.reverse.foldl applyFold (some (xserList content2)) =
        some (xserList content)) := by
  intro fuel
  induction fuel with
  | zero =>
    intro content tags0 hctx
    exact ⟨content, [], by simp [foldLoop], hctx, by simp, by simp⟩
  | succ f ih =>
    intro content tags0 hctx
    obtain ⟨hadj, hl, hr, hlist⟩ := goodCtx_parts content hctx
    cases content with
    | nil => exact ⟨[], [], by simp [foldLoop], hctx, by simp, by simp⟩
    | cons first restN =>
      have hfilter := filter_wsOnly_id (first :: restN) hlist
      have hfirst : goodNode first = true :=
        goodList_mem _ hlist first (List.mem_cons_self _ _)
      have hlastmem : (first :: restN).getLast (by simp) ∈ first :: restN :=
        List.getLast_mem _
      have hnf1 : foldableB first = false := foldableB_false first hfirst
      have hnf2 : foldableB ((first :: restN).getLast (by simp)) = false :=
        foldableB_false _ (goodList_mem _ hlist _ hlastmem)
      cases first with
      | text s =>
        have hstep : foldLoop (f + 1) (XNode.text s :: restN) tags0 =
            (XNode.text s :: restN, tags0) := by
          simp only [foldLoop, hfilter]
          rw [if_neg (by rw [hnf1]; simp), if_neg (by rw [hnf2]; simp)]
        exact ⟨XNode.text s :: restN, [], by rw [hstep]; simp, hctx,
          by simp, by simp⟩
      | elem pfx name attrs children =>
        cases restN with
        | cons r1 r2 =>
          have hstep : foldLoop (f + 1)
              (XNode.elem pfx name attrs children :: r1 :: r2) tags0 =
              (XNode.elem pfx name attrs children :: r1 :: r2, tags0) := by
            simp only [foldLoop, hfilter]
            rw [if_neg (by rw [hnf1]; simp), if_neg (by rw [hnf2]; simp)]
          exact ⟨XNode.elem pfx name attrs children :: r1 :: r2, [],
            by rw [hstep]; simp, hctx, by simp, by simp⟩
        | nil =>
          obtain ⟨hpfx, hname, hmono, hattrs, hne, hadjc, hlc, hrc, hgood⟩ :=
            goodNode_elem_parts pfx name attrs children hfirst
          subst hpfx
          have hchctx := goodNode_children_ctx none name attrs children hfirst
          have hstep : foldLoop (f + 1)
              ([XNode.elem none name attrs children]) tags0 =
              foldLoop f (stripEdges children)
                (tags0 ++ [ETag.folded name attrs FoldKind.fWrap]) := by
            simp only [foldLoop, hfilter]
            rw [if_neg (by rw [hnf1]; simp), if_neg (by rw [hnf2]; simp)]
          rw [hstep, stripEdges_id children hchctx]
          obtain ⟨content2, ftags, heq, hg2, hfolded, hfold⟩ :=
            ih children (tags0 ++ [ETag.folded name attrs FoldKind.fWrap]) hchctx
          refine ⟨content2, ETag.folded name attrs FoldKind.fWrap :: ftags,
            ?_, hg2, ?_, ?_⟩
          · rw [heq, List.append_assoc]
            rfl
          · intro t ht
            rcases List.mem_cons.1 ht with rfl | h2
            · rfl
            · exact hfolded t h2
          · rw [show (ETag.folded name attrs FoldKind.fWrap :: ftags).reverse =
              ftags.reverse ++ [ETag.folded name attrs FoldKind.fWrap] by simp]
            rw [List.foldl_append, hfold]
            show applyFold (some (xserList children))
              (ETag.folded name attrs FoldKind.fWrap) =
              some (xserList [XNode.elem none name attrs children])
            simp only [applyFold]
            rw [parseFragment_ser children hgood hadjc]
            show some (xser (XNode.elem none name attrs children)) = _
            simp [xserList]

/-! ### The exact round trip on plain blocks -/

lemma folded_not_internal (t : ETag) (h : isFoldedTag t = true) :
    isInternalTag t = false := by
  cases t with
  | folded a b c => rfl
  | internalC a b c => exact absurd h (by simp [isFoldedTag])
  | internalM a b c d => exact absurd h (by simp [isFoldedTag])

/-- C1 (amended, exact round trip): on any plain block — texts non-empty
without angle brackets, ampersands, parentheses or exotic whitespace, no
double or edge spaces, no adjacent texts; elements with lowercase
non-monolithic names, clean attributes, no namespace prefix, and
non-empty child lists of the same shape — `restore_html` applied to the
untouched output of `extract_block_with_local_ids` rebuilds the child
list exactly, byte for byte. -/
theorem C1_round_trip_plain (cs : List XNode) (h : goodCtx cs = true) :
    restoreHtml (extractBlock cs).2 (extractBlock cs).1 = some cs := by
  obtain ⟨hadj, hl, hr, hlist⟩ := goodCtx_parts cs h
  have hstrip := stripEdges_id cs h
  obtain ⟨content2, ftags, heqF, hg2, hfolded, hfoldapp⟩ :=
    foldLoop_W (xsizeList (stripEdges cs) + 1) (stripEdges cs) []
      (by rw [hstrip]; exact h)
  obtain ⟨hadj2, hl2, hr2, hlist2⟩ := goodCtx_parts content2 hg2
  rw [hstrip] at hfoldapp
  have hextract : extractBlock cs =
      (itemsStr (itemsSList STrue content2 0),
        ftags ++ maniList content2 0) := by
    simp only [extractBlock, heqF, List.nil_append, eExtractList_eq]
    rw [flat_normalizeWs content2 hg2]
  have hfiltI : ((ftags ++ maniList content2 0).filter isInternalTag) =
      maniList content2 0 := by
    rw [List.filter_append]
    have h1 : ftags.filter isInternalTag = [] := by
      rw [List.filter_eq_nil_iff]
      intro t ht
      rw [folded_not_internal t (hfolded t ht)]
      simp
    have h2 : (maniList content2 0).filter isInternalTag =
        maniList content2 0 := by
      rw [List.filter_eq_self]
      intro t ht
      obtain ⟨d, tn, ta, rfl⟩ := mani_ctor_list content2 0 hlist2 t ht
      rfl
    rw [h1, h2, List.nil_append]
  have hfiltF : ((ftags ++ maniList content2 0).filter isFoldedTag) = ftags := by
    rw [List.filter_append]
    have h1 : ftags.filter isFoldedTag = ftags := by
      rw [List.filter_eq_self]
      exact hfolded
    have h2 : (maniList content2 0).filter isFoldedTag = [] := by
      rw [List.filter_eq_nil_iff]
      intro t ht
      obtain ⟨d, tn, ta, rfl⟩ := mani_ctor_list content2 0 hlist2 t ht
      simp [isFoldedTag]
    rw [h1, h2, List.append_nil]
  rw [hextract]
  simp only [restoreHtml, hfiltI, hfiltF]
  rw [anchors_restore content2 hlist2]
  simp only [hfoldapp]
  rw [parseFragment_ser cs hlist hadj]

/-- A concrete plain block for the witness:
`<p>Hello <b>world</b>!</p>`. -/
def c1GoodChildren : List XNode :=
  [XNode.text (str "Hello "),
   XNode.elem none (str "b") [] [XNode.text (str "world")],
   XNode.text (str "!")]

/-- Witness: the concrete block `Hello <b>world</b>!` is plain, and the
round trip on it is exact. -/
theorem C1_round_trip_witness :
    goodCtx c1GoodChildren = true ∧
    restoreHtml (extractBlock c1GoodChildren).2 (extractBlock c1GoodChildren).1 =
      some c1GoodChildren :=
  ⟨by decide, C1_round_trip_plain c1GoodChildren (by decide)⟩

end AET
